import Mathlib

/-!
Verification of the rudd BDD engine (a Go library for reduced ordered binary
decision diagrams) against its specification.

The development is a shallow embedding of the Go sources:

* machine integers (int, int32) are modelled as Lean Int or Nat; all the
  quantities involved stay far below the overflow bounds of their Go types on
  the states covered by the theorems (this is noted locally where relevant);
* Go slices become Lean lists with explicit index accesses;
* in-place mutation becomes explicit state passing;
* recursions whose termination rests on runtime invariants of the node table
  (hash-chain walks, depth-first marking, spine walks) take an explicit fuel
  argument; adequacy of the fuel used by the embedded entry points is proved
  from the table invariants;
* logging and statistics counters (fields only read by the Stats printers)
  are omitted.

Every definition mirrors a named Go function; the doc comment of each
definition names its source.
-/

namespace Rudd

/-- Operator mirrors the type of binary operation codes of operator.go: the
ten binary operators in order (and, xor, or, nand, nor, imp, biimp, diff,
less, invimp) followed by the unary negation code used only in caches. -/
inductive Operator where
  | OPand
  | OPxor
  | OPor
  | OPnand
  | OPnor
  | OPimp
  | OPbiimp
  | OPdiff
  | OPless
  | OPinvimp
  | opnot
deriving DecidableEq, Repr

/-- Numeric code of an operator, matching the Go iota order of operator.go. -/
def Operator.toNat : Operator → Nat
  | .OPand => 0
  | .OPxor => 1
  | .OPor => 2
  | .OPnand => 3
  | .OPnor => 4
  | .OPimp => 5
  | .OPbiimp => 6
  | .OPdiff => 7
  | .OPless => 8
  | .OPinvimp => 9
  | .opnot => 10

/-- True when the code is one of the ten binary operators usable in Apply. -/
def Operator.isBinary (op : Operator) : Bool := op.toNat ≤ 9

/-- opres is the table of 2 by 2 truth tables of operator.go (entries are the
integers 0 and 1 exactly as in the Go array literal; the row for the unary
code is the zero value of the Go array, as in the source). -/
def opres (op : Operator) (l r : Nat) : Nat :=
  match op, l, r with
  | .OPand, 0, 0 => 0
  | .OPand, 0, 1 => 0
  | .OPand, 1, 0 => 0
  | .OPand, 1, 1 => 1
  | .OPxor, 0, 0 => 0
  | .OPxor, 0, 1 => 1
  | .OPxor, 1, 0 => 1
  | .OPxor, 1, 1 => 0
  | .OPor, 0, 0 => 0
  | .OPor, 0, 1 => 1
  | .OPor, 1, 0 => 1
  | .OPor, 1, 1 => 1
  | .OPnand, 0, 0 => 1
  | .OPnand, 0, 1 => 1
  | .OPnand, 1, 0 => 1
  | .OPnand, 1, 1 => 0
  | .OPnor, 0, 0 => 1
  | .OPnor, 0, 1 => 0
  | .OPnor, 1, 0 => 0
  | .OPnor, 1, 1 => 0
  | .OPimp, 0, 0 => 1
  | .OPimp, 0, 1 => 1
  | .OPimp, 1, 0 => 0
  | .OPimp, 1, 1 => 1
  | .OPbiimp, 0, 0 => 1
  | .OPbiimp, 0, 1 => 0
  | .OPbiimp, 1, 0 => 0
  | .OPbiimp, 1, 1 => 1
  | .OPdiff, 0, 0 => 0
  | .OPdiff, 0, 1 => 0
  | .OPdiff, 1, 0 => 1
  | .OPdiff, 1, 1 => 0
  | .OPless, 0, 0 => 0
  | .OPless, 0, 1 => 1
  | .OPless, 1, 0 => 0
  | .OPless, 1, 1 => 0
  | .OPinvimp, 0, 0 => 1
  | .OPinvimp, 0, 1 => 0
  | .OPinvimp, 1, 0 => 1
  | .OPinvimp, 1, 1 => 1
  | _, _, _ => 0

/-- Boolean semantics of a binary operator, read off the opres table. -/
def opsem (op : Operator) (x y : Bool) : Bool :=
  opres op (cond x 1 0) (cond y 1 0) == 1

/-! ## Set.Equal (set.go)

Go handles (type Node, a pointer to int) are modelled as an optional address
into a heap of ints: the nil handle is none, and a non-nil handle is some
address.  Go pointer equality is address equality; dereferencing reads the
heap at the address. -/

/-- Equal mirrors Set.Equal of set.go: pointer equality first, then nil
checks, then comparison of the two referenced node ids. -/
def Equal (heap : Nat → Int) (low high : Option Nat) : Bool :=
  if low == high then true
  else
    match low, high with
    | none, _ => false
    | _, none => false
    | some x, some y => decide (heap x = heap y)

/-- C10: Set.Equal is total on null handles: it returns true on two handles
that are the same pointer (in particular two nil handles), false when exactly
one of the two is nil, and otherwise compares the two referenced node ids; it
never dereferences a nil handle (the result on a nil operand does not depend
on the heap). -/
theorem equal_spec (heap heap2 : Nat → Int) (a b : Option Nat) :
    (a = b → Equal heap a b = true) ∧
    (Equal heap none none = true) ∧
    (a = none → b ≠ none → Equal heap a b = false) ∧
    (a ≠ none → b = none → Equal heap a b = false) ∧
    (∀ x y, a = some x → b = some y →
      Equal heap a b = decide (heap x = heap y)) ∧
    (a = none ∨ b = none → Equal heap a b = Equal heap2 a b) := by
  refine ⟨?_, ?_, ?_, ?_, ?_, ?_⟩
  · rintro rfl; simp [Equal]
  · rfl
  · rintro rfl hb
    cases b with
    | none => exact absurd rfl hb
    | some y => rfl
  · rintro ha rfl
    cases a with
    | none => exact absurd rfl ha
    | some x => rfl
  · rintro x y rfl rfl
    by_cases h : x = y
    · subst h; simp [Equal]
    · have : (some x == some y) = false := by
        simp [h]
      simp [Equal, this]
  · rintro (rfl | rfl)
    · cases b <;> rfl
    · cases a with
      | none => rfl
      | some x => rfl

/-- Closed instantiation of equal_spec at concrete handles and heaps. -/
theorem equal_spec_witness :
    ((some 3 : Option Nat) = some 3 →
      Equal (fun _ => (0 : Int)) (some 3) (some 3) = true) ∧
    (Equal (fun _ => (0 : Int)) none none = true) ∧
    ((some 3 : Option Nat) = none → (some 3 : Option Nat) ≠ none →
      Equal (fun _ => (0 : Int)) (some 3) (some 3) = false) ∧
    ((some 3 : Option Nat) ≠ none → (some 3 : Option Nat) = none →
      Equal (fun _ => (0 : Int)) (some 3) (some 3) = false) ∧
    (∀ x y, (some 3 : Option Nat) = some x → (some 3 : Option Nat) = some y →
      Equal (fun _ => (0 : Int)) (some 3) (some 3) =
        decide ((fun _ => (0 : Int)) x = (fun _ => (0 : Int)) y)) ∧
    ((some 3 : Option Nat) = none ∨ (some 3 : Option Nat) = none →
      Equal (fun _ => (0 : Int)) (some 3) (some 3) =
        Equal (fun _ => (1 : Int)) (some 3) (some 3)) :=
  equal_spec (fun _ => (0 : Int)) (fun _ => (1 : Int)) (some 3) (some 3)

/-! ## Functional core of the construction algorithms

The recursive algorithms apply, not, ite, quant and appquant of errors.go and
hoperations.go work on node ids of a hash-consed table; by canonicity of that
table, ids are in bijection with reduced ordered decision trees.  The
functional layer below embeds these algorithms on the tree representation B:
the constants are the two leaves, makenode becomes the reducedness-enforcing
smart constructor, and hash-consing makes id equality structural equality.
The memoization caches (pure lookups of previously returned results) and the
internal reference stack (protection against garbage collection, treated with
the state-level embedding further down) are elided: neither changes the value
returned.  Recursions take fuel; the source recursions terminate on the
table's ordering invariant, and the theorems prove the fuel used is adequate
for ordered inputs. -/

/-- Decision tree representation of a BDD node: the two constant sinks and
the internal nodes with a level and two children. -/
inductive B where
  | zero
  | one
  | node (level : Nat) (low : B) (high : B)
deriving DecidableEq, Repr

/-- Level of a node, as read by b.level: constants carry level V. -/
def levelOf (V : Nat) : B → Nat
  | .node l _ _ => l
  | _ => V

/-- Low branch, as read by b.low: constants have low equal to themselves. -/
def lowOf : B → B
  | .node _ lo _ => lo
  | t => t

/-- High branch, as read by b.high: constants have high equal to themselves. -/
def highOf : B → B
  | .node _ _ hi => hi
  | t => t

/-- True exactly on the two constants (node ids less than 2 in the source). -/
def isConst : B → Bool
  | .zero => true
  | .one => true
  | _ => false

/-- Constant tree from a truth-table entry (the ids 0 and 1 of the source). -/
def ofBits : Nat → B
  | 1 => .one
  | _ => .zero

/-- Truth-table index of a constant (only consulted on constants). -/
def toBit : B → Nat
  | .one => 1
  | _ => 0

/-- Functional counterpart of makenode restricted to its reduction rule: when
the two children are equal the child is returned (reducedness); otherwise the
node with the given triple is returned, which hash-consing makes canonical. -/
def makenodeF (level : Nat) (low high : B) : B :=
  if low = high then low else .node level low high

/-- Errors of the functional layer: fuel exhaustion (an artifact of the
embedding), the unauthorized-operation error of the default case of apply,
the unauthorized-operation error of the default case of appquant, and the
unsupported-operator rejection of the AppEx entry point. -/
inductive FErr where
  | fuel
  | applyOp
  | appquantOp
  | unsupported
deriving DecidableEq, Repr

/-- Operator-specific terminal short-circuits of apply (errors.go), one arm
per binary operator, in source order; none returns none (fall through). -/
def applyShort (op : Operator) (left right : B) : Option B :=
  match op with
  | .OPand =>
    if left = right then some left
    else if left = .zero ∨ right = .zero then some .zero
    else if left = .one then some right
    else if right = .one then some left
    else none
  | .OPor =>
    if left = right then some left
    else if left = .one ∨ right = .one then some .one
    else if left = .zero then some right
    else if right = .zero then some left
    else none
  | .OPxor =>
    if left = right then some .zero
    else if left = .zero then some right
    else if right = .zero then some left
    else none
  | .OPnand =>
    if left = .zero ∨ right = .zero then some .one
    else none
  | .OPnor =>
    if left = .one ∨ right = .one then some .zero
    else none
  | .OPimp =>
    if left = .zero then some .one
    else if left = .one then some right
    else if right = .one then some .one
    else if left = right then some .one
    else none
  | .OPbiimp =>
    if left = right then some .one
    else if left = .one then some right
    else if right = .one then some left
    else none
  | .OPdiff =>
    if left = right then some .zero
    else if right = .one then some .zero
    else if left = .zero then some right
    else none
  | .OPless =>
    if left = right ∨ left = .one then some .zero
    else if left = .zero then some right
    else none
  | .OPinvimp =>
    if right = .zero then some .one
    else if right = .one then some left
    else if left = .one then some .one
    else if left = right then some .one
    else none
  | .opnot => none

/-- apply of errors.go on the tree representation: operator short-circuits
(with the unauthorized-operation default), the truth-table case for two
constant operands, then Shannon expansion on the smaller level, building the
result with makenode.  The cache lookup and store are elided. -/
def applyF (V : Nat) (op : Operator) : Nat → B → B → Except FErr B
  | 0, _, _ => .error .fuel
  | fuel + 1, left, right =>
    if op.isBinary = false then .error .applyOp
    else
      match applyShort op left right with
      | some res => .ok res
      | none =>
        if isConst left && isConst right then
          .ok (ofBits (opres op (toBit left) (toBit right)))
        else
          let leftlvl := levelOf V left
          let rightlvl := levelOf V right
          if leftlvl = rightlvl then do
            let low ← applyF V op fuel (lowOf left) (lowOf right)
            let high ← applyF V op fuel (highOf left) (highOf right)
            return makenodeF leftlvl low high
          else if leftlvl < rightlvl then do
            let low ← applyF V op fuel (lowOf left) right
            let high ← applyF V op fuel (highOf left) right
            return makenodeF leftlvl low high
          else do
            let low ← applyF V op fuel left (lowOf right)
            let high ← applyF V op fuel left (highOf right)
            return makenodeF rightlvl low high

/-- not of errors.go on the tree representation: constants flip, otherwise
negate the two branches and rebuild with makenode at the same level. -/
def notF (V : Nat) : Nat → B → Except FErr B
  | 0, _ => .error .fuel
  | fuel + 1, n =>
    if n = .zero then .ok .one
    else if n = .one then .ok .zero
    else do
      let low ← notF V fuel (lowOf n)
      let high ← notF V fuel (highOf n)
      return makenodeF (levelOf V n) low high

/-- iteLow of errors.go: follow the low branch only on the smallest level. -/
def ite_low (p q r : Nat) (n : B) : B :=
  if p > q ∨ p > r then n else lowOf n

/-- iteHigh of errors.go: follow the high branch only on the smallest
level. -/
def ite_high (p q r : Nat) (n : B) : B :=
  if p > q ∨ p > r then n else highOf n

/-- min3 of errors.go: smallest of three levels. -/
def min3 (p q r : Nat) : Nat :=
  if p ≤ q then (if p ≤ r then p else r)
  else (if q ≤ r then q else r)

/-- ite of errors.go on the tree representation: the five terminal rules,
then Shannon expansion on the minimum level of the three operands. -/
def iteF (V : Nat) : Nat → B → B → B → Except FErr B
  | 0, _, _, _ => .error .fuel
  | fuel + 1, f, g, h =>
    if f = .one then .ok g
    else if f = .zero then .ok h
    else if g = h then .ok g
    else if g = .one && h = .zero then .ok f
    else if g = .zero && h = .one then notF V (fuel + 1) f
    else do
      let p := levelOf V f
      let q := levelOf V g
      let r := levelOf V h
      let low ← iteF V fuel (ite_low p q r f) (ite_low q p r g) (ite_low r p q h)
      let high ← iteF V fuel (ite_high p q r f) (ite_high q p r g) (ite_high r p q h)
      return makenodeF (min3 p q r) low high

/-- Levels on the high spine of a varset cube, in walk order, as collected by
the loop of quantset2cache (cache.go): follow high branches while the node is
internal. -/
def spineLevelsF : Nat → B → List Nat
  | 0, _ => []
  | fuel + 1, t =>
    match t with
    | .node l _ hi => l :: spineLevelsF fuel hi
    | _ => []

/-- quant of errors.go on the tree representation.  The level-indexed epoch
array quantset together with quantsetID become the list qs of quantified
levels, and quantlast becomes qlast; af is the fuel handed to the inner
apply calls (set by the caller, which also fixed the apply operator to or). -/
def quantF (V : Nat) (qs : List Nat) (qlast : Nat) (af : Nat) :
    Nat → B → Except FErr B
  | 0, _ => .error .fuel
  | fuel + 1, n =>
    if isConst n || levelOf V n > qlast then .ok n
    else do
      let low ← quantF V qs qlast af fuel (lowOf n)
      let high ← quantF V qs qlast af fuel (highOf n)
      if levelOf V n ∈ qs then applyF V .OPor af low high
      else return makenodeF (levelOf V n) low high

/-- Operator-specific terminal short-circuits of appquant (errors.go), with
the recursive quant calls of the source; returns none on fall-through and
raises the unauthorized-operation error of the default case. -/
def appquantShort (V : Nat) (qs : List Nat) (qlast af qf : Nat)
    (op : Operator) (left right : B) : Except FErr (Option B) :=
  match op with
  | .OPand =>
    if left = .zero ∨ right = .zero then .ok (some .zero)
    else if left = right then do
      return some (← quantF V qs qlast af qf left)
    else if left = .one then do
      return some (← quantF V qs qlast af qf right)
    else if right = .one then do
      return some (← quantF V qs qlast af qf left)
    else .ok none
  | .OPor =>
    if left = .one ∨ right = .one then .ok (some .one)
    else if left = right then do
      return some (← quantF V qs qlast af qf left)
    else if left = .zero then do
      return some (← quantF V qs qlast af qf right)
    else if right = .zero then do
      return some (← quantF V qs qlast af qf left)
    else .ok none
  | .OPxor =>
    if left = right then .ok (some .zero)
    else if left = .zero then do
      return some (← quantF V qs qlast af qf right)
    else if right = .zero then do
      return some (← quantF V qs qlast af qf left)
    else .ok none
  | .OPnand =>
    if left = .zero ∨ right = .zero then .ok (some .one)
    else .ok none
  | .OPnor =>
    if left = .one ∨ right = .one then .ok (some .zero)
    else .ok none
  | _ => .error .appquantOp

/-- appquant of errors.go on the tree representation: operator-specific
short-circuits, constant lookup, delegation to plain apply once both levels
are above the last quantified level, then Shannon expansion where the
combining step applies or when the current level is quantified. -/
def appquantF (V : Nat) (qs : List Nat) (qlast af : Nat) (op : Operator) :
    Nat → B → B → Except FErr B
  | 0, _, _ => .error .fuel
  | fuel + 1, left, right => do
    match ← appquantShort V qs qlast af fuel op left right with
    | some res => return res
    | none =>
      if isConst left && isConst right then
        return ofBits (opres op (toBit left) (toBit right))
      else if levelOf V left > qlast && levelOf V right > qlast then
        applyF V op af left right
      else
        let leftlvl := levelOf V left
        let rightlvl := levelOf V right
        if leftlvl = rightlvl then do
          let low ← appquantF V qs qlast af op fuel (lowOf left) (lowOf right)
          let high ← appquantF V qs qlast af op fuel (highOf left) (highOf right)
          if leftlvl ∈ qs then applyF V .OPor af low high
          else return makenodeF leftlvl low high
        else if leftlvl < rightlvl then do
          let low ← appquantF V qs qlast af op fuel (lowOf left) right
          let high ← appquantF V qs qlast af op fuel (highOf left) right
          if leftlvl ∈ qs then applyF V .OPor af low high
          else return makenodeF leftlvl low high
        else do
          let low ← appquantF V qs qlast af op fuel left (lowOf right)
          let high ← appquantF V qs qlast af op fuel left (highOf right)
          if rightlvl ∈ qs then applyF V .OPor af low high
          else return makenodeF rightlvl low high

/-- AppEx of errors.go on the tree representation: the entry guard rejects
every operator code above 3 as unsupported (the seterror call returning a nil
Node becomes the unsupported error); a constant varset delegates to plain
Apply; otherwise the varset spine is flattened (quantset2cache) and appquant
runs.  fuel feeds appquant and af the inner apply calls. -/
def AppExF (op : Operator) (left right varset : B) (V fuel af : Nat) :
    Except FErr B :=
  if 3 < op.toNat then .error .unsupported
  else if isConst varset then applyF V op af left right
  else
    let qs := spineLevelsF (V + 1) varset
    appquantF V qs (qs.getLastD 0) af op fuel left right

/-- Truth tables of the ten binary operators exactly as printed in the
specification, read low to high: and 0001, xor 0110, or 0111, nand 1110,
nor 1000, imp 1101, biimp 1001, diff 0010, less 0100, invimp 1011. -/
def specTruth (op : Operator) (x y : Bool) : Bool :=
  match op, x, y with
  | .OPand, false, false => false
  | .OPand, false, true => false
  | .OPand, true, false => false
  | .OPand, true, true => true
  | .OPxor, false, false => false
  | .OPxor, false, true => true
  | .OPxor, true, false => true
  | .OPxor, true, true => false
  | .OPor, false, false => false
  | .OPor, false, true => true
  | .OPor, true, false => true
  | .OPor, true, true => true
  | .OPnand, false, false => true
  | .OPnand, false, true => true
  | .OPnand, true, false => true
  | .OPnand, true, true => false
  | .OPnor, false, false => true
  | .OPnor, false, true => false
  | .OPnor, true, false => false
  | .OPnor, true, true => false
  | .OPimp, false, false => true
  | .OPimp, false, true => true
  | .OPimp, true, false => false
  | .OPimp, true, true => true
  | .OPbiimp, false, false => true
  | .OPbiimp, false, true => false
  | .OPbiimp, true, false => false
  | .OPbiimp, true, true => true
  | .OPdiff, false, false => false
  | .OPdiff, false, true => false
  | .OPdiff, true, false => true
  | .OPdiff, true, true => false
  | .OPless, false, false => false
  | .OPless, false, true => true
  | .OPless, true, false => false
  | .OPless, true, true => false
  | .OPinvimp, false, false => true
  | .OPinvimp, false, true => false
  | .OPinvimp, true, false => true
  | .OPinvimp, true, true => true
  | .opnot, _, _ => false

/-- Constant operand from a Boolean. -/
def ofBool (x : Bool) : B := cond x .one .zero

/-- C4: for every one of the ten binary operator codes and constant operands,
apply returns the constant given by the 2 by 2 truth table of the operator,
bit-exact with the table of the specification (the result is obtained from
the terminal short-circuits and the opres lookup before the caches are ever
consulted, so the elided cache cannot change it). -/
theorem apply_const_truth_table (V fuel : Nat) (op : Operator)
    (hop : op.isBinary = true) (x y : Bool) :
    applyF V op (fuel + 1) (ofBool x) (ofBool y) =
      .ok (ofBool (specTruth op x y)) ∧
    opres op (cond x 1 0) (cond y 1 0) = cond (specTruth op x y) 1 0 := by
  cases op <;> cases x <;> cases y <;> first
    | exact ⟨rfl, rfl⟩
    | exact absurd hop (by decide)

/-- Closed instantiation of apply_const_truth_table. -/
theorem apply_const_truth_table_witness :
    applyF 2 .OPnand 1 (ofBool true) (ofBool true) =
      .ok (ofBool (specTruth .OPnand true true)) ∧
    opres .OPnand (cond true 1 0) (cond true 1 0) =
      cond (specTruth .OPnand true true) 1 0 :=
  apply_const_truth_table 2 0 .OPnand (by decide) true true

/-! ## C6: the operator guard of AppEx -/

/-- applyF never raises the unsupported-operator rejection: that error is
produced only by the entry guard of AppEx. -/
theorem applyF_ne_unsupported (V : Nat) (op : Operator) :
    ∀ (fuel : Nat) (l r : B), applyF V op fuel l r ≠ .error .unsupported := by
  intro fuel
  induction fuel with
  | zero => intro l r; simp [applyF]
  | succ n ih =>
    intro l r
    unfold applyF
    split
    · simp
    · split
      · simp
      · split
        · simp
        · simp only [bind, Except.bind]
          repeat' split
          all_goals
            try (intro hcon
                 cases hcon
                 apply ih
                 assumption)
          all_goals simp [pure, Except.pure]

/-- quantF never raises the unsupported-operator rejection. -/
theorem quantF_ne_unsupported (V : Nat) (qs : List Nat) (qlast af : Nat) :
    ∀ (fuel : Nat) (n : B),
      quantF V qs qlast af fuel n ≠ .error .unsupported := by
  intro fuel
  induction fuel with
  | zero => intro n; simp [quantF]
  | succ k ih =>
    intro n
    unfold quantF
    split
    · simp
    · simp only [bind, Except.bind]
      repeat' split
      all_goals
        try (intro hcon
             cases hcon
             apply ih
             assumption)
      all_goals
        first
          | exact applyF_ne_unsupported _ _ _ _ _
          | simp [pure, Except.pure]

/-- appquantShort never raises the unsupported-operator rejection. -/
theorem appquantShort_ne_unsupported (V : Nat) (qs : List Nat)
    (qlast af qf : Nat) (op : Operator) (l r : B) :
    appquantShort V qs qlast af qf op l r ≠ .error .unsupported := by
  unfold appquantShort
  repeat' split
  all_goals
    try simp only [bind, Except.bind]
    repeat' split
  all_goals
    try (intro hcon
         cases hcon
         exact quantF_ne_unsupported _ _ _ _ _ _ (by assumption))
  all_goals simp [pure, Except.pure]

/-- appquantF never raises the unsupported-operator rejection. -/
theorem appquantF_ne_unsupported (V : Nat) (qs : List Nat) (qlast af : Nat)
    (op : Operator) : ∀ (fuel : Nat) (l r : B),
      appquantF V qs qlast af op fuel l r ≠ .error .unsupported := by
  intro fuel
  induction fuel with
  | zero => intro l r; simp [appquantF]
  | succ k ih =>
    intro l r
    unfold appquantF
    simp only [bind, Except.bind]
    split
    · intro hcon
      cases hcon
      exact appquantShort_ne_unsupported _ _ _ _ _ _ _ _ (by assumption)
    · split
      · simp [pure, Except.pure]
      · split
        · simp [pure, Except.pure]
        · split
          · exact applyF_ne_unsupported _ _ _ _ _
          · repeat' split
            all_goals
              try (intro hcon
                   cases hcon
                   apply ih
                   assumption)
            all_goals
              first
                | exact applyF_ne_unsupported _ _ _ _ _
                | simp [pure, Except.pure]

/-- C6 (amended): AppEx rejects an operator as unsupported exactly when its
code is above 3; the five codes 0 to 3 (and, xor, or, nand) pass the guard
and are never rejected as unsupported, while codes 4 to 9 (nor included) are
rejected. -/
theorem appex_guard_spec (op : Operator) (l r varset : B) (V fuel af : Nat) :
    AppExF op l r varset V fuel af = .error .unsupported ↔ 3 < op.toNat := by
  unfold AppExF
  split
  · exact iff_of_true rfl (by assumption)
  · constructor
    · intro hcon
      exfalso
      revert hcon
      split
      · exact applyF_ne_unsupported _ _ _ _ _
      · exact appquantF_ne_unsupported _ _ _ _ _ _ _ _
    · intro hgt
      exact absurd hgt (by assumption)

/-- C6 counterexample to the claim as stated: with the valid operands x0 and
x1 and the varset cube x0 in a two-variable setting, AppEx with operator nor
(code 4) is rejected as unsupported, although the claim counts nor among the
accepted codes. -/
theorem appex_nor_rejected :
    AppExF .OPnor (B.node 0 .zero .one) (B.node 1 .zero .one)
      (B.node 0 .zero .one) 2 5 5 = .error .unsupported := rfl

/-! ## Semantics and canonicity of the tree representation

evalB is the Boolean function denoted by a tree; okB is the reduced ordered
wellformedness invariant of the node table (invariants 1 and 3 of the data
model: reducedness and strictly increasing levels below V), expressed on
trees with a lower bound on the root level.  Canonicity of hash consing is
the theorem that two reduced ordered trees denoting the same function are
equal; it is how equality of NodeIds in the table is read on trees. -/

/-- Boolean function denoted by a tree under an assignment of the
variables. -/
def evalB : B → (Nat → Bool) → Bool
  | .zero, _ => false
  | .one, _ => true
  | .node l lo hi, a => if a l then evalB hi a else evalB lo a

/-- Reduced ordered wellformedness below variable count V with root level at
least lb: internal levels are in the interval from lb to V excluded, strictly
increase along edges, and no node has equal children. -/
def okB (V lb : Nat) : B → Bool
  | .zero => true
  | .one => true
  | .node l lo hi =>
    decide (lb ≤ l) && decide (l < V) && !(lo == hi) &&
      okB V (l + 1) lo && okB V (l + 1) hi

/-- Number of internal nodes of a tree (termination measure for the fueled
recursions). -/
def sizeB : B → Nat
  | .node _ lo hi => sizeB lo + sizeB hi + 1
  | _ => 0

/-- Pointwise update of an assignment. -/
def upd (a : Nat → Bool) (k : Nat) (v : Bool) : Nat → Bool :=
  fun i => if i = k then v else a i

theorem okB_mono {V lb lb' : Nat} {t : B} (h : okB V lb t = true)
    (hle : lb' ≤ lb) : okB V lb' t = true := by
  cases t with
  | zero => rfl
  | one => rfl
  | node l lo hi =>
    simp only [okB, Bool.and_eq_true, decide_eq_true_eq] at h ⊢
    exact ⟨⟨⟨⟨le_trans hle h.1.1.1.1, h.1.1.1.2⟩, h.1.1.2⟩, h.1.2⟩, h.2⟩

theorem okB_levelOf_le {V lb : Nat} {t : B} (h : okB V lb t = true)
    (hV : lb ≤ V) : lb ≤ levelOf V t := by
  cases t with
  | zero => exact hV
  | one => exact hV
  | node l lo hi =>
    simp only [okB, Bool.and_eq_true, decide_eq_true_eq] at h
    exact h.1.1.1.1

theorem okB_levelOf_lt {V lb : Nat} {t : B} (h : okB V lb t = true) :
    levelOf V t ≤ V := by
  cases t with
  | zero => exact le_rfl
  | one => exact le_rfl
  | node l lo hi =>
    simp only [okB, Bool.and_eq_true, decide_eq_true_eq] at h
    exact le_of_lt h.1.1.1.2

theorem okB_tighten {V lb : Nat} {t : B} (h : okB V lb t = true) :
    okB V (levelOf V t) t = true := by
  cases t with
  | zero => rfl
  | one => rfl
  | node l lo hi =>
    simp only [okB, Bool.and_eq_true, decide_eq_true_eq, levelOf] at h ⊢
    exact ⟨⟨⟨⟨le_rfl, h.1.1.1.2⟩, h.1.1.2⟩, h.1.2⟩, h.2⟩

theorem okB_lowOf {V lb : Nat} {t : B} (h : okB V lb t = true) :
    okB V (levelOf V t + 1) (lowOf t) = true := by
  cases t with
  | zero => rfl
  | one => rfl
  | node l lo hi =>
    simp only [okB, Bool.and_eq_true] at h
    exact h.1.2

theorem okB_highOf {V lb : Nat} {t : B} (h : okB V lb t = true) :
    okB V (levelOf V t + 1) (highOf t) = true := by
  cases t with
  | zero => rfl
  | one => rfl
  | node l lo hi =>
    simp only [okB, Bool.and_eq_true] at h
    exact h.2

/-- Evaluation does not look below the wellformedness lower bound. -/
theorem evalB_indep {V : Nat} : ∀ {t : B} {lb : Nat}, okB V lb t = true →
    ∀ {k : Nat}, k < lb → ∀ (a : Nat → Bool) (v : Bool),
      evalB t (upd a k v) = evalB t a := by
  intro t
  induction t with
  | zero => intro lb _ k _ a v; rfl
  | one => intro lb _ k _ a v; rfl
  | node l lo hi ihlo ihhi =>
    intro lb h k hk a v
    simp only [okB, Bool.and_eq_true, decide_eq_true_eq] at h
    have hkl : k ≠ l := Nat.ne_of_lt (lt_of_lt_of_le hk h.1.1.1.1)
    have hupd : upd a k v l = a l := by
      simp [upd, Ne.symm hkl]
    simp only [evalB, hupd]
    rw [ihlo h.1.2 (lt_of_lt_of_le hk (le_trans h.1.1.1.1 (Nat.le_succ l))),
      ihhi h.2 (lt_of_lt_of_le hk (le_trans h.1.1.1.1 (Nat.le_succ l)))]

/-- A reduced ordered tree denoting the constant false function is the zero
leaf. -/
theorem evalB_false_eq_zero {V : Nat} : ∀ {s : B} {lb : Nat},
    okB V lb s = true → (∀ a, evalB s a = false) → s = .zero := by
  intro s
  induction s with
  | zero => intro lb _ _; rfl
  | one =>
    intro lb _ hev
    have := hev (fun _ => false)
    simp [evalB] at this
  | node l lo hi ihlo ihhi =>
    intro lb h hev
    simp only [okB, Bool.and_eq_true, decide_eq_true_eq, bne_iff_ne] at h
    have hlo : lo = .zero := by
      refine ihlo h.1.2 fun a => ?_
      have h1 := hev (upd a l false)
      simp only [evalB, upd, if_pos rfl] at h1
      rw [evalB_indep h.1.2 (Nat.lt_succ_self l) a false] at h1
      exact h1
    have hhi : hi = .zero := by
      refine ihhi h.2 fun a => ?_
      have h1 := hev (upd a l true)
      simp only [evalB, upd, if_pos rfl] at h1
      rw [evalB_indep h.2 (Nat.lt_succ_self l) a true] at h1
      exact h1
    exact absurd (hlo.trans hhi.symm) (by simpa using h.1.1.2)

/-- A reduced ordered tree denoting the constant true function is the one
leaf. -/
theorem evalB_true_eq_one {V : Nat} : ∀ {s : B} {lb : Nat},
    okB V lb s = true → (∀ a, evalB s a = true) → s = .one := by
  intro s
  induction s with
  | zero =>
    intro lb _ hev
    have := hev (fun _ => false)
    simp [evalB] at this
  | one => intro lb _ _; rfl
  | node l lo hi ihlo ihhi =>
    intro lb h hev
    simp only [okB, Bool.and_eq_true, decide_eq_true_eq, bne_iff_ne] at h
    have hlo : lo = .one := by
      refine ihlo h.1.2 fun a => ?_
      have h1 := hev (upd a l false)
      simp only [evalB, upd, if_pos rfl] at h1
      rw [evalB_indep h.1.2 (Nat.lt_succ_self l) a false] at h1
      exact h1
    have hhi : hi = .one := by
      refine ihhi h.2 fun a => ?_
      have h1 := hev (upd a l true)
      simp only [evalB, upd, if_pos rfl] at h1
      rw [evalB_indep h.2 (Nat.lt_succ_self l) a true] at h1
      exact h1
    exact absurd (hlo.trans hhi.symm) (by simpa using h.1.1.2)

theorem evalB_node_upd_false (l : Nat) (lo hi : B) (a : Nat → Bool) :
    evalB (B.node l lo hi) (upd a l false) = evalB lo (upd a l false) := by
  simp [evalB, upd]

theorem evalB_node_upd_true (l : Nat) (lo hi : B) (a : Nat → Bool) :
    evalB (B.node l lo hi) (upd a l true) = evalB hi (upd a l true) := by
  simp [evalB, upd]

/-- Canonicity with an explicit size bound: two reduced ordered trees with a
common lower bound denoting the same Boolean function are equal.  This is the
content of the unique-table invariant read on trees: equal functions receive
equal NodeIds. -/
theorem canonB_aux {V : Nat} : ∀ (n : Nat) (t s : B) (lb : Nat),
    sizeB t + sizeB s ≤ n →
    okB V lb t = true → okB V lb s = true →
    (∀ a, evalB t a = evalB s a) → t = s := by
  intro n
  induction n using Nat.strong_induction_on with
  | _ n ih =>
    intro t s lb hsz ht hs hev
    cases t with
    | zero =>
      exact (evalB_false_eq_zero hs fun a => (hev a).symm).symm
    | one =>
      exact (evalB_true_eq_one hs fun a => (hev a).symm).symm
    | node lt lot hit =>
      cases s with
      | zero =>
        exact absurd (evalB_false_eq_zero ht fun a => hev a) (by simp)
      | one =>
        exact absurd (evalB_true_eq_one ht fun a => hev a) (by simp)
      | node ls los his =>
        have ht' := ht
        have hs' := hs
        simp only [okB, Bool.and_eq_true, decide_eq_true_eq,
          Bool.not_eq_true', beq_eq_false_iff_ne] at ht' hs'
        have hn : 1 ≤ n := by
          have h1 : 1 ≤ sizeB (B.node lt lot hit) := by simp [sizeB]
          omega
        rcases Nat.lt_trichotomy lt ls with hlt | heq | hgt
        · -- the root of s is deeper: both cofactors of t equal s, so t is
          -- not reduced
          exfalso
          have hind : ∀ (a : Nat → Bool) (v : Bool),
              evalB (B.node ls los his) (upd a lt v) =
              evalB (B.node ls los his) a := by
            intro a v
            exact evalB_indep (okB_mono (okB_tighten hs) hlt)
              (Nat.lt_succ_self lt) a v
          have hlo : ∀ a, evalB lot a = evalB (B.node ls los his) a := by
            intro a
            have h1 := hev (upd a lt false)
            rw [evalB_node_upd_false, hind a false,
              evalB_indep ht'.1.2 (Nat.lt_succ_self lt) a false] at h1
            exact h1
          have hhi : ∀ a, evalB hit a = evalB (B.node ls los his) a := by
            intro a
            have h1 := hev (upd a lt true)
            rw [evalB_node_upd_true, hind a true,
              evalB_indep ht'.2 (Nat.lt_succ_self lt) a true] at h1
            exact h1
          have heq2 : lot = hit := by
            refine ih (n - 1) (by omega) lot hit (lt + 1) ?_ ht'.1.2 ht'.2
              fun a => (hlo a).trans (hhi a).symm
            simp only [sizeB] at hsz ⊢
            omega
          exact ht'.1.1.2 heq2
        · -- equal root levels: the cofactors are pointwise equal
          subst heq
          have hlo : lot = los := by
            refine ih (n - 1) (by omega) lot los (lt + 1) ?_ ht'.1.2 hs'.1.2
              fun a => ?_
            · simp only [sizeB] at hsz ⊢
              omega
            · have h1 := hev (upd a lt false)
              rw [evalB_node_upd_false, evalB_node_upd_false,
                evalB_indep ht'.1.2 (Nat.lt_succ_self lt) a false,
                evalB_indep hs'.1.2 (Nat.lt_succ_self lt) a false] at h1
              exact h1
          have hhi : hit = his := by
            refine ih (n - 1) (by omega) hit his (lt + 1) ?_ ht'.2 hs'.2
              fun a => ?_
            · simp only [sizeB] at hsz ⊢
              omega
            · have h1 := hev (upd a lt true)
              rw [evalB_node_upd_true, evalB_node_upd_true,
                evalB_indep ht'.2 (Nat.lt_succ_self lt) a true,
                evalB_indep hs'.2 (Nat.lt_succ_self lt) a true] at h1
              exact h1
          rw [hlo, hhi]
        · -- the root of t is deeper: both cofactors of s equal t, so s is
          -- not reduced
          exfalso
          have hind : ∀ (a : Nat → Bool) (v : Bool),
              evalB (B.node lt lot hit) (upd a ls v) =
              evalB (B.node lt lot hit) a := by
            intro a v
            exact evalB_indep (okB_mono (okB_tighten ht) hgt)
              (Nat.lt_succ_self ls) a v
          have hlo : ∀ a, evalB los a = evalB (B.node lt lot hit) a := by
            intro a
            have h1 := hev (upd a ls false)
            rw [evalB_node_upd_false, hind a false,
              evalB_indep hs'.1.2 (Nat.lt_succ_self ls) a false] at h1
            exact h1.symm
          have hhi : ∀ a, evalB his a = evalB (B.node lt lot hit) a := by
            intro a
            have h1 := hev (upd a ls true)
            rw [evalB_node_upd_true, hind a true,
              evalB_indep hs'.2 (Nat.lt_succ_self ls) a true] at h1
            exact h1.symm
          have heq2 : los = his := by
            refine ih (n - 1) (by omega) los his (ls + 1) ?_ hs'.1.2 hs'.2
              fun a => (hlo a).trans (hhi a).symm
            simp only [sizeB] at hsz ⊢
            omega
          exact hs'.1.1.2 heq2

/-- Canonicity, stated without the size bound. -/
theorem canonB {V lb : Nat} {t s : B} (ht : okB V lb t = true)
    (hs : okB V lb s = true) (hev : ∀ a, evalB t a = evalB s a) : t = s :=
  canonB_aux (sizeB t + sizeB s) t s lb le_rfl ht hs hev

/-- Evaluation of the result of makenode is the Shannon combination of the
children at the given level. -/
theorem evalB_makenodeF (l : Nat) (lo hi : B) (a : Nat → Bool) :
    evalB (makenodeF l lo hi) a = if a l then evalB hi a else evalB lo a := by
  unfold makenodeF
  split
  · subst ‹lo = hi›
    cases a l <;> simp [evalB]
  · rfl

/-- makenode preserves reduced ordered wellformedness. -/
theorem okB_makenodeF {V lb l : Nat} {lo hi : B} (hlb : lb ≤ l) (hlV : l < V)
    (hlo : okB V (l + 1) lo = true) (hhi : okB V (l + 1) hi = true) :
    okB V lb (makenodeF l lo hi) = true := by
  unfold makenodeF
  split
  · exact okB_mono hlo (le_trans hlb (Nat.le_succ l))
  · simp only [okB, Bool.and_eq_true, decide_eq_true_eq, Bool.not_eq_true',
      beq_eq_false_iff_ne]
    exact ⟨⟨⟨⟨hlb, hlV⟩, by assumption⟩, hlo⟩, hhi⟩

theorem okB_ofBits {V lb m : Nat} : okB V lb (ofBits m) = true := by
  unfold ofBits
  split <;> rfl

theorem evalB_ofBits (m : Nat) (a : Nat → Bool) :
    evalB (ofBits m) a = decide (m = 1) := by
  rcases m with _ | _ | k <;> rfl

/-- Shannon view of evaluation at the level of the root (trivially valid on
constants, whose two branches are themselves). -/
theorem evalB_split (V : Nat) (t : B) (m : Nat) (h : levelOf V t = m)
    (a : Nat → Bool) :
    evalB t a = if a m then evalB (highOf t) a else evalB (lowOf t) a := by
  cases t with
  | zero => cases a m <;> rfl
  | one => cases a m <;> rfl
  | node l lo hi =>
    simp only [levelOf] at h
    subst h
    rfl

theorem sizeB_lowOf_le (t : B) : sizeB (lowOf t) ≤ sizeB t := by
  cases t <;> simp [lowOf, sizeB]
  omega

theorem sizeB_highOf_le (t : B) : sizeB (highOf t) ≤ sizeB t := by
  cases t <;> simp [highOf, sizeB]
  omega

theorem sizeB_lowOf_lt {t : B} (h : isConst t = false) :
    sizeB (lowOf t) < sizeB t := by
  cases t with
  | zero => simp [isConst] at h
  | one => simp [isConst] at h
  | node l lo hi => simp [lowOf, sizeB]; omega

theorem sizeB_highOf_lt {t : B} (h : isConst t = false) :
    sizeB (highOf t) < sizeB t := by
  cases t with
  | zero => simp [isConst] at h
  | one => simp [isConst] at h
  | node l lo hi => simp [highOf, sizeB]; omega

/-- Level of a non-constant node is below V under wellformedness. -/
theorem levelOf_lt_V {V lb : Nat} {t : B} (ht : okB V lb t = true)
    (h : isConst t = false) : levelOf V t < V := by
  cases t with
  | zero => simp [isConst] at h
  | one => simp [isConst] at h
  | node l lo hi =>
    simp only [okB, Bool.and_eq_true, decide_eq_true_eq] at ht
    exact ht.1.1.1.2

/-- Correctness of the terminal short-circuits of apply: when one fires, the
returned node is wellformed and denotes the operator applied to the
operands.  The diff operator is excluded: its short-circuit returning right
when left is the zero constant disagrees with the diff truth table on
non-constant right operands (on constant operands the earlier guards fire
first, so the constant claim C4 is unaffected; no frozen claim covers diff on
non-constant operands). -/
theorem applyShort_correct {V lb : Nat} {op : Operator} {l r res : B}
    (hdiff : op ≠ .OPdiff)
    (h : applyShort op l r = some res)
    (hl : okB V lb l = true) (hr : okB V lb r = true) :
    okB V lb res = true ∧
      ∀ a, evalB res a = opsem op (evalB l a) (evalB r a) := by
  cases op with
  | OPand =>
    simp only [applyShort] at h
    split_ifs at h with h1 h2 h3 h4
    · injection h with h; subst h; subst h1
      exact ⟨hl, fun a => by cases hx : evalB l a <;> rfl⟩
    · injection h with h; subst h
      refine ⟨rfl, fun a => ?_⟩
      rcases h2 with h2 | h2 <;> subst h2 <;>
        first
          | cases hx : evalB r a <;> rfl
          | cases hx : evalB l a <;> rfl
    · injection h with h; subst h; subst h3
      exact ⟨hr, fun a => by cases hx : evalB r a <;> rfl⟩
    · injection h with h; subst h; subst h4
      exact ⟨hl, fun a => by cases hx : evalB l a <;> rfl⟩
  | OPor =>
    simp only [applyShort] at h
    split_ifs at h with h1 h2 h3 h4
    · injection h with h; subst h; subst h1
      exact ⟨hl, fun a => by cases hx : evalB l a <;> rfl⟩
    · injection h with h; subst h
      refine ⟨rfl, fun a => ?_⟩
      rcases h2 with h2 | h2 <;> subst h2 <;>
        first
          | cases hx : evalB r a <;> rfl
          | cases hx : evalB l a <;> rfl
    · injection h with h; subst h; subst h3
      exact ⟨hr, fun a => by cases hx : evalB r a <;> rfl⟩
    · injection h with h; subst h; subst h4
      exact ⟨hl, fun a => by cases hx : evalB l a <;> rfl⟩
  | OPxor =>
    simp only [applyShort] at h
    split_ifs at h with h1 h2 h3
    · injection h with h; subst h; subst h1
      exact ⟨rfl, fun a => by cases hx : evalB l a <;> rfl⟩
    · injection h with h; subst h; subst h2
      exact ⟨hr, fun a => by cases hx : evalB r a <;> rfl⟩
    · injection h with h; subst h; subst h3
      exact ⟨hl, fun a => by cases hx : evalB l a <;> rfl⟩
  | OPnand =>
    simp only [applyShort] at h
    split_ifs at h with h1
    injection h with h; subst h
    refine ⟨rfl, fun a => ?_⟩
    rcases h1 with h1 | h1 <;> subst h1 <;>
      first
        | cases hx : evalB r a <;> rfl
        | cases hx : evalB l a <;> rfl
  | OPnor =>
    simp only [applyShort] at h
    split_ifs at h with h1
    injection h with h; subst h
    refine ⟨rfl, fun a => ?_⟩
    rcases h1 with h1 | h1 <;> subst h1 <;>
      first
        | cases hx : evalB r a <;> rfl
        | cases hx : evalB l a <;> rfl
  | OPimp =>
    simp only [applyShort] at h
    split_ifs at h with h1 h2 h3 h4
    · injection h with h; subst h; subst h1
      exact ⟨rfl, fun a => by cases hx : evalB r a <;> rfl⟩
    · injection h with h; subst h; subst h2
      exact ⟨hr, fun a => by cases hx : evalB r a <;> rfl⟩
    · injection h with h; subst h; subst h3
      exact ⟨rfl, fun a => by cases hx : evalB l a <;> rfl⟩
    · injection h with h; subst h; subst h4
      exact ⟨rfl, fun a => by cases hx : evalB l a <;> rfl⟩
  | OPbiimp =>
    simp only [applyShort] at h
    split_ifs at h with h1 h2 h3
    · injection h with h; subst h; subst h1
      exact ⟨rfl, fun a => by cases hx : evalB l a <;> rfl⟩
    · injection h with h; subst h; subst h2
      exact ⟨hr, fun a => by cases hx : evalB r a <;> rfl⟩
    · injection h with h; subst h; subst h3
      exact ⟨hl, fun a => by cases hx : evalB l a <;> rfl⟩
  | OPdiff => exact absurd rfl hdiff
  | OPless =>
    simp only [applyShort] at h
    split_ifs at h with h1 h2
    · injection h with h; subst h
      refine ⟨rfl, fun a => ?_⟩
      rcases h1 with h1 | h1 <;> subst h1
      · cases hx : evalB l a <;> rfl
      · cases hx : evalB r a <;> rfl
    · injection h with h; subst h; subst h2
      exact ⟨hr, fun a => by cases hx : evalB r a <;> rfl⟩
  | OPinvimp =>
    simp only [applyShort] at h
    split_ifs at h with h1 h2 h3 h4
    · injection h with h; subst h; subst h1
      exact ⟨rfl, fun a => by cases hx : evalB l a <;> rfl⟩
    · injection h with h; subst h; subst h2
      exact ⟨hl, fun a => by cases hx : evalB l a <;> rfl⟩
    · injection h with h; subst h; subst h3
      exact ⟨rfl, fun a => by cases hx : evalB r a <;> rfl⟩
    · injection h with h; subst h; subst h4
      exact ⟨rfl, fun a => by cases hx : evalB l a <;> rfl⟩
  | opnot =>
    simp only [applyShort] at h
    exact absurd h (by simp)

theorem beq_eq_decide (m k : Nat) : (m == k) = decide (m = k) := by
  by_cases h : m = k
  · subst h; simp
  · simp [h, Ne.symm h]

/-- Either operand of a non-constant pair is a node when the levels agree. -/
theorem min_level_lt_V {V lb : Nat} {l r : B} (hl : okB V lb l = true)
    (hr : okB V lb r = true) (hconst : ¬(isConst l && isConst r) = true)
    (heq : levelOf V l = levelOf V r) : levelOf V l < V := by
  cases hcl : isConst l with
  | false => exact levelOf_lt_V hl hcl
  | true =>
    cases hcr : isConst r with
    | false => exact heq ▸ levelOf_lt_V hr hcr
    | true => exact absurd (by rw [hcl, hcr]; rfl) hconst

/-- Correctness of apply on reduced ordered trees: with enough fuel it
succeeds, preserves wellformedness, and denotes the operator applied to its
operands (every binary operator except diff, whose zero-left short-circuit
disagrees with its truth table on non-constant operands). -/
theorem applyF_correct {V : Nat} {op : Operator} (hop : op.isBinary = true)
    (hdiff : op ≠ .OPdiff) :
    ∀ (fuel : Nat) (l r : B) (lb : Nat), lb ≤ V →
      okB V lb l = true → okB V lb r = true →
      sizeB l + sizeB r < fuel →
      ∃ t, applyF V op fuel l r = .ok t ∧ okB V lb t = true ∧
        ∀ a, evalB t a = opsem op (evalB l a) (evalB r a) := by
  intro fuel
  induction fuel with
  | zero => intro l r lb _ _ _ hsz; omega
  | succ n ih =>
    intro l r lb hlbV hl hr hsz
    rw [applyF, if_neg (by simp [hop])]
    cases happly : applyShort op l r with
    | some res =>
      obtain ⟨h1, h2⟩ := applyShort_correct hdiff happly hl hr
      exact ⟨res, rfl, h1, h2⟩
    | none =>
      by_cases hconst : (isConst l && isConst r) = true
      · rw [if_pos hconst]
        refine ⟨_, rfl, okB_ofBits, fun a => ?_⟩
        simp only [Bool.and_eq_true] at hconst
        cases l with
        | node ll llo lhi => simp [isConst] at hconst
        | zero =>
          cases r with
          | node rl rlo rhi => simp [isConst] at hconst
          | zero =>
            rw [evalB_ofBits]
            show _ = (opres op 0 0 == 1)
            rw [beq_eq_decide]
            rfl
          | one =>
            rw [evalB_ofBits]
            show _ = (opres op 0 1 == 1)
            rw [beq_eq_decide]
            rfl
        | one =>
          cases r with
          | node rl rlo rhi => simp [isConst] at hconst
          | zero =>
            rw [evalB_ofBits]
            show _ = (opres op 1 0 == 1)
            rw [beq_eq_decide]
            rfl
          | one =>
            rw [evalB_ofBits]
            show _ = (opres op 1 1 == 1)
            rw [beq_eq_decide]
            rfl
      · rw [if_neg hconst]
        have hor : isConst l = false ∨ isConst r = false := by
          cases hcl : isConst l with
          | false => exact Or.inl rfl
          | true =>
            cases hcr : isConst r with
            | false => exact Or.inr rfl
            | true => exact absurd (by rw [hcl, hcr]; rfl) hconst
        by_cases heq : levelOf V l = levelOf V r
        · rw [if_pos heq]
          have hmV : levelOf V l < V := min_level_lt_V hl hr hconst heq
          have hm1V : levelOf V l + 1 ≤ V := hmV
          have hszlt : sizeB (lowOf l) + sizeB (lowOf r) < n ∧
              sizeB (highOf l) + sizeB (highOf r) < n := by
            rcases hor with hc | hc
            · have h1 := sizeB_lowOf_lt hc
              have h2 := sizeB_highOf_lt hc
              have h3 := sizeB_lowOf_le r
              have h4 := sizeB_highOf_le r
              omega
            · have h1 := sizeB_lowOf_lt hc
              have h2 := sizeB_highOf_lt hc
              have h3 := sizeB_lowOf_le l
              have h4 := sizeB_highOf_le l
              omega
          obtain ⟨t0, e0, ok0, ev0⟩ := ih (lowOf l) (lowOf r)
            (levelOf V l + 1) hm1V (okB_lowOf hl)
            (heq ▸ okB_lowOf hr) hszlt.1
          obtain ⟨t1, e1, ok1, ev1⟩ := ih (highOf l) (highOf r)
            (levelOf V l + 1) hm1V (okB_highOf hl)
            (heq ▸ okB_highOf hr) hszlt.2
          refine ⟨makenodeF (levelOf V l) t0 t1, ?_, ?_, ?_⟩
          · simp only [bind, Except.bind, e0, e1, pure, Except.pure]
          · exact okB_makenodeF (okB_levelOf_le hl hlbV) hmV ok0 ok1
          · intro a
            rw [evalB_makenodeF,
              evalB_split V l (levelOf V l) rfl a,
              evalB_split V r (levelOf V l) heq.symm a]
            cases a (levelOf V l) <;> simp [ev0, ev1]
        · by_cases hlt : levelOf V l < levelOf V r
          · rw [if_neg heq, if_pos hlt]
            have hcl : isConst l = false := by
              cases hcl : isConst l with
              | false => rfl
              | true =>
                exfalso
                have : levelOf V l = V := by
                  cases l with
                  | node ll llo lhi => simp [isConst] at hcl
                  | zero => rfl
                  | one => rfl
                have hrV := okB_levelOf_lt hr
                omega
            have hmV : levelOf V l < V := levelOf_lt_V hl hcl
            have hm1V : levelOf V l + 1 ≤ V := hmV
            have hokr : okB V (levelOf V l + 1) r = true :=
              okB_mono (okB_tighten hr) hlt
            have hszlt : sizeB (lowOf l) + sizeB r < n ∧
                sizeB (highOf l) + sizeB r < n := by
              have h1 := sizeB_lowOf_lt hcl
              have h2 := sizeB_highOf_lt hcl
              omega
            obtain ⟨t0, e0, ok0, ev0⟩ := ih (lowOf l) r
              (levelOf V l + 1) hm1V (okB_lowOf hl) hokr hszlt.1
            obtain ⟨t1, e1, ok1, ev1⟩ := ih (highOf l) r
              (levelOf V l + 1) hm1V (okB_highOf hl) hokr hszlt.2
            refine ⟨makenodeF (levelOf V l) t0 t1, ?_, ?_, ?_⟩
            · simp only [bind, Except.bind, e0, e1, pure, Except.pure]
            · exact okB_makenodeF (okB_levelOf_le hl hlbV) hmV ok0 ok1
            · intro a
              rw [evalB_makenodeF, evalB_split V l (levelOf V l) rfl a]
              cases a (levelOf V l) <;> simp [ev0, ev1]
          · rw [if_neg heq, if_neg hlt]
            have hgt : levelOf V r < levelOf V l := by omega
            have hcr : isConst r = false := by
              cases hcr : isConst r with
              | false => rfl
              | true =>
                exfalso
                have : levelOf V r = V := by
                  cases r with
                  | node rl rlo rhi => simp [isConst] at hcr
                  | zero => rfl
                  | one => rfl
                have hlV := okB_levelOf_lt hl
                omega
            have hmV : levelOf V r < V := levelOf_lt_V hr hcr
            have hm1V : levelOf V r + 1 ≤ V := hmV
            have hokl : okB V (levelOf V r + 1) l = true :=
              okB_mono (okB_tighten hl) hgt
            have hszlt : sizeB l + sizeB (lowOf r) < n ∧
                sizeB l + sizeB (highOf r) < n := by
              have h1 := sizeB_lowOf_lt hcr
              have h2 := sizeB_highOf_lt hcr
              omega
            obtain ⟨t0, e0, ok0, ev0⟩ := ih l (lowOf r)
              (levelOf V r + 1) hm1V hokl (okB_lowOf hr) hszlt.1
            obtain ⟨t1, e1, ok1, ev1⟩ := ih l (highOf r)
              (levelOf V r + 1) hm1V hokl (okB_highOf hr) hszlt.2
            refine ⟨makenodeF (levelOf V r) t0 t1, ?_, ?_, ?_⟩
            · simp only [bind, Except.bind, e0, e1, pure, Except.pure]
            · exact okB_makenodeF (okB_levelOf_le hr hlbV) hmV ok0 ok1
            · intro a
              rw [evalB_makenodeF, evalB_split V r (levelOf V r) rfl a]
              cases a (levelOf V r) <;> simp [ev0, ev1]

/-- Correctness of not on reduced ordered trees: with enough fuel it
succeeds, preserves wellformedness, and denotes the negation of its
operand. -/
theorem notF_correct {V : Nat} : ∀ (fuel : Nat) (t : B) (lb : Nat), lb ≤ V →
    okB V lb t = true → sizeB t < fuel →
    ∃ s, notF V fuel t = .ok s ∧ okB V lb s = true ∧
      ∀ a, evalB s a = ! evalB t a := by
  intro fuel
  induction fuel with
  | zero => intro t lb _ _ hsz; omega
  | succ n ih =>
    intro t lb hlbV ht hsz
    cases t with
    | zero => exact ⟨.one, rfl, rfl, fun a => rfl⟩
    | one => exact ⟨.zero, rfl, rfl, fun a => rfl⟩
    | node l lo hi =>
      rw [notF]
      rw [if_neg (by simp), if_neg (by simp)]
      have ht' := ht
      simp only [okB, Bool.and_eq_true, decide_eq_true_eq] at ht'
      have hszc : sizeB lo < n ∧ sizeB hi < n := by
        simp only [sizeB] at hsz
        exact ⟨by omega, by omega⟩
      obtain ⟨t0, e0, ok0, ev0⟩ := ih lo (l + 1) ht'.1.1.1.2 ht'.1.2 hszc.1
      obtain ⟨t1, e1, ok1, ev1⟩ := ih hi (l + 1) ht'.1.1.1.2 ht'.2 hszc.2
      refine ⟨makenodeF l t0 t1, ?_, ?_, ?_⟩
      · simp only [lowOf, highOf, levelOf, bind, Except.bind, e0, e1, pure,
          Except.pure]
      · exact okB_makenodeF ht'.1.1.1.1 ht'.1.1.1.2 ok0 ok1
      · intro a
        rw [evalB_makenodeF]
        show _ = ! evalB (B.node l lo hi) a
        simp only [evalB]
        cases a l <;> simp [ev0, ev1]

theorem min3_le_left (p q r : Nat) : min3 p q r ≤ p := by
  unfold min3; split_ifs <;> omega

theorem min3_le_mid (p q r : Nat) : min3 p q r ≤ q := by
  unfold min3; split_ifs <;> omega

theorem min3_le_right (p q r : Nat) : min3 p q r ≤ r := by
  unfold min3; split_ifs <;> omega

theorem min3_eq_left {p q r : Nat} (hq : p ≤ q) (hr : p ≤ r) :
    min3 p q r = p := by
  unfold min3
  split_ifs
  all_goals omega

/-- Wellformedness of the operand picked by iteLow, below the minimum
level. -/
theorem okB_ite_low {V lb : Nat} {x : B} (q r : Nat)
    (hx : okB V lb x = true) :
    okB V (min3 (levelOf V x) q r + 1) (ite_low (levelOf V x) q r x)
      = true := by
  unfold ite_low
  split
  · have h1 : min3 (levelOf V x) q r < levelOf V x := by
      have h2 := min3_le_mid (levelOf V x) q r
      have h3 := min3_le_right (levelOf V x) q r
      omega
    exact okB_mono (okB_tighten hx) h1
  · have h1 : min3 (levelOf V x) q r = levelOf V x := by
      have h2 : ¬(levelOf V x > q ∨ levelOf V x > r) := by assumption
      exact min3_eq_left (by omega) (by omega)
    rw [h1]
    exact okB_lowOf hx

/-- Wellformedness of the operand picked by iteHigh, below the minimum
level. -/
theorem okB_ite_high {V lb : Nat} {x : B} (q r : Nat)
    (hx : okB V lb x = true) :
    okB V (min3 (levelOf V x) q r + 1) (ite_high (levelOf V x) q r x)
      = true := by
  unfold ite_high
  split
  · have h1 : min3 (levelOf V x) q r < levelOf V x := by
      have h2 := min3_le_mid (levelOf V x) q r
      have h3 := min3_le_right (levelOf V x) q r
      omega
    exact okB_mono (okB_tighten hx) h1
  · have h1 : min3 (levelOf V x) q r = levelOf V x := by
      have h2 : ¬(levelOf V x > q ∨ levelOf V x > r) := by assumption
      exact min3_eq_left (by omega) (by omega)
    rw [h1]
    exact okB_highOf hx

theorem sizeB_ite_low_le (p q r : Nat) (x : B) :
    sizeB (ite_low p q r x) ≤ sizeB x := by
  unfold ite_low
  split
  · exact le_rfl
  · exact sizeB_lowOf_le x

theorem sizeB_ite_high_le (p q r : Nat) (x : B) :
    sizeB (ite_high p q r x) ≤ sizeB x := by
  unfold ite_high
  split
  · exact le_rfl
  · exact sizeB_highOf_le x

theorem sizeB_ite_low_lt {p q r : Nat} {x : B} (hc : isConst x = false)
    (hq : p ≤ q) (hr : p ≤ r) : sizeB (ite_low p q r x) < sizeB x := by
  unfold ite_low
  split
  · omega
  · exact sizeB_lowOf_lt hc

theorem sizeB_ite_high_lt {p q r : Nat} {x : B} (hc : isConst x = false)
    (hq : p ≤ q) (hr : p ≤ r) : sizeB (ite_high p q r x) < sizeB x := by
  unfold ite_high
  split
  · omega
  · exact sizeB_highOf_lt hc

/-- Shannon view of an ite operand at the minimum level: branching on the
minimum-level variable selects the iteHigh and iteLow picks. -/
theorem evalB_ite_split (V : Nat) (x : B) (q r : Nat) (a : Nat → Bool) :
    evalB x a =
      if a (min3 (levelOf V x) q r) = true then
        evalB (ite_high (levelOf V x) q r x) a
      else evalB (ite_low (levelOf V x) q r x) a := by
  by_cases hc : levelOf V x > q ∨ levelOf V x > r
  · simp only [ite_low, ite_high, if_pos hc]
    cases a (min3 (levelOf V x) q r) <;> simp
  · simp only [ite_low, ite_high, if_neg hc]
    have h1 : min3 (levelOf V x) q r = levelOf V x :=
      min3_eq_left (by omega) (by omega)
    rw [h1]
    exact evalB_split V x (levelOf V x) rfl a

theorem min3_perm_mid (p q r : Nat) : min3 q p r = min3 p q r := by
  unfold min3
  split_ifs
  all_goals omega

theorem min3_perm_right (p q r : Nat) : min3 r p q = min3 p q r := by
  unfold min3
  split_ifs
  all_goals omega

theorem isConst_false_of_level_lt {V : Nat} {x : B}
    (h : levelOf V x < V) : isConst x = false := by
  cases x with
  | zero => simp [levelOf] at h
  | one => simp [levelOf] at h
  | node l lo hi => rfl

/-- Correctness of ite on reduced ordered trees: with enough fuel it
succeeds, preserves wellformedness, and denotes the if-then-else of its three
operands. -/
theorem iteF_correct {V : Nat} : ∀ (fuel : Nat) (f g h : B) (lb : Nat),
    lb ≤ V → okB V lb f = true → okB V lb g = true → okB V lb h = true →
    sizeB f + sizeB g + sizeB h < fuel →
    ∃ t, iteF V fuel f g h = .ok t ∧ okB V lb t = true ∧
      ∀ a, evalB t a = if evalB f a then evalB g a else evalB h a := by
  intro fuel
  induction fuel with
  | zero => intro f g h lb _ _ _ _ hsz; omega
  | succ n ih =>
    intro f g h lb hlbV hf hg hh hsz
    rw [iteF]
    by_cases hf1 : f = .one
    · rw [if_pos hf1]
      subst hf1
      exact ⟨g, rfl, hg, fun a => by simp [evalB]⟩
    rw [if_neg hf1]
    by_cases hf0 : f = .zero
    · rw [if_pos hf0]
      subst hf0
      exact ⟨h, rfl, hh, fun a => by simp [evalB]⟩
    rw [if_neg hf0]
    by_cases hgh : g = h
    · rw [if_pos hgh]
      subst hgh
      exact ⟨g, rfl, hg, fun a => by cases evalB f a <;> simp⟩
    rw [if_neg hgh]
    by_cases hg1 : (decide (g = B.one) && decide (h = B.zero)) = true
    · rw [if_pos hg1]
      simp only [Bool.and_eq_true, decide_eq_true_eq] at hg1
      obtain ⟨rfl, rfl⟩ := hg1
      exact ⟨f, rfl, hf, fun a => by cases evalB f a <;> simp [evalB]⟩
    rw [if_neg hg1]
    by_cases hg0 : (decide (g = B.zero) && decide (h = B.one)) = true
    · rw [if_pos hg0]
      simp only [Bool.and_eq_true, decide_eq_true_eq] at hg0
      obtain ⟨rfl, rfl⟩ := hg0
      obtain ⟨s, es, oks, evs⟩ := notF_correct (n + 1) f lb hlbV hf (by omega)
      refine ⟨s, es, oks, fun a => ?_⟩
      rw [evs]
      cases evalB f a <;> simp [evalB]
    rw [if_neg hg0]
    have hfc : isConst f = false := by
      cases f with
      | zero => exact absurd rfl hf0
      | one => exact absurd rfl hf1
      | node l lo hi => rfl
    have hpV : levelOf V f < V := levelOf_lt_V hf hfc
    have hqV : levelOf V g ≤ V := okB_levelOf_lt hg
    have hrV : levelOf V h ≤ V := okB_levelOf_lt hh
    have hmp := min3_le_left (levelOf V f) (levelOf V g) (levelOf V h)
    have hmq := min3_le_mid (levelOf V f) (levelOf V g) (levelOf V h)
    have hmr := min3_le_right (levelOf V f) (levelOf V g) (levelOf V h)
    have hmV : min3 (levelOf V f) (levelOf V g) (levelOf V h) < V := by omega
    have hm1V : min3 (levelOf V f) (levelOf V g) (levelOf V h) + 1 ≤ V := hmV
    have hokf0 := okB_ite_low (levelOf V g) (levelOf V h) hf
    have hokf1 := okB_ite_high (levelOf V g) (levelOf V h) hf
    have hokg0 := okB_ite_low (levelOf V f) (levelOf V h) hg
    have hokg1 := okB_ite_high (levelOf V f) (levelOf V h) hg
    have hokh0 := okB_ite_low (levelOf V f) (levelOf V g) hh
    have hokh1 := okB_ite_high (levelOf V f) (levelOf V g) hh
    rw [min3_perm_mid] at hokg0 hokg1
    rw [min3_perm_right] at hokh0 hokh1
    have hone : (levelOf V f ≤ levelOf V g ∧ levelOf V f ≤ levelOf V h) ∨
        (levelOf V g ≤ levelOf V f ∧ levelOf V g ≤ levelOf V h) ∨
        (levelOf V h ≤ levelOf V f ∧ levelOf V h ≤ levelOf V g) := by omega
    have hszlow : sizeB (ite_low (levelOf V f) (levelOf V g) (levelOf V h) f)
        + sizeB (ite_low (levelOf V g) (levelOf V f) (levelOf V h) g)
        + sizeB (ite_low (levelOf V h) (levelOf V f) (levelOf V g) h) < n := by
      have l1 := sizeB_ite_low_le (levelOf V f) (levelOf V g) (levelOf V h) f
      have l2 := sizeB_ite_low_le (levelOf V g) (levelOf V f) (levelOf V h) g
      have l3 := sizeB_ite_low_le (levelOf V h) (levelOf V f) (levelOf V g) h
      rcases hone with ⟨h1, h2⟩ | ⟨h1, h2⟩ | ⟨h1, h2⟩
      · have := sizeB_ite_low_lt hfc h1 h2
        omega
      · have hgc : isConst g = false :=
          @isConst_false_of_level_lt V g (by omega)
        have := sizeB_ite_low_lt hgc h1 h2
        omega
      · have hhc : isConst h = false :=
          @isConst_false_of_level_lt V h (by omega)
        have := sizeB_ite_low_lt hhc h1 h2
        omega
    have hszhigh : sizeB (ite_high (levelOf V f) (levelOf V g) (levelOf V h) f)
        + sizeB (ite_high (levelOf V g) (levelOf V f) (levelOf V h) g)
        + sizeB (ite_high (levelOf V h) (levelOf V f) (levelOf V g) h) < n := by
      have l1 := sizeB_ite_high_le (levelOf V f) (levelOf V g) (levelOf V h) f
      have l2 := sizeB_ite_high_le (levelOf V g) (levelOf V f) (levelOf V h) g
      have l3 := sizeB_ite_high_le (levelOf V h) (levelOf V f) (levelOf V g) h
      rcases hone with ⟨h1, h2⟩ | ⟨h1, h2⟩ | ⟨h1, h2⟩
      · have := sizeB_ite_high_lt hfc h1 h2
        omega
      · have hgc : isConst g = false :=
          @isConst_false_of_level_lt V g (by omega)
        have := sizeB_ite_high_lt hgc h1 h2
        omega
      · have hhc : isConst h = false :=
          @isConst_false_of_level_lt V h (by omega)
        have := sizeB_ite_high_lt hhc h1 h2
        omega
    obtain ⟨t0, e0, ok0, ev0⟩ := ih
      (ite_low (levelOf V f) (levelOf V g) (levelOf V h) f)
      (ite_low (levelOf V g) (levelOf V f) (levelOf V h) g)
      (ite_low (levelOf V h) (levelOf V f) (levelOf V g) h)
      (min3 (levelOf V f) (levelOf V g) (levelOf V h) + 1) hm1V
      hokf0 hokg0 hokh0 hszlow
    obtain ⟨t1, e1, ok1, ev1⟩ := ih
      (ite_high (levelOf V f) (levelOf V g) (levelOf V h) f)
      (ite_high (levelOf V g) (levelOf V f) (levelOf V h) g)
      (ite_high (levelOf V h) (levelOf V f) (levelOf V g) h)
      (min3 (levelOf V f) (levelOf V g) (levelOf V h) + 1) hm1V
      hokf1 hokg1 hokh1 hszhigh
    have hlbm : lb ≤ min3 (levelOf V f) (levelOf V g) (levelOf V h) := by
      have b1 := okB_levelOf_le hf hlbV
      have b2 := okB_levelOf_le hg hlbV
      have b3 := okB_levelOf_le hh hlbV
      unfold min3
      split_ifs
      all_goals omega
    refine ⟨makenodeF (min3 (levelOf V f) (levelOf V g) (levelOf V h)) t0 t1,
      ?_, ?_, ?_⟩
    · simp only [bind, Except.bind, e0, e1, pure, Except.pure]
    · exact okB_makenodeF hlbm hmV ok0 ok1
    · intro a
      rw [evalB_makenodeF]
      rw [show evalB f a = _ from
        evalB_ite_split V f (levelOf V g) (levelOf V h) a]
      rw [show evalB g a = _ from
        evalB_ite_split V g (levelOf V f) (levelOf V h) a]
      rw [show evalB h a = _ from
        evalB_ite_split V h (levelOf V f) (levelOf V g) a]
      rw [min3_perm_mid (levelOf V f) (levelOf V g) (levelOf V h)]
      rw [min3_perm_right (levelOf V f) (levelOf V g) (levelOf V h)]
      cases ha : a (min3 (levelOf V f) (levelOf V g) (levelOf V h)) <;>
        simp [ev0, ev1, ha]

/-- C2: for reduced ordered operands and calls that raise no error, ite
returns the same node as or(and(f, g), and(not(f), h)): both computations
produce reduced ordered trees denoting the same Boolean function, and
canonicity of the hash-consed table makes the two NodeIds identical.  The
intermediate nodes fg, nf, nfh und the two results t, u are bound by the
success hypotheses; the fuel bounds make every call complete. -/
theorem ite_eq_or_and_not {V : Nat} {f g h t fg nf nfh u : B}
    {fi f1 f2 f3 f4 : Nat}
    (hf : okB V 0 f = true) (hg : okB V 0 g = true) (hh : okB V 0 h = true)
    (hfi : sizeB f + sizeB g + sizeB h < fi)
    (hsz1 : sizeB f + sizeB g < f1)
    (hsz2 : sizeB f < f2)
    (hsz3 : sizeB nf + sizeB h < f3)
    (hsz4 : sizeB fg + sizeB nfh < f4)
    (hite : iteF V fi f g h = .ok t)
    (hand1 : applyF V .OPand f1 f g = .ok fg)
    (hnot : notF V f2 f = .ok nf)
    (hand2 : applyF V .OPand f3 nf h = .ok nfh)
    (hor : applyF V .OPor f4 fg nfh = .ok u) :
    t = u := by
  have h0V : (0 : Nat) ≤ V := Nat.zero_le V
  obtain ⟨t', et, okt, evt⟩ :=
    iteF_correct fi f g h 0 h0V hf hg hh hfi
  have htt : t = t' := by
    rw [hite] at et
    exact Except.ok.inj et
  rw [← htt] at okt evt
  obtain ⟨fg', e1, okfg, evfg⟩ :=
    @applyF_correct V .OPand (by decide) (by decide) f1 f g 0 h0V hf hg hsz1
  have hfg : fg = fg' := by
    rw [hand1] at e1
    exact Except.ok.inj e1
  rw [← hfg] at okfg evfg
  obtain ⟨nf', e2, oknf, evnf⟩ := notF_correct f2 f 0 h0V hf hsz2
  have hnf : nf = nf' := by
    rw [hnot] at e2
    exact Except.ok.inj e2
  rw [← hnf] at oknf evnf
  obtain ⟨nfh', e3, oknfh, evnfh⟩ :=
    @applyF_correct V .OPand (by decide) (by decide) f3 nf h 0 h0V oknf hh hsz3
  have hnfh : nfh = nfh' := by
    rw [hand2] at e3
    exact Except.ok.inj e3
  rw [← hnfh] at oknfh evnfh
  obtain ⟨u', e4, oku, evu⟩ :=
    @applyF_correct V .OPor (by decide) (by decide) f4 fg nfh 0 h0V okfg
      oknfh hsz4
  have hu : u = u' := by
    rw [hor] at e4
    exact Except.ok.inj e4
  rw [← hu] at oku evu
  refine canonB okt oku fun a => ?_
  rw [evt, evu, evfg, evnfh, evnf]
  cases evalB f a <;> cases evalB g a <;> cases evalB h a <;> rfl

/-- Closed instantiation of ite_eq_or_and_not on the two-variable instance
ite(x0, x1, true) against or(and(x0, x1), and(not(x0), true)). -/
theorem ite_eq_or_and_not_witness :
    iteF 2 10 (B.node 0 .zero .one) (B.node 1 .zero .one) .one =
      .ok (B.node 0 .one (B.node 1 .zero .one)) ∧
    applyF 2 .OPor 10 (B.node 0 .zero (B.node 1 .zero .one))
      (B.node 0 .one .zero) = .ok (B.node 0 .one (B.node 1 .zero .one)) ∧
    B.node 0 .one (B.node 1 .zero .one) =
      B.node 0 .one (B.node 1 .zero .one) :=
  ⟨rfl, rfl,
    @ite_eq_or_and_not 2 (B.node 0 .zero .one) (B.node 1 .zero .one) B.one
      (B.node 0 .one (B.node 1 .zero .one))
      (B.node 0 .zero (B.node 1 .zero .one))
      (B.node 0 .one .zero)
      (B.node 0 .one .zero)
      (B.node 0 .one (B.node 1 .zero .one))
      10 10 10 10 10
      (by decide) (by decide) (by decide)
      (by decide) (by decide) (by decide) (by decide) (by decide)
      rfl rfl rfl rfl rfl⟩

/-! ## State-level embedding of the node table

This part embeds the buddy-style engine state itself: the node array with its
chained-bucket unique index (kernel.go, hashing.go, buddy.go), the garbage
collector (gc.go), the operation caches (hashing.go and the cache file), the
counting, enumeration and literal accessors (errors.go, bdd.go, cache.go).
Go int and int32 fields are Lean Int (node levels, always non-negative and
below 2 to the 22nd, are Nat).  Slices are lists; mutation is explicit state
passing; loops are structural recursions over the loop counter.  Statistics
counters and log output are omitted. -/

/-- buddynode of buddy.go (bddNode of bdd.go): reference count, level (whose
bit 21 doubles as the GC mark bit), the two branches (low equal to -1 marks a
free slot), and the hash and next fields of the chained unique index. -/
structure BddNode where
  refcou : Int
  level : Nat
  low : Int
  high : Int
  hash : Int
  next : Int
deriving DecidableEq, Repr

instance : Inhabited BddNode := ⟨⟨0, 0, 0, 0, 0, 0⟩⟩

/-- Entry of an operation cache (cacheData): result and the three key
fields. -/
structure CacheData where
  res : Int
  a : Int
  b : Int
  c : Int
deriving DecidableEq, Repr

instance : Inhabited CacheData := ⟨⟨0, 0, 0, 0⟩⟩

/-- _MAXREFCOUNT of kernel.go: saturation value of the reference counter,
also used to pin constants and variable literals. -/
def _MAXREFCOUNT : Int := 0x3FF

/-- _MAXVAR of kernel.go: largest level (21 bits). -/
def _MAXVAR : Nat := 0x1FFFFF

/-- Engine state: the buddy table of kernel.go and gc.go together with the
fields of the BDD structure of bdd.go used by the embedded operations. -/
structure BDD where
  nodes : List BddNode
  freepos : Int
  freenum : Int
  varnum : Nat
  varset : List (Int × Int)
  refstack : List Int
  error : Option String
  minfreenodes : Int
  maxnodesize : Int
  maxnodeincrease : Int
  cacheratio : Int
  quantset : List Int
  quantsetID : Int
  quantlast : Nat
  applycache : List CacheData
  itecache : List CacheData
  quantcacheTbl : List CacheData
  appexcache : List CacheData
  replacecache : List CacheData
deriving Repr

/-- Read of b.nodes at an id (ids are always in range on wellformed
states). -/
def nodeAt (b : BDD) (n : Int) : BddNode := b.nodes.getD n.toNat default

/-- Write of b.nodes at an id. -/
def setNodeAt (b : BDD) (n : Int) (nd : BddNode) : BDD :=
  { b with nodes := b.nodes.set n.toNat nd }

/-- b.level accessor of buddy.go. -/
def levelN (b : BDD) (n : Int) : Nat := (nodeAt b n).level

/-- b.low accessor of buddy.go. -/
def lowN (b : BDD) (n : Int) : Int := (nodeAt b n).low

/-- b.high accessor of buddy.go. -/
def highN (b : BDD) (n : Int) : Int := (nodeAt b n).high

/-- ismarked of buddy.go: bit 21 of the level word. -/
def ismarked (b : BDD) (n : Int) : Bool :=
  (nodeAt b n).level &&& 0x200000 ≠ 0

/-- marknode of buddy.go: set bit 21 of the level word. -/
def marknode (b : BDD) (n : Int) : BDD :=
  setNodeAt b n { nodeAt b n with level := (nodeAt b n).level ||| 0x200000 }

/-- unmarknode of buddy.go: keep the 21 low bits of the level word. -/
def unmarknode (b : BDD) (n : Int) : BDD :=
  setNodeAt b n { nodeAt b n with level := (nodeAt b n).level &&& 0x1FFFFF }

/-- _PAIR of hashing.go (the uint64 arithmetic is exact here: node ids stay
below 2 to the 31st, so the products stay below 2 to the 64th). -/
def _PAIR (a b len : Nat) : Nat :=
  ((a + b) * (a + b + 1) / 2 + a) % len

/-- _PAIR64 of hashing.go. -/
def _PAIR64 (a b len : Nat) : Nat :=
  (((a + b) % len) * ((a + b + 1) % len) / 2 + a) % len

/-- _TRIPLE of hashing.go. -/
def _TRIPLE (a b c len : Nat) : Nat :=
  _PAIR64 c (_PAIR a b len) len

/-- ptrhash of buddy.go: hash of the triple stored at a node. -/
def ptrhash (b : BDD) (n : Int) : Nat :=
  _TRIPLE (levelN b n) (lowN b n).toNat (highN b n).toNat b.nodes.length

/-- nodehash of buddy.go: hash of a candidate triple. -/
def nodehash (b : BDD) (lvl : Nat) (lo hi : Int) : Nat :=
  _TRIPLE lvl lo.toNat hi.toNat b.nodes.length

/-- seterror of debug.go (errors.go): first error wins its message,
subsequent failures append the prior text. -/
def seterror (b : BDD) (msg : String) : BDD :=
  match b.error with
  | some e => { b with error := some (msg ++ "; " ++ e) }
  | none => { b with error := some msg }

/-- cachereset of a single cache (the loop writing -1 into the first key
field of every entry). -/
def cacheReset1 (t : List CacheData) : List CacheData :=
  t.map fun e => { e with a := -1 }

/-- cachereset of the buddy table: reset the five operation caches (apply,
ite, quant, appex, replace). -/
def cachereset (b : BDD) : BDD :=
  { b with
    applycache := cacheReset1 b.applycache
    itecache := cacheReset1 b.itecache
    quantcacheTbl := cacheReset1 b.quantcacheTbl
    appexcache := cacheReset1 b.appexcache
    replacecache := cacheReset1 b.replacecache }

/-- matchapply of hashing.go (the current apply operator op is the cache
discriminator). -/
def matchapply (b : BDD) (op : Int) (left right : Int) : Int :=
  let entry := b.applycache.getD
    (_TRIPLE left.toNat right.toNat op.toNat b.applycache.length) default
  if entry.a = left ∧ entry.b = right ∧ entry.c = op then entry.res else -1

/-- matchnot of hashing.go. -/
def matchnot (b : BDD) (n : Int) : Int :=
  let entry := b.applycache.getD (n.toNat % b.applycache.length) default
  if entry.a = n ∧ entry.c = 10 then entry.res else -1

/-- matchite of hashing.go. -/
def matchite (b : BDD) (f g h : Int) : Int :=
  let entry := b.itecache.getD
    (_TRIPLE f.toNat g.toNat h.toNat b.itecache.length) default
  if entry.a = f ∧ entry.b = g ∧ entry.c = h then entry.res else -1

/-- matchquant of hashing.go (id is the current quantification cache id). -/
def matchquant (b : BDD) (id : Int) (n : Int) : Int :=
  let entry := b.quantcacheTbl.getD (n.toNat % b.quantcacheTbl.length) default
  if entry.a = n ∧ entry.c = id then entry.res else -1

/-- matchappex of hashing.go (id is the current appex cache id). -/
def matchappex (b : BDD) (id : Int) (left right : Int) : Int :=
  let entry := b.appexcache.getD
    (_PAIR left.toNat right.toNat b.appexcache.length) default
  if entry.a = left ∧ entry.b = right ∧ entry.c = id then entry.res else -1

/-- matchreplace of hashing.go (id is the current replacer id). -/
def matchreplace (b : BDD) (id : Int) (n : Int) : Int :=
  let entry := b.replacecache.getD (n.toNat % b.replacecache.length) default
  if entry.a = n ∧ entry.c = id then entry.res else -1

/-- markrec of gc.go: depth-first marking through low and high, skipping
constants, already marked nodes and free slots.  The fuel argument is an
artifact of the embedding; the entry points pass varnum plus one, which the
ordering invariant proves sufficient (levels strictly increase along
edges). -/
def markrec (b : BDD) : Nat → Int → BDD
  | 0, _ => b
  | fuel + 1, n =>
    if n < 2 ∨ ismarked b n = true ∨ (nodeAt b n).low = -1 then b
    else
      let b1 := marknode b n
      let b2 := markrec b1 fuel (nodeAt b1 n).low
      markrec b2 fuel (nodeAt b2 n).high

/-- Marking loop of gbc over the internal reference stack. -/
def gbc_markstack (b : BDD) : BDD :=
  b.refstack.foldl (fun acc r => markrec acc (acc.varnum + 1) r) b

/-- Marking and hash-clearing loop of gbc over all slots: protect every node
with a positive reference count, and zero every hash chain root. -/
def gbc_markref (b : BDD) : BDD :=
  (List.range b.nodes.length).foldl
    (fun (acc : BDD) (k : Nat) =>
      let acc1 := if (nodeAt acc (k : Int)).refcou > 0 then
          markrec acc (acc.varnum + 1) (k : Int)
        else acc
      setNodeAt acc1 (k : Int) { nodeAt acc1 (k : Int) with hash := 0 })
    b

/-- The keep case of the sweep loop of gbc at slot n: unmark the node and
re-chain it under its hash in the unique index. -/
def sweepKeep (b : BDD) (n : Nat) : BDD :=
  let b1 := unmarknode b (n : Int)
  let hash := ptrhash b1 (n : Int)
  let b2 := setNodeAt b1 (n : Int)
    { nodeAt b1 (n : Int) with next := (nodeAt b1 (hash : Int)).hash }
  setNodeAt b2 (hash : Int)
    { nodeAt b2 (hash : Int) with hash := (n : Int) }

/-- The free case of the sweep loop of gbc at slot n: void the slot (low set
to -1) and push it at the head of the free list. -/
def sweepFree (b : BDD) (n : Nat) : BDD :=
  let b1 := setNodeAt b (n : Int)
    { nodeAt b (n : Int) with low := -1, next := b.freepos }
  { b1 with freepos := (n : Int), freenum := b1.freenum + 1 }

/-- One iteration of the sweep loop of gbc at slot n: a marked live node is
unmarked and re-chained under its hash; every other slot is voided (low set
to -1) and pushed on the free list. -/
def gbc_sweepStep (b : BDD) (n : Nat) : BDD :=
  if ismarked b n = true ∧ (nodeAt b n).low ≠ -1 then sweepKeep b n
  else sweepFree b n

/-- Sweep loop of gbc, walking the slots from high index down to 2. -/
def gbc_sweepFrom (b : BDD) : Nat → BDD
  | 0 => b
  | 1 => b
  | n + 2 => gbc_sweepFrom (gbc_sweepStep b (n + 2)) (n + 1)

/-- gbc of gc.go: no-op on an errored engine; otherwise mark from the
reference stack and from every node with positive refcount (zeroing the hash
roots on the way), reset the free list, sweep, and invalidate the five
operation caches. -/
def gbc (b : BDD) : BDD :=
  if b.error ≠ none then b
  else
    let b1 := gbc_markstack b
    let b2 := gbc_markref b1
    let b3 := { b2 with freepos := 0, freenum := 0 }
    let b4 := gbc_sweepFrom b3 (b3.nodes.length - 1)
    cachereset b4

/-- hasFactor of primes.go. -/
def hasFactor (src n : Int) : Bool :=
  src ≠ n && src % n == 0

/-- hasEasyFactors of primes.go. -/
def hasEasyFactors (src : Int) : Bool :=
  hasFactor src 3 || hasFactor src 5 || hasFactor src 7 ||
    hasFactor src 11 || hasFactor src 13

/-- Descending search loop of primeLte (primes.go).  ProbablyPrime with zero
rounds is an exact primality test on the word-sized inputs involved, so it is
embedded as Nat.Prime; the fuel bounds the number of candidates tried and is
an artifact of the embedding (the callers pass enough for the full descent to
one). -/
def prime_lte_loop : Nat → Int → Int
  | 0, src => src
  | fuel + 1, src =>
    if hasEasyFactors src then prime_lte_loop fuel (src - 2)
    else if Nat.Prime src.toNat then src
    else prime_lte_loop fuel (src - 2)

/-- bdd_prime_lte (primeLte of primes.go): greatest prime below the input,
following the source's descent over odd candidates. -/
def bdd_prime_lte (src : Int) : Int :=
  if src = 0 then 1
  else
    let src1 := if src % 2 == 0 then src - 1 else src
    prime_lte_loop (src1.toNat + 1) src1

/-- Ascending search loop of primeGte (primes.go). -/
def prime_gte_loop : Nat → Int → Int
  | 0, src => src
  | fuel + 1, src =>
    if hasEasyFactors src then prime_gte_loop fuel (src + 2)
    else if Nat.Prime src.toNat then src
    else prime_gte_loop fuel (src + 2)

/-- bdd_prime_gte (primeGte of primes.go): smallest prime above the input
(fuel from Bertrand's postulate: a prime exists below twice the input). -/
def bdd_prime_gte (src : Int) : Int :=
  let src1 := if src % 2 == 0 then src + 1 else src
  prime_gte_loop (src1.toNat + 2) src1

/-- cacheinit of a single cache: allocate a prime-sized table and reset
it. -/
def cacheInit1 (size : Int) : List CacheData :=
  cacheReset1 (List.replicate (bdd_prime_gte size).toNat default)

/-- cacheresize of a single cache: with a positive cache ratio the table is
reallocated proportionally to the node table, otherwise it is only reset. -/
def cacheResize1 (ratio : Int) (size : Int) (t : List CacheData) :
    List CacheData :=
  if ratio > 0 then cacheInit1 (size / ratio) else cacheReset1 t

/-- cacheresize of the buddy table: resize the five operation caches against
the node-table size. -/
def cacheresize (b : BDD) : BDD :=
  { b with
    applycache := cacheResize1 b.cacheratio b.nodes.length b.applycache
    itecache := cacheResize1 b.cacheratio b.nodes.length b.itecache
    quantcacheTbl := cacheResize1 b.cacheratio b.nodes.length b.quantcacheTbl
    appexcache := cacheResize1 b.cacheratio b.nodes.length b.appexcache
    replacecache := cacheResize1 b.cacheratio b.nodes.length b.replacecache }

/-- The keep case of the re-chaining loop of noderesize at slot n: the live
node is chained under its hash in the renewed unique index. -/
def rechainKeep (b : BDD) (n : Nat) : BDD :=
  let hash := ptrhash b (n : Int)
  let b1 := setNodeAt b (n : Int)
    { nodeAt b (n : Int) with next := (nodeAt b (hash : Int)).hash }
  setNodeAt b1 (hash : Int)
    { nodeAt b1 (hash : Int) with hash := (n : Int) }

/-- The free case of the re-chaining loop of noderesize at slot n: the dead
slot is pushed at the head of the rebuilt free list. -/
def rechainFree (b : BDD) (n : Nat) : BDD :=
  let b1 := setNodeAt b (n : Int)
    { nodeAt b (n : Int) with next := b.freepos }
  { b1 with freepos := (n : Int), freenum := b1.freenum + 1 }

/-- One iteration of the re-chaining loop of noderesize at slot n: live
nodes are chained under their hash, free slots pushed on the free list. -/
def resize_rechainStep (b : BDD) (n : Nat) : BDD :=
  if (nodeAt b n).low ≠ -1 then rechainKeep b n
  else rechainFree b n

/-- Re-chaining loop of noderesize, from the high slots down to 2. -/
def resize_rechainFrom (b : BDD) : Nat → BDD
  | 0 => b
  | 1 => b
  | n + 2 => resize_rechainFrom (resize_rechainStep b (n + 2)) (n + 1)

/-- noderesize of kernel.go.  Returns the new state and an error flag (true
on failure, in which case the state carries the error).  The target size is
min of the doubled size, the size plus maxnodeincrease, and maxnodesize,
snapped down to a prime; growth fails when the engine is already errored, at
max capacity, or when the snapped target does not exceed the old size.  On
success the array is extended (old entries copied in place), every hash root
cleared, the new slots initialised free, and the whole table re-chained,
rebuilding the free list; finally the caches are resized.  The target size
computation is hoisted into resize_target. -/
def resize_target (b : BDD) : Int :=
  let oldsize : Int := b.nodes.length
  let ns0 : Int := if oldsize > 1073741823 then 2147483646 else oldsize * 2
  let ns1 : Int := if ns0 > oldsize + b.maxnodeincrease then
      oldsize + b.maxnodeincrease
    else ns0
  let ns2 : Int := if ns1 > b.maxnodesize ∧ b.maxnodesize > 0 then
      b.maxnodesize
    else ns1
  bdd_prime_lte ns2

def noderesize (b : BDD) : BDD × Bool :=
  if b.error ≠ none then
    (seterror b "Error before resizing", true)
  else if b.nodes.length ≥ b.maxnodesize ∧ b.maxnodesize > 0 then
    (seterror b "Cannot resize BDD, already at max capacity", true)
  else if resize_target b ≤ (b.nodes.length : Int) then
    (seterror b "Unable to grow size of BDD", true)
  else
    let newlen := (resize_target b).toNat
    let grown := (b.nodes.map fun nd => { nd with hash := 0 }) ++
      (List.range (newlen - b.nodes.length)).map fun k =>
        { refcou := 0, level := 0, low := -1, high := 0, hash := 0,
          next := (b.nodes.length : Int) + k + 1 }
    let b1 := { b with nodes := grown, freepos := 0, freenum := 0 }
    let b2 := resize_rechainFrom b1 (b1.nodes.length - 1)
    (cacheresize b2, false)

/-- Chain walk of the unique index inside makenode (kernel.go): follow next
from the chain root, returning the first node storing the triple; fuel
bounds the walk (the chain-properness invariant keeps real chains shorter,
so the result agrees with the unbounded loop of the source on wellformed
states). -/
def findnode (b : BDD) (lvl : Nat) (lo hi : Int) : Nat → Int → Option Int
  | 0, _ => none
  | fuel + 1, res =>
    if res = 0 then none
    else if (nodeAt b res).level = lvl ∧ (nodeAt b res).low = lo ∧
        (nodeAt b res).high = hi then some res
    else findnode b lvl lo hi fuel (nodeAt b res).next

/-- Allocation tail of makenode (kernel.go): pop the head of the free list,
store the triple there, and chain the slot under its hash. -/
def makenode_alloc (b : BDD) (lvl : Nat) (lo hi : Int) (hash : Nat) :
    BDD × Int :=
  let res := b.freepos
  let b1 := { b with freepos := (nodeAt b b.freepos).next,
                     freenum := b.freenum - 1 }
  let b2 := setNodeAt b1 res
    { nodeAt b1 res with level := lvl, low := lo, high := hi,
                         next := (nodeAt b1 hash).hash }
  let b3 := setNodeAt b2 hash { nodeAt b2 hash with hash := res }
  (b3, res)

/-- makenode of kernel.go: return the child on equal children, propagate the
error sentinel, look the triple up in the unique index, and on a miss
allocate a free slot, garbage collecting and resizing when the free list is
exhausted. -/
def makenode (b : BDD) (lvl : Nat) (lo hi : Int) : BDD × Int :=
  if lo = hi then (b, lo)
  else if lo = -1 ∨ hi = -1 then (b, -1)
  else
    match findnode b lvl lo hi (b.nodes.length + 1)
      (nodeAt b ((nodehash b lvl lo hi : Nat) : Int)).hash with
    | some res => (b, res)
    | none =>
      if b.freepos = 0 then
        let b1 := gbc b
        if b1.freenum * 100 / (b1.nodes.length : Int) ≤ b1.minfreenodes then
          match noderesize b1 with
          | (b2, true) => (seterror b2 "Unable to free memory or resize BDD",
              -1)
          | (b2, false) =>
            if b2.freepos = 0 then (seterror b2 "Unable to resize BDD", -1)
            else makenode_alloc b2 lvl lo hi (nodehash b2 lvl lo hi)
        else
          if b1.freepos = 0 then (seterror b1 "Unable to resize BDD", -1)
          else makenode_alloc b1 lvl lo hi (nodehash b lvl lo hi)
      else makenode_alloc b lvl lo hi (nodehash b lvl lo hi)

/-! ## Table invariants

The wellformedness predicate WF collects the documented invariants of the
node table: constants pinned at 0 and 1, levels bounded and unmarked,
ordering along edges, closed liveness, canonicity of triples, clean free
slots, proper hash chains containing every live node, a free head on the
free list, and a valid reference stack.  Every clause is decidable so that
concrete witness states can be checked by evaluation. -/

/-- A node id inside the table bounds. -/
def validId (b : BDD) (n : Int) : Prop :=
  0 ≤ n ∧ n < (b.nodes.length : Int)

instance (b : BDD) (n : Int) : Decidable (validId b n) := by
  unfold validId
  infer_instance

/-- A live internal node: an id at least 2 whose slot is not free. -/
def islive (b : BDD) (n : Int) : Prop :=
  2 ≤ n ∧ n < (b.nodes.length : Int) ∧ (nodeAt b n).low ≠ -1

instance (b : BDD) (n : Int) : Decidable (islive b n) := by
  unfold islive
  infer_instance

/-- Chain walk of the unique index returning whether the walk from start
reaches the 0 terminator within fuel steps visiting only live nodes. -/
def chainProper (b : BDD) : Nat → Int → Bool
  | 0, start => start = 0
  | fuel + 1, start =>
    if start = 0 then true
    else decide (islive b start) && chainProper b fuel (nodeAt b start).next

/-- Membership of a node in a chain of the unique index. -/
def chainMem (b : BDD) : Nat → Int → Int → Bool
  | 0, _, _ => false
  | fuel + 1, start, target =>
    if start = 0 then false
    else if start = target then true
    else chainMem b fuel (nodeAt b start).next target

/-- The three fields of the unique-index key of a node. -/
def tripleOf (b : BDD) (n : Int) : Nat × Int × Int :=
  ((nodeAt b n).level, (nodeAt b n).low, (nodeAt b n).high)

/-- Wellformedness of the engine state. -/
def WF (b : BDD) : Prop :=
  2 ≤ b.nodes.length ∧
  1 ≤ b.varnum ∧ b.varnum ≤ _MAXVAR ∧
  (nodeAt b 0).level = b.varnum ∧ (nodeAt b 0).low = 0 ∧
    (nodeAt b 0).high = 0 ∧ (nodeAt b 0).refcou = _MAXREFCOUNT ∧
  (nodeAt b 1).level = b.varnum ∧ (nodeAt b 1).low = 1 ∧
    (nodeAt b 1).high = 1 ∧ (nodeAt b 1).refcou = _MAXREFCOUNT ∧
  (∀ n : Nat, n < b.nodes.length → (nodeAt b n).level ≤ b.varnum) ∧
  (∀ n : Nat, n < b.nodes.length → islive b n →
    (nodeAt b n).level < b.varnum ∧
    validId b (nodeAt b n).low ∧ validId b (nodeAt b n).high ∧
    ((nodeAt b n).low < 2 ∨ islive b (nodeAt b n).low) ∧
    ((nodeAt b n).high < 2 ∨ islive b (nodeAt b n).high) ∧
    (nodeAt b n).level < (nodeAt b (nodeAt b n).low).level ∧
    (nodeAt b n).level < (nodeAt b (nodeAt b n).high).level) ∧
  (∀ n : Nat, n < b.nodes.length → 0 ≤ (nodeAt b n).refcou) ∧
  (∀ n : Nat, n < b.nodes.length → 2 ≤ n → (nodeAt b n).low = -1 →
    (nodeAt b n).refcou = 0) ∧
  (∀ m : Nat, m < b.nodes.length → ∀ n : Nat, n < b.nodes.length →
    islive b m → islive b n → tripleOf b m = tripleOf b n → m = n) ∧
  (∀ h : Nat, h < b.nodes.length →
    chainProper b (b.nodes.length + 1) (nodeAt b h).hash = true) ∧
  (∀ n : Nat, n < b.nodes.length → islive b n →
    chainMem b (b.nodes.length + 1)
      (nodeAt b (ptrhash b n)).hash n = true ∧
    ptrhash b n < b.nodes.length) ∧
  (b.freepos = 0 ∨ (2 ≤ b.freepos ∧ b.freepos < (b.nodes.length : Int) ∧
    (nodeAt b b.freepos).low = -1)) ∧
  (∀ r ∈ b.refstack, validId b r ∧ (r < 2 ∨ islive b r))

set_option synthInstance.maxSize 512 in
set_option maxHeartbeats 1000000 in
instance (b : BDD) : Decidable (WF b) := by
  unfold WF
  infer_instance

/-! ## Literals, quantification cache, counting and enumeration -/

/-- Ithvar of buddy.go (and bdd.go): on an index outside the variable range,
set the error and return the False constant (the handle bddzero, modelled
some 0); otherwise return the pinned positive literal from varset.  Handles
are Option Int: none is the nil handle. -/
def Ithvar (b : BDD) (i : Int) : BDD × Option Int :=
  if i < 0 ∨ (b.varnum : Int) ≤ i then
    (seterror b "Unknown variable used in call to ithvar", some 0)
  else (b, some (b.varset.getD i.toNat (0, 0)).1)

/-- NIthvar of buddy.go (and bdd.go): on an index outside the variable
range, set the error and return the nil handle (seterror returns nil);
otherwise return the pinned negative literal from varset. -/
def NIthvar (b : BDD) (i : Int) : BDD × Option Int :=
  if i < 0 ∨ (b.varnum : Int) ≤ i then
    (seterror b "Unknown variable used in call to nithvar", none)
  else (b, some (b.varset.getD i.toNat (0, 0)).2)

/-- Spine walk of quantset2cache (cache.go): starting at the varset node,
write the epoch id at the level of each node of the high spine and record
that level in quantlast. -/
def quantset_loop (b : BDD) (qid : Int) :
    Nat → Int → List Int → Nat → List Int × Nat
  | 0, _, qs, qlast => (qs, qlast)
  | fuel + 1, i, qs, qlast =>
    if 1 < i then
      quantset_loop b qid fuel (highN b i) (qs.set (levelN b i) qid)
        (levelN b i)
    else (qs, qlast)

/-- maxInt32, the epoch counter bound of quantset2cache. -/
def maxInt32 : Int := 2147483647

/-- quantset2cache of cache.go: reject constants, increment the epoch
counter (reinitialising the array and restarting at 1 when the counter
reaches maxInt32), then stamp the levels of the varset's high spine and
record the last one. -/
def quantset2cache (b : BDD) (n : Int) : BDD × Option String :=
  if n < 2 then
    let b1 := seterror b "Illegal variable in varset to cache"
    (b1, b1.error)
  else
    let qid := if b.quantsetID + 1 = maxInt32 then 1 else b.quantsetID + 1
    let qs0 := if b.quantsetID + 1 = maxInt32 then
        List.replicate b.varnum (0 : Int)
      else b.quantset
    let walk := quantset_loop b qid (b.varnum + 1) n qs0 b.quantlast
    ({ b with quantset := walk.1, quantsetID := qid,
              quantlast := walk.2 }, none)

/-- Levels of the high spine of a varset node, in walk order. -/
def spineList (b : BDD) : Nat → Int → List Nat
  | 0, _ => []
  | fuel + 1, i =>
    if 1 < i then levelN b i :: spineList b fuel (highN b i)
    else []

/-- Lookup in the satcount memoization map (a Go map modelled as an
association list). -/
def lookupMemo : List (Int × Int) → Int → Option Int
  | [], _ => none
  | (k, v) :: rest, n => if k = n then some v else lookupMemo rest n

/-- satcount of errors.go: constants count as their own value, internal
nodes are memoized and combine the two branch counts weighted by two to the
level gap minus one (big.Int is exact integer arithmetic, embedded as Int;
the level differences are non-negative by the ordering invariant, so Nat
subtraction in the exponents is exact). -/
def satcount_rec (b : BDD) :
    Nat → Int → List (Int × Int) → Int × List (Int × Int)
  | 0, _, satc => (0, satc)
  | fuel + 1, n, satc =>
    if n < 2 then (n, satc)
    else
      match lookupMemo satc n with
      | some res => (res, satc)
      | none =>
        let lvl := levelN b n
        let lo := lowN b n
        let hi := highN b n
        let rl := satcount_rec b fuel lo satc
        let rh := satcount_rec b fuel hi rl.2
        let res := 2 ^ (levelN b lo - lvl - 1) * rl.1 +
          2 ^ (levelN b hi - lvl - 1) * rh.1
        (res, (n, res) :: rh.2)

/-- Satcount of errors.go: zero on an invalid operand (the checkptr guard),
otherwise two to the root level times the recursive count, computed with a
fresh memoization map. -/
def Satcount (b : BDD) (n : Int) : Int :=
  if n < 0 ∨ (b.nodes.length : Int) ≤ n ∨ (2 ≤ n ∧ lowN b n = -1) then 0
  else 2 ^ levelN b n * (satcount_rec b (b.varnum + 1) n []).1

/-- Modelled from the spec: the count recurrence of the satcount section,
count(0) = 0, count(1) = 1, count(n) = two to (level(low) minus level(n)
minus one) times count(low) plus two to (level(high) minus level(n) minus
one) times count(high).  This is the specification-side definition that
Satcount is compared against. -/
def countSpec (b : BDD) : Nat → Int → Int
  | 0, _ => 0
  | fuel + 1, n =>
    if n = 0 then 0
    else if n = 1 then 1
    else 2 ^ (levelN b (lowN b n) - levelN b n - 1) *
        countSpec b fuel (lowN b n) +
      2 ^ (levelN b (highN b n) - levelN b n - 1) *
        countSpec b fuel (highN b n)

/-- Reset loop of allsat (errors.go): walk v from the start value down to
just above lvl, writing the do-not-care value -1. -/
def profResetFrom (lvl : Nat) : Nat → List Int → List Int
  | 0, prof => prof
  | v + 1, prof =>
    if lvl < v + 1 then profResetFrom lvl v (prof.set (v + 1) (-1))
    else prof

/-- allsat of errors.go: at the True sink call the callback on the current
profile; descend first into a non-False low branch (profile entry 0, the
levels skipped by the edge reset to -1) and then into a non-False high
branch (profile entry 1).  When a recursive call reports an error the source
stops the enumeration but returns nil, not the error. -/
def allsat_rec (b : BDD) (f : List Int → Option String) :
    Nat → Int → List Int → List Int × Option String
  | 0, _, prof => (prof, none)
  | fuel + 1, n, prof =>
    if n = 1 then (prof, f prof)
    else if n = 0 then (prof, none)
    else
      let step1 : List Int × Bool :=
        if lowN b n ≠ 0 then
          let prof1 := prof.set (levelN b n) 0
          let prof2 := profResetFrom (levelN b n)
            (levelN b (lowN b n) - 1) prof1
          let r := allsat_rec b f fuel (lowN b n) prof2
          if r.2 ≠ none then (r.1, true) else (r.1, false)
        else (prof, false)
      if step1.2 then (step1.1, none)
      else if highN b n ≠ 0 then
        let prof1 := step1.1.set (levelN b n) 1
        let prof2 := profResetFrom (levelN b n)
          (levelN b (highN b n) - 1) prof1
        let r := allsat_rec b f fuel (highN b n) prof2
        if r.2 ≠ none then (r.1, none) else (r.1, none)
      else (step1.1, none)

/-- Allsat of errors.go: reject an invalid node (the checkptr guard,
returning the error), initialise the profile to all do-not-care, and run the
enumeration; the value returned to the caller is the error slot of the
recursion. -/
def Allsat (b : BDD) (f : List Int → Option String) (n : Int) :
    Option String :=
  if n < 0 ∨ (b.nodes.length : Int) ≤ n ∨ (2 ≤ n ∧ lowN b n = -1) then
    some "wrong node in call to Allsat"
  else
    (allsat_rec b f (b.varnum + 1) n (List.replicate b.varnum (-1))).2

/-- Wellformedness of the variable literal table built by setVarnum: for
each variable the two pinned literal nodes with the expected triples. -/
def WFvars (b : BDD) : Prop :=
  b.varset.length = b.varnum ∧
  ∀ i : Nat, i < b.varnum →
    islive b (b.varset.getD i (0, 0)).1 ∧
    (nodeAt b (b.varset.getD i (0, 0)).1).level = i ∧
    (nodeAt b (b.varset.getD i (0, 0)).1).low = 0 ∧
    (nodeAt b (b.varset.getD i (0, 0)).1).high = 1 ∧
    (nodeAt b (b.varset.getD i (0, 0)).1).refcou = _MAXREFCOUNT ∧
    islive b (b.varset.getD i (0, 0)).2 ∧
    (nodeAt b (b.varset.getD i (0, 0)).2).level = i ∧
    (nodeAt b (b.varset.getD i (0, 0)).2).low = 1 ∧
    (nodeAt b (b.varset.getD i (0, 0)).2).high = 0 ∧
    (nodeAt b (b.varset.getD i (0, 0)).2).refcou = _MAXREFCOUNT

instance (b : BDD) : Decidable (WFvars b) := by
  unfold WFvars
  infer_instance

/-- Concrete wellformed engine with one variable: the two constants, the two
pinned literals of variable 0 (chained in the unique index), one free slot,
and one stale entry in each operation cache.  Used by the closed witness
instantiations. -/
def bW : BDD :=
  { nodes := [⟨1023, 1, 0, 0, 0, 0⟩, ⟨1023, 1, 1, 1, 3, 0⟩,
      ⟨1023, 0, 0, 1, 2, 0⟩, ⟨1023, 0, 1, 0, 0, 0⟩, ⟨0, 0, -1, 0, 0, 0⟩]
    freepos := 4
    freenum := 1
    varnum := 1
    varset := [(2, 3)]
    refstack := []
    error := none
    minfreenodes := 20
    maxnodesize := 0
    maxnodeincrease := 500000
    cacheratio := 0
    quantset := [0]
    quantsetID := 0
    quantlast := 0
    applycache := [⟨7, 5, 5, 5⟩]
    itecache := [⟨7, 5, 5, 5⟩]
    quantcacheTbl := [⟨7, 5, 5, 5⟩]
    appexcache := [⟨7, 5, 5, 5⟩]
    replacecache := [⟨7, 5, 5, 5⟩] }

/-- getD after set at the written index. -/
theorem qs_getD_set_self {α : Type} (l : List α) (k : Nat) (v d : α)
    (h : k < l.length) : (l.set k v).getD k d = v := by
  induction l generalizing k with
  | nil => exact absurd h (Nat.not_lt_zero _)
  | cons a t ih =>
    cases k with
    | zero => rfl
    | succ m =>
      have hm : m < t.length := by simpa using h
      simpa [List.getD] using ih m hm

/-- getD after set at a different index. -/
theorem qs_getD_set_ne {α : Type} (l : List α) (k L : Nat) (v d : α)
    (h : k ≠ L) : (l.set k v).getD L d = l.getD L d := by
  induction l generalizing k L with
  | nil => rfl
  | cons a t ih =>
    cases k with
    | zero =>
      cases L with
      | zero => exact absurd rfl h
      | succ m => rfl
    | succ m =>
      cases L with
      | zero => rfl
      | succ p =>
        have hmp : m ≠ p := fun hc => h (by rw [hc])
        simpa [List.getD] using ih m p hmp

/-- An in-bounds getD value is a member of the list. -/
theorem qs_getD_mem {α : Type} (l : List α) (k : Nat) (d : α)
    (h : k < l.length) : l.getD k d ∈ l := by
  induction l generalizing k with
  | nil => exact absurd h (Nat.not_lt_zero _)
  | cons a t ih =>
    cases k with
    | zero => exact List.mem_cons_self a t
    | succ m =>
      have hm : m < t.length := by simpa using h
      simpa [List.getD] using List.mem_cons_of_mem a (ih m hm)

/-- Fields of a live internal node extracted from the state invariant, in
the direction of the high edge. -/
theorem live_high_fields (b : BDD) (hb : WF b) (i : Int) (hi : islive b i) :
    levelN b i < b.varnum ∧
    (highN b i ≤ 1 ∨ islive b (highN b i)) ∧
    levelN b i < levelN b (highN b i) ∧
    levelN b (highN b i) ≤ b.varnum := by
  obtain ⟨h2, hv1, hvM, e1, e2, e3, e4, f1, f2, f3, f4, hlevbound, hlive,
    hrc, hfree, hcanon, hchain, hmem, hfp, hrs⟩ := hb
  obtain ⟨hi2, hilen, hilow⟩ := hi
  have hik : ((i.toNat : Int)) = i := Int.toNat_of_nonneg (by omega)
  have hklen : i.toNat < b.nodes.length := by omega
  have hlk : islive b (i.toNat : Int) := by rw [hik]; exact ⟨hi2, hilen, hilow⟩
  obtain ⟨hlv, hvlo, hvhi, hclo, hchi, holo, hohi⟩ := hlive i.toNat hklen hlk
  rw [hik] at hlv hvhi hchi hohi
  obtain ⟨hh0, hhlen⟩ := hvhi
  have hhk : (((nodeAt b i).high.toNat : Int)) = (nodeAt b i).high :=
    Int.toNat_of_nonneg hh0
  have hhlev : (nodeAt b (nodeAt b i).high).level ≤ b.varnum := by
    have htl : (nodeAt b i).high.toNat < b.nodes.length := by omega
    have := hlevbound (nodeAt b i).high.toNat htl
    rwa [hhk] at this
  refine ⟨hlv, ?_, hohi, hhlev⟩
  show (nodeAt b i).high ≤ 1 ∨ islive b (nodeAt b i).high
  rcases hchi with h | h
  · exact Or.inl (by omega)
  · exact Or.inr h

/-- Every level collected on a high spine is at least the level of the
starting node. -/
theorem spineList_lower (b : BDD) (hb : WF b) :
    ∀ fuel (i : Int), (i ≤ 1 ∨ islive b i) →
      ∀ L ∈ spineList b fuel i, levelN b i ≤ L := by
  intro fuel
  induction fuel with
  | zero =>
    intro i hi L hL
    exact absurd hL (by simp [spineList])
  | succ f ih =>
    intro i hi L hL
    unfold spineList at hL
    by_cases h1 : 1 < i
    · rw [if_pos h1] at hL
      have hlive : islive b i := hi.resolve_left (by omega)
      obtain ⟨hlv, hhi, hlt, hbnd⟩ := live_high_fields b hb i hlive
      rcases List.mem_cons.mp hL with hL0 | hL'
      · omega
      · have := ih (highN b i) hhi L hL'
        omega
    · rw [if_neg h1] at hL
      exact absurd hL (List.not_mem_nil L)

/-- The epoch-stamping loop of quantset2cache: the resulting array holds the
epoch exactly at the spine levels (other entries untouched), and the
resulting quantlast is the greatest spine level. -/
theorem quantset_loop_spec (b : BDD) (hb : WF b) (qid : Int) :
    ∀ fuel (i : Int) (qs : List Int) (qlast : Nat),
      (i ≤ 1 ∨ islive b i) →
      qs.length = b.varnum →
      b.varnum - levelN b i < fuel →
      (quantset_loop b qid fuel i qs qlast).1.length = b.varnum ∧
      (∀ L : Nat, (quantset_loop b qid fuel i qs qlast).1.getD L 0 =
        if L ∈ spineList b fuel i then qid else qs.getD L 0) ∧
      (spineList b fuel i = [] →
        (quantset_loop b qid fuel i qs qlast).2 = qlast) ∧
      (∀ L ∈ spineList b fuel i,
        L ≤ (quantset_loop b qid fuel i qs qlast).2) ∧
      (spineList b fuel i ≠ [] →
        (quantset_loop b qid fuel i qs qlast).2 ∈ spineList b fuel i) := by
  intro fuel
  induction fuel with
  | zero =>
    intro i qs qlast hi hlen hfuel
    exact absurd hfuel (Nat.not_lt_zero _)
  | succ f ih =>
    intro i qs qlast hi hlen hfuel
    by_cases h1 : 1 < i
    · have hlive : islive b i := hi.resolve_left (by omega)
      obtain ⟨hlv, hhi, hlt, hbnd⟩ := live_high_fields b hb i hlive
      have hfuel' : b.varnum - levelN b (highN b i) < f := by omega
      have hlen' : (qs.set (levelN b i) qid).length = b.varnum := by
        rw [List.length_set]; exact hlen
      obtain ⟨ihlen, ihget, ihnil, ihbound, ihmem⟩ :=
        ih (highN b i) (qs.set (levelN b i) qid) (levelN b i) hhi hlen' hfuel'
      have hstep : quantset_loop b qid (f + 1) i qs qlast =
          quantset_loop b qid f (highN b i) (qs.set (levelN b i) qid)
            (levelN b i) := by
        show (if 1 < i then
            quantset_loop b qid f (highN b i) (qs.set (levelN b i) qid)
              (levelN b i)
          else (qs, qlast)) = _
        rw [if_pos h1]
      have hsp : spineList b (f + 1) i =
          levelN b i :: spineList b f (highN b i) := by
        show (if 1 < i then levelN b i :: spineList b f (highN b i)
          else []) = _
        rw [if_pos h1]
      rw [hstep, hsp]
      refine ⟨ihlen, ?_, ?_, ?_, ?_⟩
      · intro L
        rw [ihget L]
        by_cases hL' : L ∈ spineList b f (highN b i)
        · rw [if_pos hL', if_pos (List.mem_cons_of_mem _ hL')]
        · by_cases hLl : L = levelN b i
          · subst hLl
            rw [if_neg hL', if_pos (List.mem_cons_self _ _)]
            exact qs_getD_set_self qs (levelN b i) qid 0 (by omega)
          · rw [if_neg hL']
            rw [if_neg (fun hc => by
              rcases List.mem_cons.mp hc with h | h
              · exact hLl h
              · exact hL' h)]
            exact qs_getD_set_ne qs (levelN b i) L qid 0
              (fun hc => hLl hc.symm)
      · intro hcon
        exact absurd hcon (List.cons_ne_nil _ _)
      · intro L hL
        by_cases hsp' : spineList b f (highN b i) = []
        · rw [ihnil hsp']
          rcases List.mem_cons.mp hL with hL0 | hL'
          · omega
          · rw [hsp'] at hL'
            exact absurd hL' (List.not_mem_nil L)
        · rcases List.mem_cons.mp hL with hL0 | hL'
          · have hm := ihmem hsp'
            have := spineList_lower b hb f (highN b i) hhi _ hm
            omega
          · exact ihbound L hL'
      · intro hne
        by_cases hsp' : spineList b f (highN b i) = []
        · rw [ihnil hsp']
          exact List.mem_cons_self _ _
        · exact List.mem_cons_of_mem _ (ihmem hsp')
    · have hstep : quantset_loop b qid (f + 1) i qs qlast = (qs, qlast) := by
        show (if 1 < i then
            quantset_loop b qid f (highN b i) (qs.set (levelN b i) qid)
              (levelN b i)
          else (qs, qlast)) = _
        rw [if_neg h1]
      have hsp : spineList b (f + 1) i = [] := by
        show (if 1 < i then levelN b i :: spineList b f (highN b i)
          else []) = _
        rw [if_neg h1]
      rw [hstep, hsp]
      refine ⟨hlen, ?_, fun _ => rfl, ?_, fun hne => absurd rfl hne⟩
      · intro L
        rw [if_neg (List.not_mem_nil L)]
      · intro L hL
        exact absurd hL (List.not_mem_nil L)

/-- C9: after a successful quantset2cache call on a live varset node, a
level below varnum holds the current epoch in the quantification array
exactly when it lies on the high spine of the varset, quantlast is the
greatest spine level, the epoch counter is incremented, and when the
incremented counter reaches the 32-bit maximum the array is reinitialised
and the epoch restarts at 1. -/
theorem quantset2cache_spec (b : BDD) (n : Int) (hb : WF b)
    (hn : islive b n) (hlen : b.quantset.length = b.varnum)
    (hold : ∀ q ∈ b.quantset, q ≤ b.quantsetID)
    (hid0 : 0 ≤ b.quantsetID) (hidlt : b.quantsetID < maxInt32) :
    (quantset2cache b n).2 = none ∧
    (quantset2cache b n).1.quantsetID =
      (if b.quantsetID + 1 = maxInt32 then 1 else b.quantsetID + 1) ∧
    (∀ L : Nat, L < b.varnum →
      ((quantset2cache b n).1.quantset.getD L 0 =
          (quantset2cache b n).1.quantsetID ↔
        L ∈ spineList b (b.varnum + 1) n)) ∧
    (quantset2cache b n).1.quantlast ∈ spineList b (b.varnum + 1) n ∧
    (∀ L ∈ spineList b (b.varnum + 1) n,
      L ≤ (quantset2cache b n).1.quantlast) := by
  have h2n : ¬ n < 2 := by
    have := hn.1
    omega
  have hq : quantset2cache b n =
      ({ b with
          quantset := (quantset_loop b
            (if b.quantsetID + 1 = maxInt32 then 1 else b.quantsetID + 1)
            (b.varnum + 1) n
            (if b.quantsetID + 1 = maxInt32 then
              List.replicate b.varnum (0 : Int)
            else b.quantset) b.quantlast).1,
          quantsetID :=
            (if b.quantsetID + 1 = maxInt32 then 1 else b.quantsetID + 1),
          quantlast := (quantset_loop b
            (if b.quantsetID + 1 = maxInt32 then 1 else b.quantsetID + 1)
            (b.varnum + 1) n
            (if b.quantsetID + 1 = maxInt32 then
              List.replicate b.varnum (0 : Int)
            else b.quantset) b.quantlast).2 }, none) := by
    unfold quantset2cache
    rw [if_neg h2n]
  set qid := (if b.quantsetID + 1 = maxInt32 then (1 : Int)
    else b.quantsetID + 1) with hqd
  set qs0 := (if b.quantsetID + 1 = maxInt32 then
      List.replicate b.varnum (0 : Int)
    else b.quantset) with hq0
  have hli : qs0.length = b.varnum := by
    rw [hq0]
    by_cases hov : b.quantsetID + 1 = maxInt32
    · rw [if_pos hov, List.length_replicate]
    · rw [if_neg hov]; exact hlen
  have hltq : ∀ q ∈ qs0, q < qid := by
    rw [hq0, hqd]
    by_cases hov : b.quantsetID + 1 = maxInt32
    · rw [if_pos hov, if_pos hov]
      intro q hqmem
      have := List.eq_of_mem_replicate hqmem
      omega
    · rw [if_neg hov, if_neg hov]
      intro q hqmem
      have := hold q hqmem
      omega
  obtain ⟨wlen, wget, wnil, wbound, wmem⟩ :=
    quantset_loop_spec b hb qid (b.varnum + 1) n qs0 b.quantlast
      (Or.inr hn) hli (by omega)
  have h1n : 1 < n := by omega
  have hspne : spineList b (b.varnum + 1) n ≠ [] := by
    unfold spineList
    rw [if_pos h1n]
    exact List.cons_ne_nil _ _
  rw [hq]
  dsimp only
  refine ⟨rfl, rfl, ?_, wmem hspne, wbound⟩
  intro L hL
  rw [wget L]
  by_cases hmem : L ∈ spineList b (b.varnum + 1) n
  · rw [if_pos hmem]
    exact ⟨fun _ => hmem, fun _ => rfl⟩
  · rw [if_neg hmem]
    constructor
    · intro hcon
      have hmem0 : qs0.getD L 0 ∈ qs0 := qs_getD_mem qs0 L 0 (by omega)
      have := hltq _ hmem0
      omega
    · intro hcon
      exact absurd hcon hmem

/-- Closed instantiation of quantset2cache_spec at the concrete engine bW
and its live literal node 2. -/
theorem quantset2cache_spec_witness :
    (quantset2cache bW 2).2 = none ∧
    (quantset2cache bW 2).1.quantsetID =
      (if bW.quantsetID + 1 = maxInt32 then 1 else bW.quantsetID + 1) ∧
    (∀ L : Nat, L < bW.varnum →
      ((quantset2cache bW 2).1.quantset.getD L 0 =
          (quantset2cache bW 2).1.quantsetID ↔
        L ∈ spineList bW (bW.varnum + 1) 2)) ∧
    (quantset2cache bW 2).1.quantlast ∈ spineList bW (bW.varnum + 1) 2 ∧
    (∀ L ∈ spineList bW (bW.varnum + 1) 2,
      L ≤ (quantset2cache bW 2).1.quantlast) :=
  quantset2cache_spec bW 2 (by decide) (by decide) (by decide) (by decide)
    (by decide) (by decide)

/-- Fields of a live internal node extracted from the state invariant, for
both outgoing edges. -/
theorem live_node_fields (b : BDD) (hb : WF b) (i : Int) (hi : islive b i) :
    levelN b i < b.varnum ∧
    (lowN b i = 0 ∨ lowN b i = 1 ∨ islive b (lowN b i)) ∧
    levelN b i < levelN b (lowN b i) ∧ levelN b (lowN b i) ≤ b.varnum ∧
    (highN b i = 0 ∨ highN b i = 1 ∨ islive b (highN b i)) ∧
    levelN b i < levelN b (highN b i) ∧ levelN b (highN b i) ≤ b.varnum := by
  obtain ⟨h2, hv1, hvM, e1, e2, e3, e4, f1, f2, f3, f4, hlevbound, hlive,
    hrc, hfree, hcanon, hchain, hmem, hfp, hrs⟩ := hb
  obtain ⟨hi2, hilen, hilow⟩ := hi
  have hik : ((i.toNat : Int)) = i := Int.toNat_of_nonneg (by omega)
  have hklen : i.toNat < b.nodes.length := by omega
  have hlk : islive b (i.toNat : Int) := by rw [hik]; exact ⟨hi2, hilen, hilow⟩
  obtain ⟨hlv, hvlo, hvhi, hclo, hchi, holo, hohi⟩ := hlive i.toNat hklen hlk
  rw [hik] at hlv hvlo hvhi hclo hchi holo hohi
  obtain ⟨hl0, hllen⟩ := hvlo
  obtain ⟨hh0, hhlen⟩ := hvhi
  have hlkk : (((nodeAt b i).low.toNat : Int)) = (nodeAt b i).low :=
    Int.toNat_of_nonneg hl0
  have hhkk : (((nodeAt b i).high.toNat : Int)) = (nodeAt b i).high :=
    Int.toNat_of_nonneg hh0
  have hllev : (nodeAt b (nodeAt b i).low).level ≤ b.varnum := by
    have htl : (nodeAt b i).low.toNat < b.nodes.length := by omega
    have := hlevbound (nodeAt b i).low.toNat htl
    rwa [hlkk] at this
  have hhlev : (nodeAt b (nodeAt b i).high).level ≤ b.varnum := by
    have htl : (nodeAt b i).high.toNat < b.nodes.length := by omega
    have := hlevbound (nodeAt b i).high.toNat htl
    rwa [hhkk] at this
  refine ⟨hlv, ?_, holo, hllev, ?_, hohi, hhlev⟩
  · show (nodeAt b i).low = 0 ∨ (nodeAt b i).low = 1 ∨
      islive b (nodeAt b i).low
    rcases hclo with h | h
    · rcases Int.lt_iff_add_one_le.mp h with _
      omega
    · exact Or.inr (Or.inr h)
  · show (nodeAt b i).high = 0 ∨ (nodeAt b i).high = 1 ∨
      islive b (nodeAt b i).high
    rcases hchi with h | h
    · omega
    · exact Or.inr (Or.inr h)

/-- Levels of the constants in a wellformed state. -/
theorem const_levels (b : BDD) (hb : WF b) :
    levelN b 0 = b.varnum ∧ levelN b 1 = b.varnum ∧ 2 ≤ b.nodes.length ∧
    1 ≤ b.varnum := by
  obtain ⟨h2, hv1, hvM, e1, e2, e3, e4, f1, f2, f3, f4, hlevbound, hlive,
    hrc, hfree, hcanon, hchain, hmem, hfp, hrs⟩ := hb
  exact ⟨e1, f1, h2, hv1⟩

/-- One-step unfolding of the specification count recurrence. -/
theorem countSpec_succ (b : BDD) (f : Nat) (n : Int) :
    countSpec b (f + 1) n =
      if n = 0 then 0
      else if n = 1 then 1
      else 2 ^ (levelN b (lowN b n) - levelN b n - 1) *
          countSpec b f (lowN b n) +
        2 ^ (levelN b (highN b n) - levelN b n - 1) *
          countSpec b f (highN b n) := rfl

/-- One-step unfolding of the satcount recursion. -/
theorem satcount_rec_succ (b : BDD) (f : Nat) (n : Int)
    (satc : List (Int × Int)) :
    satcount_rec b (f + 1) n satc =
      if n < 2 then (n, satc)
      else
        match lookupMemo satc n with
        | some res => (res, satc)
        | none =>
          let rl := satcount_rec b f (lowN b n) satc
          let rh := satcount_rec b f (highN b n) rl.2
          let res := 2 ^ (levelN b (lowN b n) - levelN b n - 1) * rl.1 +
            2 ^ (levelN b (highN b n) - levelN b n - 1) * rh.1
          (res, (n, res) :: rh.2) := rfl

/-- The count recurrence is insensitive to the fuel bound once the fuel
exceeds the distance from the node level to varnum. -/
theorem countSpec_stable (b : BDD) (hb : WF b) :
    ∀ f1 f2 (n : Int), (n = 0 ∨ n = 1 ∨ islive b n) →
      b.varnum - levelN b n < f1 → b.varnum - levelN b n < f2 →
      countSpec b f1 n = countSpec b f2 n := by
  intro f1
  induction f1 with
  | zero =>
    intro f2 n hn h1 h2
    exact absurd h1 (Nat.not_lt_zero _)
  | succ g ih =>
    intro f2 n hn h1 h2
    match f2, h2 with
    | f2g + 1, h2 =>
    rcases hn with rfl | rfl | hlive
    · rw [countSpec_succ, countSpec_succ]
      rw [if_pos rfl, if_pos rfl]
    · rw [countSpec_succ, countSpec_succ]
      norm_num
    · have hn0 : ¬ (n = 0) := by have := hlive.1; omega
      have hn1 : ¬ (n = 1) := by have := hlive.1; omega
      obtain ⟨hlv, hclo, hllt, hlbnd, hchi, hhlt, hhbnd⟩ :=
        live_node_fields b hb n hlive
      rw [countSpec_succ, countSpec_succ, if_neg hn0, if_neg hn0,
        if_neg hn1, if_neg hn1]
      rw [ih g (lowN b n) hclo (by omega) (by omega),
        ih f2g (lowN b n) hclo (by omega) (by omega),
        ih g (highN b n) hchi (by omega) (by omega),
        ih f2g (highN b n) hchi (by omega) (by omega)]

/-- Soundness of the satcount memoization map: every entry holds the value
of the specification count. -/
def memoOK (b : BDD) (satc : List (Int × Int)) : Prop :=
  ∀ k v, lookupMemo satc k = some v → v = countSpec b (b.varnum + 1) k

/-- The satcount recursion computes the specification count and preserves
memo soundness. -/
theorem satcount_rec_spec (b : BDD) (hb : WF b) :
    ∀ fuel (n : Int) (satc : List (Int × Int)),
      (n = 0 ∨ n = 1 ∨ islive b n) →
      memoOK b satc →
      b.varnum - levelN b n < fuel →
      (satcount_rec b fuel n satc).1 = countSpec b (b.varnum + 1) n ∧
      memoOK b (satcount_rec b fuel n satc).2 := by
  intro fuel
  induction fuel with
  | zero =>
    intro n satc hn hm hf
    exact absurd hf (Nat.not_lt_zero _)
  | succ g ih =>
    intro n satc hn hm hf
    rcases hn with rfl | rfl | hlive
    · rw [satcount_rec_succ, if_pos (by norm_num)]
      refine ⟨?_, hm⟩
      rw [countSpec_succ, if_pos rfl]
    · rw [satcount_rec_succ, if_pos (by norm_num)]
      refine ⟨?_, hm⟩
      rw [countSpec_succ, if_neg (by norm_num), if_pos rfl]
    · have hn2 : ¬ (n < 2) := by have := hlive.1; omega
      have hn0 : ¬ (n = 0) := by omega
      have hn1 : ¬ (n = 1) := by omega
      obtain ⟨hlv, hclo, hllt, hlbnd, hchi, hhlt, hhbnd⟩ :=
        live_node_fields b hb n hlive
      rw [satcount_rec_succ, if_neg hn2]
      cases hmemo : lookupMemo satc n with
      | some res =>
        exact ⟨hm n res hmemo, hm⟩
      | none =>
        obtain ⟨ihl1, ihl2⟩ := ih (lowN b n) satc hclo hm (by omega)
        obtain ⟨ihh1, ihh2⟩ := ih (highN b n)
          (satcount_rec b g (lowN b n) satc).2 hchi ihl2 (by omega)
        dsimp only
        constructor
        · rw [countSpec_succ, if_neg hn0, if_neg hn1, ihl1, ihh1]
          rw [countSpec_stable b hb (b.varnum + 1) b.varnum (lowN b n)
              hclo (by omega) (by omega),
            countSpec_stable b hb (b.varnum + 1) b.varnum (highN b n)
              hchi (by omega) (by omega)]
        · intro k v hk
          by_cases hkn : k = n
          · subst hkn
            have hv : v = 2 ^ (levelN b (lowN b k) - levelN b k - 1) *
                (satcount_rec b g (lowN b k) satc).1 +
              2 ^ (levelN b (highN b k) - levelN b k - 1) *
                (satcount_rec b g (highN b k)
                  (satcount_rec b g (lowN b k) satc).2).1 := by
              have : lookupMemo ((k, 2 ^ (levelN b (lowN b k) - levelN b k
                    - 1) * (satcount_rec b g (lowN b k) satc).1 +
                  2 ^ (levelN b (highN b k) - levelN b k - 1) *
                    (satcount_rec b g (highN b k)
                      (satcount_rec b g (lowN b k) satc).2).1) ::
                  (satcount_rec b g (highN b k)
                    (satcount_rec b g (lowN b k) satc).2).2) k = some v :=
                hk
              unfold lookupMemo at this
              rw [if_pos rfl] at this
              exact (Option.some.inj this).symm
            rw [hv, countSpec_succ, if_neg hn0, if_neg hn1, ihl1, ihh1]
            rw [countSpec_stable b hb (b.varnum + 1) b.varnum (lowN b k)
                hclo (by omega) (by omega),
              countSpec_stable b hb (b.varnum + 1) b.varnum (highN b k)
                hchi (by omega) (by omega)]
          · apply ihh2 k v
            have : lookupMemo ((n, 2 ^ (levelN b (lowN b n) - levelN b n
                  - 1) * (satcount_rec b g (lowN b n) satc).1 +
                2 ^ (levelN b (highN b n) - levelN b n - 1) *
                  (satcount_rec b g (highN b n)
                    (satcount_rec b g (lowN b n) satc).2).1) ::
                (satcount_rec b g (highN b n)
                  (satcount_rec b g (lowN b n) satc).2).2) k = some v :=
              hk
            unfold lookupMemo at this
            rwa [if_neg (fun hc => hkn hc.symm)] at this

/-- C3: for every valid operand (a constant or a live node), Satcount equals
two to the root level times the specification count recurrence; in
particular Satcount of False is 0, Satcount of True is two to varnum, and
Satcount of each pinned positive literal is two to (varnum minus one). -/
theorem satcount_spec (b : BDD) (hb : WF b) (hv : WFvars b) (n : Int)
    (hn : n = 0 ∨ n = 1 ∨ islive b n) :
    Satcount b n =
      2 ^ levelN b n * countSpec b (b.varnum + 1) n ∧
    Satcount b 0 = 0 ∧
    Satcount b 1 = 2 ^ b.varnum ∧
    (∀ i : Nat, i < b.varnum →
      Satcount b ((b.varset.getD i (0, 0)).1) = 2 ^ (b.varnum - 1)) := by
  obtain ⟨hl0, hl1, hlen2, hv1⟩ := const_levels b hb
  have main : ∀ m : Int, (m = 0 ∨ m = 1 ∨ islive b m) →
      Satcount b m = 2 ^ levelN b m * countSpec b (b.varnum + 1) m := by
    intro m hm
    have hguard : ¬ (m < 0 ∨ (b.nodes.length : Int) ≤ m ∨
        (2 ≤ m ∧ lowN b m = -1)) := by
      rcases hm with rfl | rfl | hlive
      · push_neg
        refine ⟨by omega, by omega, ?_⟩
        intro h
        omega
      · push_neg
        refine ⟨by omega, by omega, ?_⟩
        intro h
        omega
      · obtain ⟨h2, hlenm, hlow⟩ := hlive
        push_neg
        refine ⟨by omega, by omega, fun _ => hlow⟩
      
    unfold Satcount
    rw [if_neg hguard]
    have hrec := satcount_rec_spec b hb (b.varnum + 1) m []
      hm (fun k v hk => by exact absurd hk (by unfold lookupMemo; simp))
      (by omega)
    rw [hrec.1]
  refine ⟨main n hn, ?_, ?_, ?_⟩
  · rw [main 0 (Or.inl rfl), countSpec_succ, if_pos rfl]
    ring
  · rw [main 1 (Or.inr (Or.inl rfl)), countSpec_succ,
      if_neg (by norm_num), if_pos rfl, hl1]
    ring
  · intro i hi
    obtain ⟨hvlen, hvall⟩ := hv
    obtain ⟨hlv, hlev, hlow, hhig, hrc, -⟩ := hvall i hi
    have hm := main ((b.varset.getD i (0, 0)).1) (Or.inr (Or.inr hlv))
    rw [hm, countSpec_succ]
    have hm0 : ¬ ((b.varset.getD i (0, 0)).1 = 0) := by
      have := hlv.1
      omega
    have hm1 : ¬ ((b.varset.getD i (0, 0)).1 = 1) := by
      have := hlv.1
      omega
    rw [if_neg hm0, if_neg hm1]
    have hlevm : levelN b ((b.varset.getD i (0, 0)).1) = i := hlev
    have hlowm : lowN b ((b.varset.getD i (0, 0)).1) = 0 := hlow
    have hhigm : highN b ((b.varset.getD i (0, 0)).1) = 1 := hhig
    rw [hlevm, hlowm, hhigm, hl0, hl1]
    obtain ⟨g, hg⟩ : ∃ g, b.varnum = g + 1 := ⟨b.varnum - 1, by omega⟩
    rw [hg, countSpec_succ, if_pos rfl, countSpec_succ,
      if_neg (by norm_num), if_pos rfl]
    have hexp : g + 1 - i - 1 = g - i := by omega
    rw [hexp]
    have hij : i + (g - i) = g := by omega
    have hstep : (2 : Int) ^ i * (2 ^ (g - i) * 0 + 2 ^ (g - i) * 1)
        = 2 ^ (i + (g - i)) := by
      rw [pow_add]
      ring
    rw [hstep, hij]
    norm_num
  -- end

/-- Closed instantiation of satcount_spec at the concrete engine bW and its
literal node 2. -/
theorem satcount_spec_witness :
    (Satcount bW 2 =
      2 ^ levelN bW 2 * countSpec bW (bW.varnum + 1) 2 ∧
    Satcount bW 0 = 0 ∧
    Satcount bW 1 = 2 ^ bW.varnum ∧
    (∀ i : Nat, i < bW.varnum →
      Satcount bW ((bW.varset.getD i (0, 0)).1) = 2 ^ (bW.varnum - 1))) :=
  satcount_spec bW (by decide) (by decide) 2 (Or.inr (Or.inr (by decide)))

/-- getD outside the list. -/
theorem qs_getD_out {α : Type} (l : List α) (k : Nat) (d : α)
    (h : l.length ≤ k) : l.getD k d = d := by
  induction l generalizing k with
  | nil => cases k <;> rfl
  | cons a t ih =>
    cases k with
    | zero => exact absurd h (by simp)
    | succ m =>
      have hm : t.length ≤ m := by simpa using h
      simpa [List.getD] using ih m hm

/-- The bit mask 0x200000 misses a level word below two to the 21st. -/
theorem mark_and_zero (l : Nat) (h : l < 2097152) : l &&& 2097152 = 0 := by
  have hl : l < 2 ^ 21 := by omega
  have h21 : (2097152 : Nat) = 2 ^ 21 := by norm_num
  rw [h21, Nat.and_two_pow, Nat.testBit_lt_two_pow hl]
  simp

/-- The bit 21 of the mask constant. -/
theorem mark_bit_cases (j : Nat) :
    Nat.testBit 2097152 j = decide (j = 21) := by
  have h : (2097152 : Nat) = 2 ^ 21 := by norm_num
  rw [h]
  rcases eq_or_ne (21 : Nat) j with rfl | hj
  · rw [Nat.testBit_two_pow_self]
    simp
  · rw [Nat.testBit_two_pow_of_ne hj]
    symm
    exact decide_eq_false fun hc => hj hc.symm

/-- Setting the mark bit on an unmarked level word adds 0x200000. -/
theorem mark_or_eq (l : Nat) (h : l < 2097152) :
    l ||| 2097152 = l + 2097152 := by
  have hl : l < 2 ^ 21 := by omega
  refine Nat.eq_of_testBit_eq fun j => ?_
  rw [Nat.testBit_lor]
  rw [show l + 2097152 = 2 ^ 21 + l by omega]
  rcases eq_or_ne j 21 with rfl | hj
  · rw [Nat.testBit_two_pow_add_eq, Nat.testBit_lt_two_pow hl,
      mark_bit_cases]
    simp
  · rw [mark_bit_cases]
    rcases Nat.lt_or_ge j 21 with hlt | hge
    · rw [Nat.testBit_two_pow_add_gt hlt]
      simp [hj]
    · have hj22 : 22 ≤ j := by omega
      have hbig : 2 ^ 21 + l < 2 ^ j := by
        calc 2 ^ 21 + l < 2 ^ 22 := by omega
          _ ≤ 2 ^ j := Nat.pow_le_pow_right (by omega) hj22
      rw [Nat.testBit_lt_two_pow hbig,
        Nat.testBit_lt_two_pow (show l < 2 ^ j by omega)]
      simp [hj]

/-- A marked level word is caught by the 0x200000 mask. -/
theorem mark_and_ne (l : Nat) (h : l < 2097152) :
    (l + 2097152) &&& 2097152 ≠ 0 := by
  have hl : l < 2 ^ 21 := by omega
  have h21 : (2097152 : Nat) = 2 ^ 21 := by norm_num
  rw [h21]
  rw [show l + 2 ^ 21 = 2 ^ 21 + l by omega]
  rw [Nat.and_two_pow, Nat.testBit_two_pow_add_eq,
    Nat.testBit_lt_two_pow hl]
  simp

/-- Unmasking a marked level word recovers the level. -/
theorem mark_unmask_marked (l : Nat) (h : l < 2097152) :
    (l + 2097152) &&& 2097151 = l := by
  have h1 : (2097151 : Nat) = 2 ^ 21 - 1 := by norm_num
  rw [h1, Nat.and_pow_two_sub_one_eq_mod]
  omega

/-- Unmasking an unmarked level word is the identity. -/
theorem mark_unmask_unmarked (l : Nat) (h : l < 2097152) :
    l &&& 2097151 = l := by
  have h1 : (2097151 : Nat) = 2 ^ 21 - 1 := by norm_num
  rw [h1, Nat.and_pow_two_sub_one_eq_mod]
  omega

theorem ismarked_congr {b c : BDD} {m n : Int}
    (h : (nodeAt b m).level = (nodeAt c n).level) :
    ismarked b m = ismarked c n := by
  unfold ismarked
  rw [h]

theorem ismarked_false_of_lt {b : BDD} {n : Int}
    (h : (nodeAt b n).level < 2097152) : ismarked b n = false := by
  unfold ismarked
  simp [mark_and_zero _ h]

theorem ismarked_true_of_add {b : BDD} {n : Int} (l : Nat)
    (h : l < 2097152) (hl : (nodeAt b n).level = l + 2097152) :
    ismarked b n = true := by
  unfold ismarked
  simp only [hl]
  simpa using mark_and_ne l h

/-- Edge reachability of gbc: follow low and high edges through live
internal nodes. -/
inductive Reaches (b : BDD) : Int → Int → Prop
  | refl (n : Int) : Reaches b n n
  | low {r n : Int} : islive b r → Reaches b (lowN b r) n → Reaches b r n
  | high {r n : Int} : islive b r → Reaches b (highN b r) n → Reaches b r n

/-- A node protected by gbc: reachable from an entry of the internal
reference stack or from a slot with positive reference count. -/
def RootReachable (b : BDD) (n : Int) : Prop :=
  (∃ r ∈ b.refstack, Reaches b r n) ∨
  (∃ k : Nat, k < b.nodes.length ∧ 0 < (nodeAt b (k : Int)).refcou ∧
    Reaches b (k : Int) n)

/-- Relation between the pre-gc state and a state mid-marking: only mark
bits may have been added to level words; all other node fields, the table
length and varnum are unchanged. -/
def MarksOnlyCore (b0 b : BDD) : Prop :=
  b.nodes.length = b0.nodes.length ∧
  b.varnum = b0.varnum ∧
  ∀ k : Nat, k < b0.nodes.length →
    ((nodeAt b (k : Int)).level = (nodeAt b0 (k : Int)).level ∨
      (nodeAt b (k : Int)).level = (nodeAt b0 (k : Int)).level + 2097152) ∧
    (nodeAt b (k : Int)).low = (nodeAt b0 (k : Int)).low ∧
    (nodeAt b (k : Int)).high = (nodeAt b0 (k : Int)).high ∧
    (nodeAt b (k : Int)).refcou = (nodeAt b0 (k : Int)).refcou

theorem nodeAt_out (b : BDD) (n : Int) (h : b.nodes.length ≤ n.toNat) :
    nodeAt b n = default := by
  unfold nodeAt
  exact qs_getD_out _ _ _ h

theorem nodeAt_natCast (b : BDD) (k : Nat) :
    nodeAt b (k : Int) = b.nodes.getD k default := rfl

theorem moc_refl (b : BDD) : MarksOnlyCore b b := by
  refine ⟨rfl, rfl, fun k hk => ⟨Or.inl rfl, rfl, rfl, rfl⟩⟩

theorem moc_node (h : MarksOnlyCore b0 b) (n : Int) :
    ((nodeAt b n).level = (nodeAt b0 n).level ∨
      (nodeAt b n).level = (nodeAt b0 n).level + 2097152) ∧
    (nodeAt b n).low = (nodeAt b0 n).low ∧
    (nodeAt b n).high = (nodeAt b0 n).high ∧
    (nodeAt b n).refcou = (nodeAt b0 n).refcou := by
  by_cases hk : n.toNat < b0.nodes.length
  · exact h.2.2 n.toNat hk
  · rw [nodeAt_out b n (by rw [h.1]; omega), nodeAt_out b0 n (by omega)]
    exact ⟨Or.inl rfl, rfl, rfl, rfl⟩

theorem moc_islive (h : MarksOnlyCore b0 b) (n : Int) :
    islive b n ↔ islive b0 n := by
  unfold islive
  rw [(moc_node h n).2.1, h.1]

theorem moc_reaches (h : MarksOnlyCore b0 b) {r n : Int}
    (hr : Reaches b r n) : Reaches b0 r n := by
  induction hr with
  | refl m => exact Reaches.refl m
  | @low r2 n2 hlive hrest ih =>
    refine Reaches.low ((moc_islive h r2).mp hlive) ?_
    have hl : lowN b r2 = lowN b0 r2 := (moc_node h r2).2.1
    rwa [hl] at ih
  | @high r2 n2 hlive hrest ih =>
    refine Reaches.high ((moc_islive h r2).mp hlive) ?_
    have hl : highN b r2 = highN b0 r2 := (moc_node h r2).2.2.1
    rwa [hl] at ih

theorem moc_reaches_rev (h : MarksOnlyCore b0 b) {r n : Int}
    (hr : Reaches b0 r n) : Reaches b r n := by
  induction hr with
  | refl m => exact Reaches.refl m
  | @low r2 n2 hlive hrest ih =>
    refine Reaches.low ((moc_islive h r2).mpr hlive) ?_
    have hl : lowN b r2 = lowN b0 r2 := (moc_node h r2).2.1
    rwa [← hl] at ih
  | @high r2 n2 hlive hrest ih =>
    refine Reaches.high ((moc_islive h r2).mpr hlive) ?_
    have hl : highN b r2 = highN b0 r2 := (moc_node h r2).2.2.1
    rwa [← hl] at ih

/-- In a wellformed state no node carries the mark bit. -/
theorem unmarked_of_WF (b : BDD) (hb : WF b) (n : Int) :
    ismarked b n = false := by
  by_cases hk : n.toNat < b.nodes.length
  · obtain ⟨h2, hv1, hvM, e1, e2, e3, e4, f1, f2, f3, f4, hlevbound, hlive,
      hrc, hfree, hcanon, hchain, hmem, hfp, hrs⟩ := hb
    have hlev : (nodeAt b n).level ≤ b.varnum := hlevbound n.toNat hk
    have hMAX : b.varnum ≤ 2097151 := hvM
    refine ismarked_false_of_lt ?_
    omega
  · refine ismarked_false_of_lt ?_
    rw [nodeAt_out b n (by omega)]
    show (0 : Nat) < 2097152
    norm_num

theorem reaches_live {b : BDD} {r m : Int} (h : Reaches b r m)
    (hm : islive b m) : islive b r ∨ r = m := by
  cases h with
  | refl => exact Or.inr rfl
  | low hl _ => exact Or.inl hl
  | high hl _ => exact Or.inl hl

theorem setNodeAt_length (b : BDD) (n : Int) (nd : BddNode) :
    (setNodeAt b n nd).nodes.length = b.nodes.length := by
  unfold setNodeAt
  simp

theorem nodeAt_setNodeAt_self (b : BDD) (n : Int) (nd : BddNode)
    (h : n.toNat < b.nodes.length) :
    nodeAt (setNodeAt b n nd) n = nd := by
  unfold setNodeAt nodeAt
  exact qs_getD_set_self _ _ _ _ h

theorem nodeAt_setNodeAt_ne (b : BDD) (n m : Int) (nd : BddNode)
    (h : n.toNat ≠ m.toNat) :
    nodeAt (setNodeAt b n nd) m = nodeAt b m := by
  unfold setNodeAt nodeAt
  exact qs_getD_set_ne _ _ _ _ _ h

theorem toNat_inj_pos {n m : Int} (hn : 0 < n) (h : m.toNat = n.toNat) :
    m = n := by omega

/-- One-step unfolding of the marking recursion. -/
theorem markrec_succ (b : BDD) (fuel : Nat) (n : Int) :
    markrec b (fuel + 1) n =
      if n < 2 ∨ ismarked b n = true ∨ (nodeAt b n).low = -1 then b
      else
        markrec (markrec (marknode b n) fuel (nodeAt (marknode b n) n).low)
          fuel
          (nodeAt (markrec (marknode b n) fuel
            (nodeAt (marknode b n) n).low) n).high := rfl

/-- The marking recursion: frame (only mark bits added), monotonicity of the
mark set, soundness (new marks lie on nodes reachable from the root),
marking of the root, and closure of the newly marked region. -/
theorem markrec_spec (b0 : BDD) (hb : WF b0) :
    ∀ fuel (b : BDD) (n : Int),
      MarksOnlyCore b0 b →
      (n < 2 ∨ islive b0 n) →
      MarksOnlyCore b0 (markrec b fuel n) ∧
      (∀ m : Int, ismarked b m = true →
        ismarked (markrec b fuel n) m = true) ∧
      (∀ m : Int, ismarked (markrec b fuel n) m = true →
        ismarked b m = true ∨ (islive b0 m ∧ Reaches b0 n m)) ∧
      (b0.varnum - levelN b0 n < fuel → islive b0 n →
        ismarked (markrec b fuel n) n = true) ∧
      (b0.varnum - levelN b0 n < fuel →
        ∀ m : Int, islive b0 m →
          ismarked (markrec b fuel n) m = true →
          ismarked b m = true ∨
          ((islive b0 (lowN b0 m) →
              ismarked (markrec b fuel n) (lowN b0 m) = true) ∧
            (islive b0 (highN b0 m) →
              ismarked (markrec b fuel n) (highN b0 m) = true))) := by
  intro fuel
  induction fuel with
  | zero =>
    intro b n hmoc hn
    exact ⟨hmoc, fun m hm => hm, fun m hm => Or.inl hm,
      fun hf => absurd hf (Nat.not_lt_zero _),
      fun hf => absurd hf (Nat.not_lt_zero _)⟩
  | succ fuel ih =>
    intro b n hmoc hn
    by_cases hG : n < 2 ∨ ismarked b n = true ∨ (nodeAt b n).low = -1
    · rw [markrec_succ, if_pos hG]
      refine ⟨hmoc, fun m hm => hm, fun m hm => Or.inl hm, ?_,
        fun _ m _ hm => Or.inl hm⟩
      intro hfuel hlivn
      obtain ⟨hn2, hnlen, hnlow0⟩ := hlivn
      rcases hG with h | h | h
      · omega
      · exact h
      · rw [(moc_node hmoc n).2.1] at h
        exact absurd h hnlow0
    · push_neg at hG
      obtain ⟨hn2, hnm, hlow⟩ := hG
      have hlivn : islive b0 n := hn.resolve_left (by omega)
      obtain ⟨hn2', hnlen, hnlow0⟩ := hlivn
      have hlivn : islive b0 n := ⟨hn2', hnlen, hnlow0⟩
      have hnToNat : n.toNat < b0.nodes.length := by omega
      have hnToNatb : n.toNat < b.nodes.length := by
        rw [hmoc.1]
        exact hnToNat
      have hlev0 : (nodeAt b0 n).level ≤ b0.varnum := by
        obtain ⟨h2, hv1, hvM, e1, e2, e3, e4, f1, f2, f3, f4, hlevbound,
          hlive, hrc, hfree, hcanon, hchain, hmem, hfp, hrs⟩ := hb
        exact hlevbound n.toNat hnToNat
      have hvM0 : b0.varnum ≤ 2097151 := by
        obtain ⟨h2, hv1, hvM, e1, e2, e3, e4, f1, f2, f3, f4, hlevbound,
          hlive, hrc, hfree, hcanon, hchain, hmem, hfp, hrs⟩ := hb
        exact hvM
      have hlevb : (nodeAt b n).level = (nodeAt b0 n).level := by
        rcases (moc_node hmoc n).1 with h | h
        · exact h
        · exfalso
          have : ismarked b n = true :=
            ismarked_true_of_add (nodeAt b0 n).level (by omega) h
          exact hnm this
      have hred : markrec b (fuel + 1) n =
          markrec (markrec (marknode b n) fuel
            (nodeAt (marknode b n) n).low) fuel
            (nodeAt (markrec (marknode b n) fuel
              (nodeAt (marknode b n) n).low) n).high := by
        rw [markrec_succ]
        rw [if_neg (by push_neg; exact ⟨hn2, hnm, hlow⟩)]
      set b1 := marknode b n with hb1def
      have hlen1 : b1.nodes.length = b.nodes.length := by
        rw [hb1def]
        unfold marknode
        exact setNodeAt_length _ _ _
      have hb1self : nodeAt b1 n =
          { nodeAt b n with level := (nodeAt b n).level ||| 2097152 } := by
        rw [hb1def]
        unfold marknode
        exact nodeAt_setNodeAt_self _ _ _ hnToNatb
      have hb1ne : ∀ m : Int, m.toNat ≠ n.toNat →
          nodeAt b1 m = nodeAt b m := by
        intro m hm
        rw [hb1def]
        unfold marknode
        exact nodeAt_setNodeAt_ne _ _ _ _ (fun hc => hm hc.symm)
      have hlev1 : (nodeAt b1 n).level = (nodeAt b0 n).level + 2097152 := by
        rw [hb1self]
        show (nodeAt b n).level ||| 2097152 = _
        rw [hlevb, mark_or_eq _ (by omega)]
      have hmoc1 : MarksOnlyCore b0 b1 := by
        refine ⟨by rw [hlen1, hmoc.1], by rw [hb1def]; exact hmoc.2.1, ?_⟩
        intro k hk
        by_cases hkn : (k : Int).toNat = n.toNat
        · have hkn' : (k : Int) = n := toNat_inj_pos (by omega) hkn
          rw [hkn']
          refine ⟨Or.inr hlev1, ?_, ?_, ?_⟩
          · rw [hb1self]
            show (nodeAt b n).low = _
            exact (moc_node hmoc n).2.1
          · rw [hb1self]
            show (nodeAt b n).high = _
            exact (moc_node hmoc n).2.2.1
          · rw [hb1self]
            show (nodeAt b n).refcou = _
            exact (moc_node hmoc n).2.2.2
        · rw [hb1ne _ hkn]
          exact hmoc.2.2 k hk
      have hmark1self : ismarked b1 n = true :=
        ismarked_true_of_add (nodeAt b0 n).level (by omega) hlev1
      have hmark1mono : ∀ m : Int, ismarked b m = true →
          ismarked b1 m = true := by
        intro m hm
        by_cases hmn : m.toNat = n.toNat
        · rw [toNat_inj_pos (by omega) hmn]
          exact hmark1self
        · rw [ismarked_congr (show (nodeAt b1 m).level = (nodeAt b m).level
            by rw [hb1ne _ hmn])]
          exact hm
      have hmark1sound : ∀ m : Int, ismarked b1 m = true →
          ismarked b m = true ∨ m = n := by
        intro m hm
        by_cases hmn : m.toNat = n.toNat
        · exact Or.inr (toNat_inj_pos (by omega) hmn)
        · rw [ismarked_congr (show (nodeAt b1 m).level = (nodeAt b m).level
            by rw [hb1ne _ hmn])] at hm
          exact Or.inl hm
      obtain ⟨hlvn, hclo, hllt, hlbnd, hchi, hhlt, hhbnd⟩ :=
        live_node_fields b0 hb n hlivn
      have hlow1 : (nodeAt b1 n).low = lowN b0 n := (moc_node hmoc1 n).2.1
      have hnlow : lowN b0 n < 2 ∨ islive b0 (lowN b0 n) := by
        rcases hclo with h | h | h
        · exact Or.inl (by omega)
        · exact Or.inl (by omega)
        · exact Or.inr h
      obtain ⟨moc2, mono2, sound2, root2, closed2⟩ :=
        ih b1 (nodeAt b1 n).low hmoc1 (by rw [hlow1]; exact hnlow)
      set b2 := markrec b1 fuel (nodeAt b1 n).low with hb2def
      have hhigh1 : (nodeAt b2 n).high = highN b0 n := (moc_node moc2 n).2.2.1
      have hnhigh : highN b0 n < 2 ∨ islive b0 (highN b0 n) := by
        rcases hchi with h | h | h
        · exact Or.inl (by omega)
        · exact Or.inl (by omega)
        · exact Or.inr h
      obtain ⟨moc3, mono3, sound3, root3, closed3⟩ :=
        ih b2 (nodeAt b2 n).high moc2 (by rw [hhigh1]; exact hnhigh)
      set b3 := markrec b2 fuel (nodeAt b2 n).high with hb3def
      rw [hred]
      refine ⟨moc3, ?_, ?_, ?_, ?_⟩
      · intro m hm
        exact mono3 m (mono2 m (hmark1mono m hm))
      · intro m hm
        rcases sound3 m hm with h2m | ⟨hlm, hrm⟩
        · rcases sound2 m h2m with h1m | ⟨hlm, hrm⟩
          · rcases hmark1sound m h1m with h | rfl
            · exact Or.inl h
            · exact Or.inr ⟨hlivn, Reaches.refl _⟩
          · rw [hlow1] at hrm
            exact Or.inr ⟨hlm, Reaches.low hlivn hrm⟩
        · rw [hhigh1] at hrm
          exact Or.inr ⟨hlm, Reaches.high hlivn hrm⟩
      · intro hfuel hlivn2
        exact mono3 n (mono2 n hmark1self)
      · intro hfuel m hlivm hm3
        have hfl : b0.varnum - levelN b0 (nodeAt b1 n).low < fuel := by
          rw [hlow1]
          omega
        have hfh : b0.varnum - levelN b0 (nodeAt b2 n).high < fuel := by
          rw [hhigh1]
          omega
        by_cases hmb : ismarked b m = true
        · exact Or.inl hmb
        · right
          by_cases hmb2 : ismarked b2 m = true
          · by_cases hmb1 : ismarked b1 m = true
            · rcases hmark1sound m hmb1 with h | rfl
              · exact absurd h hmb
              · constructor
                · intro hll
                  have hr := root2 (by rw [hlow1]; omega)
                    (by rw [hlow1]; exact hll)
                  rw [hlow1] at hr
                  exact mono3 _ hr
                · intro hhl
                  have hr := root3 hfh (by rw [hhigh1]; exact hhl)
                  rwa [hhigh1] at hr
            · rcases closed2 hfl m hlivm hmb2 with h | hcl
              · exact absurd h hmb1
              · exact ⟨fun hll => mono3 _ (hcl.1 hll),
                  fun hhl => mono3 _ (hcl.2 hhl)⟩
          · rcases closed3 hfh m hlivm hm3 with h | hcl
            · exact absurd h hmb2
            · exact hcl

theorem nodeAt_congr_toNat (a : BDD) {m k : Int} (h : m.toNat = k.toNat) :
    nodeAt a m = nodeAt a k := by
  unfold nodeAt
  rw [h]

/-- Zeroing the hash word of a slot leaves the level, low, high and refcou
fields of every slot unchanged. -/
theorem nodeAt_hashzero (a : BDD) (k m : Int) :
    (nodeAt (setNodeAt a k { nodeAt a k with hash := 0 }) m).level =
      (nodeAt a m).level ∧
    (nodeAt (setNodeAt a k { nodeAt a k with hash := 0 }) m).low =
      (nodeAt a m).low ∧
    (nodeAt (setNodeAt a k { nodeAt a k with hash := 0 }) m).high =
      (nodeAt a m).high ∧
    (nodeAt (setNodeAt a k { nodeAt a k with hash := 0 }) m).refcou =
      (nodeAt a m).refcou := by
  by_cases hmk : k.toNat = m.toNat
  · by_cases hk : k.toNat < a.nodes.length
    · have h1 : nodeAt (setNodeAt a k { nodeAt a k with hash := 0 }) m =
          { nodeAt a k with hash := 0 } := by
        unfold setNodeAt nodeAt
        rw [← hmk]
        exact qs_getD_set_self _ _ _ _ hk
      rw [h1, nodeAt_congr_toNat a hmk.symm]
      exact ⟨rfl, rfl, rfl, rfl⟩
    · have h1 : nodeAt (setNodeAt a k { nodeAt a k with hash := 0 }) m =
          default := by
        unfold setNodeAt nodeAt
        refine qs_getD_out _ _ _ ?_
        rw [List.length_set]
        omega
      have h2 : nodeAt a m = default := nodeAt_out a m (by omega)
      rw [h1, h2]
      exact ⟨rfl, rfl, rfl, rfl⟩
  · rw [nodeAt_setNodeAt_ne a k m _ hmk]
    exact ⟨rfl, rfl, rfl, rfl⟩

/-- Invariant carried through the two marking loops of gbc: only mark bits
added, every mark lies on a live root-reachable node, and the marked region
is closed under the low and high edges. -/
def MarkInv (b0 acc : BDD) : Prop :=
  MarksOnlyCore b0 acc ∧
  (∀ m : Int, ismarked acc m = true → islive b0 m ∧ RootReachable b0 m) ∧
  (∀ m : Int, islive b0 m → ismarked acc m = true →
    (islive b0 (lowN b0 m) → ismarked acc (lowN b0 m) = true) ∧
    (islive b0 (highN b0 m) → ismarked acc (highN b0 m) = true))

/-- The reference-stack marking loop of gbc preserves the marking invariant,
preserves existing marks, and marks every live stack entry. -/
theorem markstack_fold (b0 : BDD) (hb : WF b0) :
    ∀ (l : List Int) (acc : BDD),
      (∀ r ∈ l, r ∈ b0.refstack) →
      MarkInv b0 acc →
      MarkInv b0 (l.foldl (fun a r => markrec a (a.varnum + 1) r) acc) ∧
      (∀ m : Int, ismarked acc m = true →
        ismarked (l.foldl (fun a r => markrec a (a.varnum + 1) r) acc) m =
          true) ∧
      (∀ r ∈ l, islive b0 r →
        ismarked (l.foldl (fun a r => markrec a (a.varnum + 1) r) acc) r =
          true) := by
  intro l
  induction l with
  | nil =>
    intro acc hmem hinv
    refine ⟨hinv, fun m hm => hm, ?_⟩
    intro r hr
    exact absurd hr (List.not_mem_nil r)
  | cons r rest ihl =>
    intro acc hmem hinv
    obtain ⟨hmoc, hsound, hclosed⟩ := hinv
    have hrole : r < 2 ∨ islive b0 r := by
      obtain ⟨h2, hv1, hvM, e1, e2, e3, e4, f1, f2, f3, f4, hlevbound,
        hlive, hrc, hfree, hcanon, hchain, hmemc, hfp, hrs⟩ := hb
      exact (hrs r (hmem r (List.mem_cons_self r rest))).2
    obtain ⟨moc1, mono1, sound1, root1, closed1⟩ :=
      markrec_spec b0 hb (acc.varnum + 1) acc r hmoc hrole
    have hfuel : b0.varnum - levelN b0 r < acc.varnum + 1 := by
      rw [hmoc.2.1]
      omega
    have hinv1 : MarkInv b0 (markrec acc (acc.varnum + 1) r) := by
      refine ⟨moc1, ?_, ?_⟩
      · intro m hm
        rcases sound1 m hm with h | ⟨hl, hr2⟩
        · exact hsound m h
        · exact ⟨hl, Or.inl ⟨r, hmem r (List.mem_cons_self r rest), hr2⟩⟩
      · intro m hlm hm
        rcases closed1 hfuel m hlm hm with h | hcl
        · obtain ⟨c1, c2⟩ := hclosed m hlm h
          exact ⟨fun hll => mono1 _ (c1 hll), fun hhl => mono1 _ (c2 hhl)⟩
        · exact hcl
    have hrest := ihl (markrec acc (acc.varnum + 1) r)
      (fun x hx => hmem x (List.mem_cons_of_mem r hx)) hinv1
    rw [List.foldl_cons]
    refine ⟨hrest.1, ?_, ?_⟩
    · intro m hm
      exact hrest.2.1 m (mono1 m hm)
    · intro x hx hlx
      rcases List.mem_cons.mp hx with rfl | hx'
      · exact hrest.2.1 x (root1 hfuel hlx)
      · exact hrest.2.2 x hx' hlx

/-- The refcount marking and hash-clearing loop of gbc preserves the marking
invariant, preserves existing marks, and marks every live slot with a
positive reference count. -/
theorem markref_fold (b0 : BDD) (hb : WF b0) :
    ∀ (l : List Nat) (acc : BDD),
      (∀ k ∈ l, k < b0.nodes.length) →
      MarkInv b0 acc →
      MarkInv b0 (l.foldl
        (fun (acc : BDD) (k : Nat) =>
          let acc1 := if (nodeAt acc (k : Int)).refcou > 0 then
              markrec acc (acc.varnum + 1) (k : Int)
            else acc
          setNodeAt acc1 (k : Int)
            { nodeAt acc1 (k : Int) with hash := 0 }) acc) ∧
      (∀ m : Int, ismarked acc m = true →
        ismarked (l.foldl
          (fun (acc : BDD) (k : Nat) =>
            let acc1 := if (nodeAt acc (k : Int)).refcou > 0 then
                markrec acc (acc.varnum + 1) (k : Int)
              else acc
            setNodeAt acc1 (k : Int)
              { nodeAt acc1 (k : Int) with hash := 0 }) acc) m = true) ∧
      (∀ k ∈ l, 0 < (nodeAt b0 (k : Int)).refcou → islive b0 (k : Int) →
        ismarked (l.foldl
          (fun (acc : BDD) (k : Nat) =>
            let acc1 := if (nodeAt acc (k : Int)).refcou > 0 then
                markrec acc (acc.varnum + 1) (k : Int)
              else acc
            setNodeAt acc1 (k : Int)
              { nodeAt acc1 (k : Int) with hash := 0 }) acc)
          (k : Int) = true) := by
  intro l
  induction l with
  | nil =>
    intro acc hmem hinv
    refine ⟨hinv, fun m hm => hm, ?_⟩
    intro k hk
    exact absurd hk (List.not_mem_nil k)
  | cons k rest ihl =>
    intro acc hmem hinv
    obtain ⟨hmoc, hsound, hclosed⟩ := hinv
    have hklen : k < b0.nodes.length := hmem k (List.mem_cons_self k rest)
    have hrefeqk : (nodeAt acc (k : Int)).refcou =
        (nodeAt b0 (k : Int)).refcou := (moc_node hmoc (k : Int)).2.2.2
    -- the marking part of the step
    have hstep1 : MarkInv b0 (if (nodeAt acc (k : Int)).refcou > 0 then
          markrec acc (acc.varnum + 1) (k : Int)
        else acc) ∧
        (∀ m : Int, ismarked acc m = true →
          ismarked (if (nodeAt acc (k : Int)).refcou > 0 then
            markrec acc (acc.varnum + 1) (k : Int)
          else acc) m = true) ∧
        (0 < (nodeAt b0 (k : Int)).refcou → islive b0 (k : Int) →
          ismarked (if (nodeAt acc (k : Int)).refcou > 0 then
            markrec acc (acc.varnum + 1) (k : Int)
          else acc) (k : Int) = true) := by
      by_cases hpos : (nodeAt acc (k : Int)).refcou > 0
      · rw [if_pos hpos]
        have hrole : (k : Int) < 2 ∨ islive b0 (k : Int) := by
          by_cases hk2 : k < 2
          · exact Or.inl (by omega)
          · right
            refine ⟨by omega, by omega, ?_⟩
            intro hkfree
            obtain ⟨h2, hv1, hvM, e1, e2, e3, e4, f1, f2, f3, f4, hlevbound,
              hlive, hrc, hfree, hcanon, hchain, hmemc, hfp, hrs⟩ := hb
            have h0 := hfree k hklen (by omega) hkfree
            rw [hrefeqk, h0] at hpos
            omega
        obtain ⟨moc1, mono1, sound1, root1, closed1⟩ :=
          markrec_spec b0 hb (acc.varnum + 1) acc (k : Int) hmoc hrole
        have hfuel : b0.varnum - levelN b0 (k : Int) < acc.varnum + 1 := by
          rw [hmoc.2.1]
          omega
        refine ⟨⟨moc1, ?_, ?_⟩, mono1, ?_⟩
        · intro m hm
          rcases sound1 m hm with h | ⟨hl, hr2⟩
          · exact hsound m h
          · refine ⟨hl, Or.inr ⟨k, hklen, ?_, hr2⟩⟩
            rw [← hrefeqk]
            exact hpos
        · intro m hlm hm
          rcases closed1 hfuel m hlm hm with h | hcl
          · obtain ⟨c1, c2⟩ := hclosed m hlm h
            exact ⟨fun hll => mono1 _ (c1 hll), fun hhl => mono1 _ (c2 hhl)⟩
          · exact hcl
        · intro href hlk
          exact root1 hfuel hlk
      · rw [if_neg hpos]
        refine ⟨⟨hmoc, hsound, hclosed⟩, fun m hm => hm, ?_⟩
        intro href hlk
        exfalso
        rw [← hrefeqk] at href
        omega
    obtain ⟨hinv1, hmono1, hroot1⟩ := hstep1
    -- the hash-zeroing part of the step
    obtain ⟨hinv1moc, hinv1sound, hinv1closed⟩ := hinv1
    have hzlev : ∀ m : Int,
        ismarked (setNodeAt (if (nodeAt acc (k : Int)).refcou > 0 then
            markrec acc (acc.varnum + 1) (k : Int)
          else acc) (k : Int)
          { nodeAt (if (nodeAt acc (k : Int)).refcou > 0 then
              markrec acc (acc.varnum + 1) (k : Int)
            else acc) (k : Int) with hash := 0 }) m =
        ismarked (if (nodeAt acc (k : Int)).refcou > 0 then
            markrec acc (acc.varnum + 1) (k : Int)
          else acc) m := by
      intro m
      exact ismarked_congr (nodeAt_hashzero _ (k : Int) m).1
    have hinv2 : MarkInv b0 (setNodeAt (if (nodeAt acc (k : Int)).refcou > 0
          then markrec acc (acc.varnum + 1) (k : Int)
        else acc) (k : Int)
        { nodeAt (if (nodeAt acc (k : Int)).refcou > 0 then
            markrec acc (acc.varnum + 1) (k : Int)
          else acc) (k : Int) with hash := 0 }) := by
      refine ⟨⟨?_, ?_, ?_⟩, ?_, ?_⟩
      · rw [setNodeAt_length]
        exact hinv1moc.1
      · exact hinv1moc.2.1
      · intro j hj
        obtain ⟨z1, z2, z3, z4⟩ := nodeAt_hashzero
          (if (nodeAt acc (k : Int)).refcou > 0 then
            markrec acc (acc.varnum + 1) (k : Int)
          else acc) (k : Int) (j : Int)
        obtain ⟨w1, w2, w3, w4⟩ := hinv1moc.2.2 j hj
        rw [z1, z2, z3, z4]
        exact ⟨w1, w2, w3, w4⟩
      · intro m hm
        rw [hzlev m] at hm
        exact hinv1sound m hm
      · intro m hlm hm
        rw [hzlev m] at hm
        obtain ⟨c1, c2⟩ := hinv1closed m hlm hm
        exact ⟨fun hll => by rw [hzlev]; exact c1 hll,
          fun hhl => by rw [hzlev]; exact c2 hhl⟩
    have hrest := ihl _
      (fun x hx => hmem x (List.mem_cons_of_mem k hx)) hinv2
    rw [List.foldl_cons]
    refine ⟨hrest.1, ?_, ?_⟩
    · intro m hm
      refine hrest.2.1 m ?_
      rw [hzlev m]
      exact hmono1 m hm
    · intro x hx href hlx
      rcases List.mem_cons.mp hx with rfl | hx'
      · refine hrest.2.1 (x : Int) ?_
        rw [hzlev (x : Int)]
        exact hroot1 href hlx
      · exact hrest.2.2 x hx' href hlx

/-- Along a closed marked region, reachability propagates marks. -/
theorem closed_reach (b0 bS : BDD)
    (hclosed : ∀ m : Int, islive b0 m → ismarked bS m = true →
      (islive b0 (lowN b0 m) → ismarked bS (lowN b0 m) = true) ∧
      (islive b0 (highN b0 m) → ismarked bS (highN b0 m) = true)) :
    ∀ {r m : Int}, Reaches b0 r m → islive b0 r → ismarked bS r = true →
      islive b0 m → ismarked bS m = true := by
  intro r m h
  induction h with
  | refl p =>
    intro _ hm _
    exact hm
  | @low r2 n2 hlive hrest ih =>
    intro hlr hmr hlm
    rcases reaches_live hrest hlm with h | heq
    · exact ih h ((hclosed r2 hlr hmr).1 h) hlm
    · have := (hclosed r2 hlr hmr).1 (heq ▸ hlm)
      rwa [heq] at this
  | @high r2 n2 hlive hrest ih =>
    intro hlr hmr hlm
    rcases reaches_live hrest hlm with h | heq
    · exact ih h ((hclosed r2 hlr hmr).2 h) hlm
    · have := (hclosed r2 hlr hmr).2 (heq ▸ hlm)
      rwa [heq] at this

/-- After the two marking loops of gbc, the marked nodes are exactly the
live nodes protected by a root, and only mark bits were added. -/
theorem marking_char (b0 : BDD) (hb : WF b0) :
    MarksOnlyCore b0 (gbc_markref (gbc_markstack b0)) ∧
    ∀ m : Int,
      ismarked (gbc_markref (gbc_markstack b0)) m = true ↔
      (islive b0 m ∧ RootReachable b0 m) := by
  have hinv0 : MarkInv b0 b0 := by
    refine ⟨moc_refl b0, ?_, ?_⟩
    · intro m hm
      rw [unmarked_of_WF b0 hb m] at hm
      cases hm
    · intro m _ hm
      rw [unmarked_of_WF b0 hb m] at hm
      cases hm
  have hstack := markstack_fold b0 hb b0.refstack b0 (fun r hr => hr) hinv0
  have hmreq : gbc_markstack b0 = b0.refstack.foldl
      (fun a r => markrec a (a.varnum + 1) r) b0 := rfl
  rw [← hmreq] at hstack
  have hlenstack : (gbc_markstack b0).nodes.length = b0.nodes.length :=
    hstack.1.1.1
  have href := markref_fold b0 hb
    (List.range (gbc_markstack b0).nodes.length) (gbc_markstack b0)
    (fun x hx => by
      rw [← hlenstack]
      exact List.mem_range.mp hx) hstack.1
  have hrefeq : gbc_markref (gbc_markstack b0) =
      (List.range (gbc_markstack b0).nodes.length).foldl
        (fun (acc : BDD) (k : Nat) =>
          let acc1 := if (nodeAt acc (k : Int)).refcou > 0 then
              markrec acc (acc.varnum + 1) (k : Int)
            else acc
          setNodeAt acc1 (k : Int)
            { nodeAt acc1 (k : Int) with hash := 0 })
        (gbc_markstack b0) := rfl
  rw [← hrefeq] at href
  refine ⟨href.1.1, ?_⟩
  intro m
  constructor
  · intro hm
    exact href.1.2.1 m hm
  · rintro ⟨hlm, hroot⟩
    rcases hroot with ⟨r, hrmem, hreach⟩ | ⟨k, hklen, hkref, hreach⟩
    · have hlr : islive b0 r := by
        rcases reaches_live hreach hlm with h | rfl
        · exact h
        · exact hlm
      have hmr : ismarked (gbc_markref (gbc_markstack b0)) r := by
        rw [hrefeq]
        rw [← hrefeq]
        exact href.2.1 r (hstack.2.2 r hrmem hlr)
      have := closed_reach b0 (gbc_markref (gbc_markstack b0))
        (by rw [hrefeq]; exact href.1.2.2) hreach hlr hmr hlm
      exact this
    · have hlr : islive b0 (k : Int) := by
        rcases reaches_live hreach hlm with h | heq
        · exact h
        · rw [heq]
          exact hlm
      have hmr : ismarked (gbc_markref (gbc_markstack b0)) (k : Int) := by
        rw [hrefeq]
        refine href.2.2 k ?_ hkref hlr
        rw [List.mem_range, hlenstack]
        exact hklen
      exact closed_reach b0 (gbc_markref (gbc_markstack b0))
        (by rw [hrefeq]; exact href.1.2.2) hreach hlr hmr hlm

/-- Walk of the free list: follow next pointers from the head until the 0
terminator. -/
def freeChain (c : BDD) : Nat → Int → List Int
  | 0, _ => []
  | fuel + 1, p => if p = 0 then [] else p :: freeChain c fuel (nodeAt c p).next

theorem freeChain_succ (c : BDD) (fuel : Nat) (p : Int) :
    freeChain c (fuel + 1) p =
      if p = 0 then [] else p :: freeChain c fuel (nodeAt c p).next := rfl

/-- The free list of c starting at p is exactly L, for every adequate
fuel. -/
def chainIs (c : BDD) (p : Int) (L : List Int) : Prop :=
  ∀ fuel : Nat, L.length < fuel → freeChain c fuel p = L

/-- The slots voided by the sweep among indices of [lo, len), in ascending
order. -/
def freedFrom (b3 : BDD) (len lo : Nat) : List Int :=
  (List.range' lo (len - lo)).filterMap fun (k : Nat) =>
    if ismarked b3 (k : Int) = true ∧ (nodeAt b3 (k : Int)).low ≠ -1 then
      none
    else some (k : Int)

theorem freedFrom_nil (b3 : BDD) (len : Nat) : freedFrom b3 len len = [] := by
  unfold freedFrom
  rw [Nat.sub_self]
  rfl

theorem freedFrom_mem (b3 : BDD) (len lo : Nat) (x : Int) :
    x ∈ freedFrom b3 len lo ↔
    (∃ k : Nat, lo ≤ k ∧ k < len ∧ x = (k : Int) ∧
      ¬(ismarked b3 (k : Int) = true ∧ (nodeAt b3 (k : Int)).low ≠ -1)) := by
  unfold freedFrom
  rw [List.mem_filterMap]
  constructor
  · rintro ⟨a, ha, hfa⟩
    have hmem := List.mem_range'_1.mp ha
    by_cases hc : ismarked b3 (a : Int) = true ∧
        (nodeAt b3 (a : Int)).low ≠ -1
    · rw [if_pos hc] at hfa
      cases hfa
    · rw [if_neg hc] at hfa
      exact ⟨a, hmem.1, by omega, (Option.some.inj hfa).symm, hc⟩
  · rintro ⟨k, h1, h2, rfl, hc⟩
    refine ⟨k, ?_, by rw [if_neg hc]⟩
    exact List.mem_range'_1.mpr ⟨h1, by omega⟩

theorem freedFrom_lower (b3 : BDD) (len lo : Nat) (x : Int)
    (h : x ∈ freedFrom b3 len lo) : (lo : Int) ≤ x ∧ x < (len : Int) := by
  obtain ⟨k, h1, h2, rfl, -⟩ := (freedFrom_mem b3 len lo x).mp h
  omega

theorem freedFrom_step (b3 : BDD) (len lo : Nat) (hlo : lo < len) :
    freedFrom b3 len lo =
      if ismarked b3 (lo : Int) = true ∧ (nodeAt b3 (lo : Int)).low ≠ -1
      then freedFrom b3 len (lo + 1)
      else (lo : Int) :: freedFrom b3 len (lo + 1) := by
  unfold freedFrom
  have hr : List.range' lo (len - lo) =
      lo :: List.range' (lo + 1) (len - (lo + 1)) := by
    have h1 : len - lo = (len - (lo + 1)) + 1 := by omega
    rw [h1, List.range'_succ]
  rw [hr, List.filterMap_cons]
  by_cases hc : ismarked b3 (lo : Int) = true ∧
      (nodeAt b3 (lo : Int)).low ≠ -1
  · rw [if_pos hc, if_pos hc]
  · rw [if_neg hc, if_neg hc]

/-- The free-list walk only depends on the next fields of its members. -/
theorem freeChain_congr (c c' : BDD) :
    ∀ (fuel : Nat) (p : Int),
      (∀ q ∈ freeChain c fuel p, (nodeAt c' q).next = (nodeAt c q).next) →
      freeChain c' fuel p = freeChain c fuel p := by
  intro fuel
  induction fuel with
  | zero =>
    intro p h
    rfl
  | succ f ih =>
    intro p h
    by_cases hp : p = 0
    · rw [freeChain_succ, freeChain_succ, if_pos hp, if_pos hp]
    · rw [freeChain_succ, freeChain_succ, if_neg hp, if_neg hp]
      have hmemp : p ∈ freeChain c (f + 1) p := by
        rw [freeChain_succ, if_neg hp]
        exact List.mem_cons_self _ _
      rw [h p hmemp]
      congr 1
      apply ih
      intro q hq
      apply h
      rw [freeChain_succ, if_neg hp]
      exact List.mem_cons_of_mem _ hq

/-- A table write whose new node keeps the level, low, high and refcou
fields changes none of these fields anywhere. -/
theorem nodeAt_set_fields (a : BDD) (k : Int) (nd : BddNode) (m : Int)
    (hlev : nd.level = (nodeAt a k).level)
    (hlow : nd.low = (nodeAt a k).low)
    (hhigh : nd.high = (nodeAt a k).high)
    (href : nd.refcou = (nodeAt a k).refcou) :
    (nodeAt (setNodeAt a k nd) m).level = (nodeAt a m).level ∧
    (nodeAt (setNodeAt a k nd) m).low = (nodeAt a m).low ∧
    (nodeAt (setNodeAt a k nd) m).high = (nodeAt a m).high ∧
    (nodeAt (setNodeAt a k nd) m).refcou = (nodeAt a m).refcou := by
  by_cases hmk : k.toNat = m.toNat
  · by_cases hk : k.toNat < a.nodes.length
    · have h1 : nodeAt (setNodeAt a k nd) m = nd := by
        unfold setNodeAt nodeAt
        rw [← hmk]
        exact qs_getD_set_self _ _ _ _ hk
      rw [h1, nodeAt_congr_toNat a hmk.symm]
      exact ⟨hlev, hlow, hhigh, href⟩
    · have h1 : nodeAt (setNodeAt a k nd) m = default := by
        unfold setNodeAt nodeAt
        refine qs_getD_out _ _ _ ?_
        rw [List.length_set]
        omega
      have h2 : nodeAt a m = default := nodeAt_out a m (by omega)
      rw [h1, h2]
      exact ⟨rfl, rfl, rfl, rfl⟩
  · rw [nodeAt_setNodeAt_ne a k m _ hmk]
    exact ⟨rfl, rfl, rfl, rfl⟩

/-- A table write whose new node keeps the next field changes no next field
anywhere. -/
theorem nodeAt_set_next_pres (a : BDD) (k : Int) (nd : BddNode) (m : Int)
    (hnext : nd.next = (nodeAt a k).next) :
    (nodeAt (setNodeAt a k nd) m).next = (nodeAt a m).next := by
  by_cases hmk : k.toNat = m.toNat
  · by_cases hk : k.toNat < a.nodes.length
    · have h1 : nodeAt (setNodeAt a k nd) m = nd := by
        unfold setNodeAt nodeAt
        rw [← hmk]
        exact qs_getD_set_self _ _ _ _ hk
      rw [h1, nodeAt_congr_toNat a hmk.symm]
      exact hnext
    · have h1 : nodeAt (setNodeAt a k nd) m = default := by
        unfold setNodeAt nodeAt
        refine qs_getD_out _ _ _ ?_
        rw [List.length_set]
        omega
      have h2 : nodeAt a m = default := nodeAt_out a m (by omega)
      rw [h1, h2]
  · rw [nodeAt_setNodeAt_ne a k m _ hmk]

theorem setnext_level (a : BDD) (k v m : Int) :
    (nodeAt (setNodeAt a k { nodeAt a k with next := v }) m).level =
      (nodeAt a m).level :=
  (nodeAt_set_fields a k { nodeAt a k with next := v } m rfl rfl rfl rfl).1

theorem setnext_low (a : BDD) (k v m : Int) :
    (nodeAt (setNodeAt a k { nodeAt a k with next := v }) m).low =
      (nodeAt a m).low :=
  (nodeAt_set_fields a k { nodeAt a k with next := v } m
    rfl rfl rfl rfl).2.1

theorem setnext_high (a : BDD) (k v m : Int) :
    (nodeAt (setNodeAt a k { nodeAt a k with next := v }) m).high =
      (nodeAt a m).high :=
  (nodeAt_set_fields a k { nodeAt a k with next := v } m
    rfl rfl rfl rfl).2.2.1

theorem setnext_refcou (a : BDD) (k v m : Int) :
    (nodeAt (setNodeAt a k { nodeAt a k with next := v }) m).refcou =
      (nodeAt a m).refcou :=
  (nodeAt_set_fields a k { nodeAt a k with next := v } m
    rfl rfl rfl rfl).2.2.2

theorem sethash_level (a : BDD) (k v m : Int) :
    (nodeAt (setNodeAt a k { nodeAt a k with hash := v }) m).level =
      (nodeAt a m).level :=
  (nodeAt_set_fields a k { nodeAt a k with hash := v } m rfl rfl rfl rfl).1

theorem sethash_low (a : BDD) (k v m : Int) :
    (nodeAt (setNodeAt a k { nodeAt a k with hash := v }) m).low =
      (nodeAt a m).low :=
  (nodeAt_set_fields a k { nodeAt a k with hash := v } m
    rfl rfl rfl rfl).2.1

theorem sethash_high (a : BDD) (k v m : Int) :
    (nodeAt (setNodeAt a k { nodeAt a k with hash := v }) m).high =
      (nodeAt a m).high :=
  (nodeAt_set_fields a k { nodeAt a k with hash := v } m
    rfl rfl rfl rfl).2.2.1

theorem sethash_refcou (a : BDD) (k v m : Int) :
    (nodeAt (setNodeAt a k { nodeAt a k with hash := v }) m).refcou =
      (nodeAt a m).refcou :=
  (nodeAt_set_fields a k { nodeAt a k with hash := v } m
    rfl rfl rfl rfl).2.2.2

theorem sethash_next (a : BDD) (k v m : Int) :
    (nodeAt (setNodeAt a k { nodeAt a k with hash := v }) m).next =
      (nodeAt a m).next :=
  nodeAt_set_next_pres a k { nodeAt a k with hash := v } m rfl

/-- Field effects of the keep case of the sweep. -/
theorem sweepKeep_fields (b : BDD) (n : Nat) (hn : n < b.nodes.length) :
    (sweepKeep b n).nodes.length = b.nodes.length ∧
    (sweepKeep b n).freepos = b.freepos ∧
    (nodeAt (sweepKeep b n) (n : Int)).level =
      (nodeAt b (n : Int)).level &&& 2097151 ∧
    (nodeAt (sweepKeep b n) (n : Int)).low = (nodeAt b (n : Int)).low ∧
    (nodeAt (sweepKeep b n) (n : Int)).high = (nodeAt b (n : Int)).high ∧
    (nodeAt (sweepKeep b n) (n : Int)).refcou =
      (nodeAt b (n : Int)).refcou ∧
    (∀ m : Int, m.toNat ≠ n →
      (nodeAt (sweepKeep b n) m).level = (nodeAt b m).level ∧
      (nodeAt (sweepKeep b n) m).low = (nodeAt b m).low ∧
      (nodeAt (sweepKeep b n) m).high = (nodeAt b m).high ∧
      (nodeAt (sweepKeep b n) m).refcou = (nodeAt b m).refcou) ∧
    (∀ m : Int, m.toNat ≠ n →
      (nodeAt (sweepKeep b n) m).next = (nodeAt b m).next) := by
  have hlen1 : (unmarknode b (n : Int)).nodes.length = b.nodes.length := by
    unfold unmarknode
    exact setNodeAt_length _ _ _
  have h1self : nodeAt (unmarknode b (n : Int)) (n : Int) =
      { nodeAt b (n : Int) with
        level := (nodeAt b (n : Int)).level &&& 2097151 } := by
    unfold unmarknode
    exact nodeAt_setNodeAt_self _ _ _ hn
  have h1ne : ∀ m : Int, m.toNat ≠ n →
      nodeAt (unmarknode b (n : Int)) m = nodeAt b m := by
    intro m hm
    unfold unmarknode
    exact nodeAt_setNodeAt_ne _ _ _ _ (fun hc => hm hc.symm)
  have hred : sweepKeep b n =
      setNodeAt (setNodeAt (unmarknode b (n : Int)) (n : Int)
          { nodeAt (unmarknode b (n : Int)) (n : Int) with
            next := (nodeAt (unmarknode b (n : Int))
              ((ptrhash (unmarknode b (n : Int)) (n : Int) : Nat) :
                Int)).hash })
        ((ptrhash (unmarknode b (n : Int)) (n : Int) : Nat) : Int)
        { nodeAt (setNodeAt (unmarknode b (n : Int)) (n : Int)
            { nodeAt (unmarknode b (n : Int)) (n : Int) with
              next := (nodeAt (unmarknode b (n : Int))
                ((ptrhash (unmarknode b (n : Int)) (n : Int) : Nat) :
                  Int)).hash })
          ((ptrhash (unmarknode b (n : Int)) (n : Int) : Nat) : Int) with
          hash := (n : Int) } := rfl
  rw [hred]
  refine ⟨?_, rfl, ?_, ?_, ?_, ?_, ?_, ?_⟩
  · rw [setNodeAt_length, setNodeAt_length, hlen1]
  · rw [sethash_level, setnext_level, h1self]
  · rw [sethash_low, setnext_low, h1self]
  · rw [sethash_high, setnext_high, h1self]
  · rw [sethash_refcou, setnext_refcou, h1self]
  · intro m hm
    rw [sethash_level, setnext_level, sethash_low, setnext_low,
      sethash_high, setnext_high, sethash_refcou, setnext_refcou,
      h1ne m hm]
    exact ⟨rfl, rfl, rfl, rfl⟩
  · intro m hm
    rw [sethash_next,
      nodeAt_setNodeAt_ne _ ((n : Nat) : Int) m _ (fun hc => hm hc.symm),
      h1ne m hm]

/-- Field effects of the free case of the sweep. -/
theorem sweepFree_fields (b : BDD) (n : Nat) (hn : n < b.nodes.length) :
    (sweepFree b n).nodes.length = b.nodes.length ∧
    (sweepFree b n).freepos = (n : Int) ∧
    (nodeAt (sweepFree b n) (n : Int)).low = -1 ∧
    (nodeAt (sweepFree b n) (n : Int)).next = b.freepos ∧
    (nodeAt (sweepFree b n) (n : Int)).refcou =
      (nodeAt b (n : Int)).refcou ∧
    (∀ m : Int, m.toNat ≠ n → nodeAt (sweepFree b n) m = nodeAt b m) := by
  have hred : sweepFree b n =
      { setNodeAt b (n : Int)
          { nodeAt b (n : Int) with low := -1, next := b.freepos } with
        freepos := (n : Int),
        freenum := (setNodeAt b (n : Int)
          { nodeAt b (n : Int) with
            low := -1, next := b.freepos }).freenum + 1 } := rfl
  rw [hred]
  have hself : nodeAt (setNodeAt b (n : Int)
      { nodeAt b (n : Int) with low := -1, next := b.freepos }) (n : Int) =
      { nodeAt b (n : Int) with low := -1, next := b.freepos } :=
    nodeAt_setNodeAt_self _ _ _ hn
  refine ⟨?_, rfl, ?_, ?_, ?_, ?_⟩
  · exact setNodeAt_length _ _ _
  · show (nodeAt (setNodeAt b (n : Int)
      { nodeAt b (n : Int) with low := -1, next := b.freepos })
        (n : Int)).low = -1
    rw [hself]
  · show (nodeAt (setNodeAt b (n : Int)
      { nodeAt b (n : Int) with low := -1, next := b.freepos })
        (n : Int)).next = b.freepos
    rw [hself]
  · show (nodeAt (setNodeAt b (n : Int)
      { nodeAt b (n : Int) with low := -1, next := b.freepos })
        (n : Int)).refcou = (nodeAt b (n : Int)).refcou
    rw [hself]
  · intro m hm
    show nodeAt (setNodeAt b (n : Int)
      { nodeAt b (n : Int) with low := -1, next := b.freepos }) m =
        nodeAt b m
    exact nodeAt_setNodeAt_ne _ _ _ _ (fun hc => hm hc.symm)

/-- Loop invariant of the sweep pass: slots not yet processed are untouched,
processed kept slots are unmasked with their fields intact, other processed
slots are voided, and the free list holds exactly the voided slots in
ascending order. -/
def SweepInv (b3 : BDD) (len : Nat) (c : BDD) (n : Nat) : Prop :=
  c.nodes.length = len ∧
  (∀ k : Nat, k < len → k ≤ n →
    (nodeAt c (k : Int)).level = (nodeAt b3 (k : Int)).level ∧
    (nodeAt c (k : Int)).low = (nodeAt b3 (k : Int)).low ∧
    (nodeAt c (k : Int)).high = (nodeAt b3 (k : Int)).high ∧
    (nodeAt c (k : Int)).refcou = (nodeAt b3 (k : Int)).refcou) ∧
  (∀ k : Nat, n < k → k < len →
    ((ismarked b3 (k : Int) = true ∧ (nodeAt b3 (k : Int)).low ≠ -1) →
      (nodeAt c (k : Int)).level =
        (nodeAt b3 (k : Int)).level &&& 2097151 ∧
      (nodeAt c (k : Int)).low = (nodeAt b3 (k : Int)).low ∧
      (nodeAt c (k : Int)).high = (nodeAt b3 (k : Int)).high ∧
      (nodeAt c (k : Int)).refcou = (nodeAt b3 (k : Int)).refcou) ∧
    (¬(ismarked b3 (k : Int) = true ∧ (nodeAt b3 (k : Int)).low ≠ -1) →
      (nodeAt c (k : Int)).low = -1 ∧
      (nodeAt c (k : Int)).refcou = (nodeAt b3 (k : Int)).refcou)) ∧
  chainIs c c.freepos (freedFrom b3 len (n + 1))

/-- One sweep iteration preserves the sweep invariant. -/
theorem sweep_step_inv (b3 : BDD) (len : Nat) (c : BDD) (n : Nat)
    (h2 : 2 ≤ n) (hn : n < len) (hinv : SweepInv b3 len c n) :
    SweepInv b3 len (gbc_sweepStep c n) (n - 1) := by
  obtain ⟨hlen, hunproc, hproc, hchain⟩ := hinv
  have hnc : n < c.nodes.length := by omega
  have hnn := hunproc n hn (le_refl n)
  have hm_eq : ismarked c (n : Int) = ismarked b3 (n : Int) :=
    ismarked_congr hnn.1
  by_cases hk : ismarked b3 (n : Int) = true ∧ (nodeAt b3 (n : Int)).low ≠ -1
  · have hcondc : ismarked c (n : Int) = true ∧
        (nodeAt c (n : Int)).low ≠ -1 := by
      rw [hm_eq, hnn.2.1]
      exact hk
    have hstep : gbc_sweepStep c n = sweepKeep c n := by
      unfold gbc_sweepStep
      rw [if_pos hcondc]
    obtain ⟨klen, kfree, klev, klow, khigh, kref, kne, knext⟩ :=
      sweepKeep_fields c n hnc
    rw [hstep]
    refine ⟨by rw [klen, hlen], ?_, ?_, ?_⟩
    · intro k hklen hkle
      have hkn : ((k : Int)).toNat ≠ n := by omega
      obtain ⟨e1, e2, e3, e4⟩ := kne (k : Int) hkn
      have hu := hunproc k hklen (by omega)
      exact ⟨by rw [e1, hu.1], by rw [e2, hu.2.1], by rw [e3, hu.2.2.1],
        by rw [e4, hu.2.2.2]⟩
    · intro k hkgt hklen
      by_cases hkeqn : k = n
      · subst hkeqn
        refine ⟨fun _ => ?_, fun hcon => absurd hk hcon⟩
        exact ⟨by rw [klev, hnn.1], by rw [klow, hnn.2.1],
          by rw [khigh, hnn.2.2.1], by rw [kref, hnn.2.2.2]⟩
      · have hkgt' : n < k := by omega
        have hkn : ((k : Int)).toNat ≠ n := by omega
        obtain ⟨e1, e2, e3, e4⟩ := kne (k : Int) hkn
        obtain ⟨p1, p2⟩ := hproc k hkgt' hklen
        refine ⟨fun hkk => ?_, fun hkk => ?_⟩
        · obtain ⟨q1, q2, q3, q4⟩ := p1 hkk
          exact ⟨by rw [e1, q1], by rw [e2, q2], by rw [e3, q3],
            by rw [e4, q4]⟩
        · exact ⟨by rw [e2]; exact (p2 hkk).1,
            by rw [e4]; exact (p2 hkk).2⟩
    · have hfl : freedFrom b3 len ((n - 1) + 1) =
          freedFrom b3 len (n + 1) := by
        rw [show (n - 1) + 1 = n by omega, freedFrom_step b3 len n hn,
          if_pos hk]
      rw [hfl, kfree]
      intro fuel hf
      have h1 := hchain fuel hf
      rw [← h1]
      apply freeChain_congr
      intro q hq
      rw [h1] at hq
      have hqb := freedFrom_lower b3 len (n + 1) q hq
      exact knext q (by omega)
  · have hcondc : ¬(ismarked c (n : Int) = true ∧
        (nodeAt c (n : Int)).low ≠ -1) := by
      rw [hm_eq, hnn.2.1]
      exact hk
    have hstep : gbc_sweepStep c n = sweepFree c n := by
      unfold gbc_sweepStep
      rw [if_neg hcondc]
    obtain ⟨flen, ffree, flow, fnext, fref, fne⟩ := sweepFree_fields c n hnc
    rw [hstep]
    refine ⟨by rw [flen, hlen], ?_, ?_, ?_⟩
    · intro k hklen hkle
      have hkn : ((k : Int)).toNat ≠ n := by omega
      rw [fne (k : Int) hkn]
      exact hunproc k hklen (by omega)
    · intro k hkgt hklen
      by_cases hkeqn : k = n
      · subst hkeqn
        exact ⟨fun hcon => absurd hcon hk,
          fun _ => ⟨flow, by rw [fref]; exact hnn.2.2.2⟩⟩
      · have hkgt' : n < k := by omega
        have hkn : ((k : Int)).toNat ≠ n := by omega
        rw [fne (k : Int) hkn]
        exact hproc k hkgt' hklen
    · have hfl : freedFrom b3 len ((n - 1) + 1) =
          (n : Int) :: freedFrom b3 len (n + 1) := by
        rw [show (n - 1) + 1 = n by omega, freedFrom_step b3 len n hn,
          if_neg hk]
      rw [hfl, ffree]
      intro fuel hf
      rcases fuel with _ | f
      · exact absurd hf (Nat.not_lt_zero _)
      · rw [freeChain_succ, if_neg (by
          intro hc
          have hnn0 : (n : Int) = 0 := hc
          omega)]
        rw [fnext]
        congr 1
        have hlf : (freedFrom b3 len (n + 1)).length < f := by
          simp only [List.length_cons] at hf
          omega
        have h1 := hchain f hlf
        rw [← h1]
        apply freeChain_congr
        intro q hq
        rw [h1] at hq
        have hqb := freedFrom_lower b3 len (n + 1) q hq
        have hqn : q.toNat ≠ n := by omega
        rw [fne q hqn]

/-- The sweep loop preserves the invariant down to index 1. -/
theorem sweep_loop (b3 : BDD) (len : Nat) :
    ∀ (idx : Nat) (c : BDD), 1 ≤ idx → idx < len →
      SweepInv b3 len c idx →
      SweepInv b3 len (gbc_sweepFrom c idx) 1 := by
  intro idx
  induction idx with
  | zero =>
    intro c h1 _ _
    omega
  | succ m ih =>
    intro c h1 hlen hinv
    rcases m with _ | m2
    · exact hinv
    · have hstep := sweep_step_inv b3 len c (m2 + 2) (by omega) hlen hinv
      have hr : gbc_sweepFrom c (m2 + 2) =
          gbc_sweepFrom (gbc_sweepStep c (m2 + 2)) (m2 + 1) := rfl
      rw [hr]
      exact ih (gbc_sweepStep c (m2 + 2)) (by omega) (by omega) hstep

theorem freedFrom_length_le (b3 : BDD) (len lo : Nat) :
    (freedFrom b3 len lo).length ≤ len - lo := by
  unfold freedFrom
  have h1 := List.length_filterMap_le (fun (k : Nat) =>
    if ismarked b3 (k : Int) = true ∧ (nodeAt b3 (k : Int)).low ≠ -1
    then none else some (k : Int)) (List.range' lo (len - lo))
  rwa [List.length_range'] at h1

theorem cacheReset1_mem (t : List CacheData) :
    ∀ e ∈ cacheReset1 t, e.a = -1 := by
  intro e he
  unfold cacheReset1 at he
  obtain ⟨x, hx, rfl⟩ := List.mem_map.mp he
  rfl

/-- C8: during garbage collection on a wellformed error-free state, every
live node reachable from the internal reference stack or from a slot with
positive reference count keeps its level, low and high fields and stays live
in the table; every other internal slot is voided (low set to -1) and linked
onto the free list; and the five operation caches are reset so that every
entry carries the invalid key -1. -/
theorem gbc_spec (b : BDD) (hb : WF b) (he : b.error = none) :
    (gbc b).nodes.length = b.nodes.length ∧
    (∀ n : Int, islive b n → RootReachable b n →
      (nodeAt (gbc b) n).level = (nodeAt b n).level ∧
      (nodeAt (gbc b) n).low = (nodeAt b n).low ∧
      (nodeAt (gbc b) n).high = (nodeAt b n).high ∧
      islive (gbc b) n) ∧
    (∀ k : Nat, 2 ≤ k → k < b.nodes.length →
      ¬(islive b (k : Int) ∧ RootReachable b (k : Int)) →
      (nodeAt (gbc b) (k : Int)).low = -1 ∧
      (k : Int) ∈ freeChain (gbc b) (b.nodes.length + 1) (gbc b).freepos) ∧
    (∀ e ∈ (gbc b).applycache, e.a = -1) ∧
    (∀ e ∈ (gbc b).itecache, e.a = -1) ∧
    (∀ e ∈ (gbc b).quantcacheTbl, e.a = -1) ∧
    (∀ e ∈ (gbc b).appexcache, e.a = -1) ∧
    (∀ e ∈ (gbc b).replacecache, e.a = -1) := by
  obtain ⟨hmoc2, hchar⟩ := marking_char b hb
  obtain ⟨b2, hb2⟩ : ∃ x : BDD, x = gbc_markref (gbc_markstack b) :=
    ⟨_, rfl⟩
  rw [← hb2] at hmoc2 hchar
  have h2len : 2 ≤ b.nodes.length := by
    obtain ⟨h2, hv1, hvM, e1, e2, e3, e4, f1, f2, f3, f4, hlevbound,
      hlive2, hrc, hfree, hcanon, hchain2, hmem2, hfp, hrs⟩ := hb
    exact h2
  have hlevbound : ∀ k : Nat, k < b.nodes.length →
      (nodeAt b (k : Int)).level ≤ b.varnum := by
    obtain ⟨h2, hv1, hvM, e1, e2, e3, e4, f1, f2, f3, f4, hlb,
      hlive2, hrc, hfree, hcanon, hchain2, hmem2, hfp, hrs⟩ := hb
    exact hlb
  have hvM : b.varnum ≤ 2097151 := by
    obtain ⟨h2, hv1, hvMx, e1, e2, e3, e4, f1, f2, f3, f4, hlb,
      hlive2, hrc, hfree, hcanon, hchain2, hmem2, hfp, hrs⟩ := hb
    exact hvMx
  have hgbc : gbc b = cachereset (gbc_sweepFrom
      { gbc_markref (gbc_markstack b) with freepos := 0, freenum := 0 }
      ((gbc_markref (gbc_markstack b)).nodes.length - 1)) := by
    unfold gbc
    rw [if_neg (by rw [he]; exact fun hc => hc rfl)]
  rw [← hb2] at hgbc
  have hidx : b2.nodes.length = b.nodes.length := hmoc2.1
  rw [hidx] at hgbc
  have hinit : SweepInv b2 b.nodes.length
      { b2 with freepos := 0, freenum := 0 } (b.nodes.length - 1) := by
    refine ⟨hmoc2.1, ?_, ?_, ?_⟩
    · intro k hklen hkle
      exact ⟨rfl, rfl, rfl, rfl⟩
    · intro k hk1 hk2
      exact absurd hk2 (by omega)
    · have hff : freedFrom b2 b.nodes.length
          ((b.nodes.length - 1) + 1) = [] := by
        rw [show (b.nodes.length - 1) + 1 = b.nodes.length by omega]
        exact freedFrom_nil b2 b.nodes.length
      rw [hff]
      intro fuel hf
      rcases fuel with _ | f
      · exact absurd hf (Nat.not_lt_zero _)
      · rw [freeChain_succ,
          if_pos (show ({ b2 with freepos := 0, freenum := 0 } :
            BDD).freepos = 0 from rfl)]
  have hsw := sweep_loop b2 b.nodes.length (b.nodes.length - 1)
    { b2 with freepos := 0, freenum := 0 } (by omega) (by omega) hinit
  set c4 := gbc_sweepFrom { b2 with freepos := 0, freenum := 0 }
    (b.nodes.length - 1) with hc4d
  obtain ⟨c4len, c4unproc, c4proc, c4chain⟩ := hsw
  have hcc : ∀ m : Int, nodeAt (cachereset c4) m = nodeAt c4 m :=
    fun m => rfl
  have hnodes : ∀ m : Int, nodeAt (gbc b) m = nodeAt c4 m := by
    intro m
    rw [hgbc, hcc m]
  have hlenfinal : (gbc b).nodes.length = b.nodes.length := by
    rw [hgbc]
    have h1 : (cachereset c4).nodes.length = c4.nodes.length := rfl
    rw [h1, c4len]
  refine ⟨hlenfinal, ?_, ?_, ?_, ?_, ?_, ?_, ?_⟩
  · intro n hlive hroot
    obtain ⟨hn2, hnlen, hnlow⟩ := hlive
    have hcast : ((n.toNat : Nat) : Int) = n :=
      Int.toNat_of_nonneg (by omega)
    have hmarked : ismarked b2 n = true :=
      (hchar n).mpr ⟨⟨hn2, hnlen, hnlow⟩, hroot⟩
    have hlow2 : (nodeAt b2 n).low = (nodeAt b n).low :=
      (moc_node hmoc2 n).2.1
    have hlev0 : (nodeAt b n).level ≤ b.varnum := by
      have := hlevbound n.toNat (by omega)
      rwa [hcast] at this
    have hlev2 : (nodeAt b2 n).level = (nodeAt b n).level + 2097152 := by
      rcases (moc_node hmoc2 n).1 with h | h
      · exfalso
        have hfalse : ismarked b2 n = false :=
          ismarked_false_of_lt (by rw [h]; omega)
        rw [hfalse] at hmarked
        cases hmarked
      · exact h
    have hkeep : ismarked b2 ((n.toNat : Nat) : Int) = true ∧
        (nodeAt b2 ((n.toNat : Nat) : Int)).low ≠ -1 := by
      rw [hcast]
      refine ⟨hmarked, ?_⟩
      rw [hlow2]
      exact hnlow
    obtain ⟨q1, q2, q3, q4⟩ := (c4proc n.toNat (by omega) (by omega)).1 hkeep
    rw [hcast] at q1 q2 q3
    have hlevc4 : (nodeAt c4 n).level = (nodeAt b n).level := by
      rw [q1, hlev2, mark_unmask_marked _ (by omega)]
    refine ⟨?_, ?_, ?_, ?_, ?_, ?_⟩
    · rw [hnodes n]
      exact hlevc4
    · rw [hnodes n, q2]
      exact hlow2
    · rw [hnodes n, q3]
      exact (moc_node hmoc2 n).2.2.1
    · exact hn2
    · rw [hlenfinal]
      exact hnlen
    · rw [hnodes n, q2, hlow2]
      exact hnlow
  · intro k hk2 hklen hnot
    have hnotkeep : ¬(ismarked b2 ((k : Nat) : Int) = true ∧
        (nodeAt b2 ((k : Nat) : Int)).low ≠ -1) := by
      intro hcon
      exact hnot ((hchar ((k : Nat) : Int)).mp hcon.1)
    have hfree := (c4proc k (by omega) hklen).2 hnotkeep
    constructor
    · rw [hnodes ((k : Nat) : Int)]
      exact hfree.1
    · have hmem : ((k : Nat) : Int) ∈
          freedFrom b2 b.nodes.length (1 + 1) :=
        (freedFrom_mem b2 b.nodes.length (1 + 1) ((k : Nat) : Int)).mpr
          ⟨k, by omega, hklen, rfl, hnotkeep⟩
      have hlb : (freedFrom b2 b.nodes.length (1 + 1)).length <
          b.nodes.length + 1 := by
        have h1 := freedFrom_length_le b2 b.nodes.length (1 + 1)
        omega
      have hchaineq := c4chain (b.nodes.length + 1) hlb
      have hcongr : freeChain (gbc b) (b.nodes.length + 1)
          (gbc b).freepos =
          freeChain c4 (b.nodes.length + 1) c4.freepos := by
        rw [hgbc]
        exact freeChain_congr c4 (cachereset c4) (b.nodes.length + 1)
          c4.freepos (fun q _ => rfl)
      rw [hcongr, hchaineq]
      exact hmem
  · intro e hee
    have h1 : (gbc b).applycache = cacheReset1 c4.applycache := by
      rw [hgbc]
      rfl
    rw [h1] at hee
    exact cacheReset1_mem _ e hee
  · intro e hee
    have h1 : (gbc b).itecache = cacheReset1 c4.itecache := by
      rw [hgbc]
      rfl
    rw [h1] at hee
    exact cacheReset1_mem _ e hee
  · intro e hee
    have h1 : (gbc b).quantcacheTbl = cacheReset1 c4.quantcacheTbl := by
      rw [hgbc]
      rfl
    rw [h1] at hee
    exact cacheReset1_mem _ e hee
  · intro e hee
    have h1 : (gbc b).appexcache = cacheReset1 c4.appexcache := by
      rw [hgbc]
      rfl
    rw [h1] at hee
    exact cacheReset1_mem _ e hee
  · intro e hee
    have h1 : (gbc b).replacecache = cacheReset1 c4.replacecache := by
      rw [hgbc]
      rfl
    rw [h1] at hee
    exact cacheReset1_mem _ e hee

/-- Closed instantiation of gbc_spec at the concrete engine bW. -/
theorem gbc_spec_witness :
    (gbc bW).nodes.length = bW.nodes.length ∧
    (∀ n : Int, islive bW n → RootReachable bW n →
      (nodeAt (gbc bW) n).level = (nodeAt bW n).level ∧
      (nodeAt (gbc bW) n).low = (nodeAt bW n).low ∧
      (nodeAt (gbc bW) n).high = (nodeAt bW n).high ∧
      islive (gbc bW) n) ∧
    (∀ k : Nat, 2 ≤ k → k < bW.nodes.length →
      ¬(islive bW (k : Int) ∧ RootReachable bW (k : Int)) →
      (nodeAt (gbc bW) (k : Int)).low = -1 ∧
      (k : Int) ∈
        freeChain (gbc bW) (bW.nodes.length + 1) (gbc bW).freepos) ∧
    (∀ e ∈ (gbc bW).applycache, e.a = -1) ∧
    (∀ e ∈ (gbc bW).itecache, e.a = -1) ∧
    (∀ e ∈ (gbc bW).quantcacheTbl, e.a = -1) ∧
    (∀ e ∈ (gbc bW).appexcache, e.a = -1) ∧
    (∀ e ∈ (gbc bW).replacecache, e.a = -1) :=
  gbc_spec bW (by decide) rfl

theorem nodehash_lt (b : BDD) (lvl : Nat) (lo hi : Int)
    (h0 : 0 < b.nodes.length) : nodehash b lvl lo hi < b.nodes.length := by
  unfold nodehash _TRIPLE _PAIR64
  exact Nat.mod_lt _ h0

/-- A successful unique-index walk returns a live node storing the searched
triple. -/
theorem findnode_sound (b : BDD) (lvl : Nat) (lo hi : Int) :
    ∀ (fuel : Nat) (start res : Int),
      findnode b lvl lo hi fuel start = some res →
      chainProper b fuel start = true →
      islive b res ∧ (nodeAt b res).level = lvl ∧
      (nodeAt b res).low = lo ∧ (nodeAt b res).high = hi := by
  intro fuel
  induction fuel with
  | zero =>
    intro start res hf _
    cases hf
  | succ f ih =>
    intro start res hf hc
    unfold findnode at hf
    unfold chainProper at hc
    by_cases h0 : start = 0
    · rw [if_pos h0] at hf
      cases hf
    · rw [if_neg h0] at hf hc
      rw [Bool.and_eq_true] at hc
      obtain ⟨hlv, hrest⟩ := hc
      by_cases hm : (nodeAt b start).level = lvl ∧
          (nodeAt b start).low = lo ∧ (nodeAt b start).high = hi
      · rw [if_pos hm] at hf
        have : start = res := Option.some.inj hf
        subst this
        exact ⟨of_decide_eq_true hlv, hm.1, hm.2.1, hm.2.2⟩
      · rw [if_neg hm] at hf
        exact ih (nodeAt b start).next res hf hrest

/-- A failed unique-index walk rules out the triple for every member of the
chain. -/
theorem findnode_none_not_mem (b : BDD) (lvl : Nat) (lo hi : Int) :
    ∀ (fuel : Nat) (start target : Int),
      findnode b lvl lo hi fuel start = none →
      chainMem b fuel start target = true →
      ¬((nodeAt b target).level = lvl ∧ (nodeAt b target).low = lo ∧
        (nodeAt b target).high = hi) := by
  intro fuel
  induction fuel with
  | zero =>
    intro start target _ hm
    cases hm
  | succ f ih =>
    intro start target hf hm
    unfold findnode at hf
    unfold chainMem at hm
    by_cases h0 : start = 0
    · rw [if_pos h0] at hm
      cases hm
    · rw [if_neg h0] at hf hm
      by_cases hmt : (nodeAt b start).level = lvl ∧
          (nodeAt b start).low = lo ∧ (nodeAt b start).high = hi
      · rw [if_pos hmt] at hf
        cases hf
      · rw [if_neg hmt] at hf
        by_cases hst : start = target
        · subst hst
          exact hmt
        · rw [if_neg hst] at hm
          exact ih (nodeAt b start).next target hf hm

/-- Field effects of the allocation tail of makenode. -/
theorem makenode_alloc_fields (b : BDD) (lvl : Nat) (lo hi : Int) (h : Nat)
    (hlen : b.freepos.toNat < b.nodes.length) :
    (makenode_alloc b lvl lo hi h).2 = b.freepos ∧
    (makenode_alloc b lvl lo hi h).1.nodes.length = b.nodes.length ∧
    (nodeAt (makenode_alloc b lvl lo hi h).1 b.freepos).level = lvl ∧
    (nodeAt (makenode_alloc b lvl lo hi h).1 b.freepos).low = lo ∧
    (nodeAt (makenode_alloc b lvl lo hi h).1 b.freepos).high = hi ∧
    (nodeAt (makenode_alloc b lvl lo hi h).1 b.freepos).refcou =
      (nodeAt b b.freepos).refcou ∧
    (∀ m : Int, m.toNat ≠ b.freepos.toNat →
      (nodeAt (makenode_alloc b lvl lo hi h).1 m).level =
        (nodeAt b m).level ∧
      (nodeAt (makenode_alloc b lvl lo hi h).1 m).low = (nodeAt b m).low ∧
      (nodeAt (makenode_alloc b lvl lo hi h).1 m).high =
        (nodeAt b m).high ∧
      (nodeAt (makenode_alloc b lvl lo hi h).1 m).refcou =
        (nodeAt b m).refcou) := by
  have hred : (makenode_alloc b lvl lo hi h).1 =
      setNodeAt
        (setNodeAt { b with freepos := (nodeAt b b.freepos).next, freenum := b.freenum - 1 } b.freepos { nodeAt b b.freepos with level := lvl, low := lo, high := hi, next := (nodeAt b ((h : Nat) : Int)).hash })
        ((h : Nat) : Int)
        { nodeAt (setNodeAt { b with freepos := (nodeAt b b.freepos).next, freenum := b.freenum - 1 } b.freepos { nodeAt b b.freepos with level := lvl, low := lo, high := hi, next := (nodeAt b ((h : Nat) : Int)).hash }) ((h : Nat) : Int) with hash := b.freepos } := rfl
  have hlen1 : b.freepos.toNat <
      ({ b with freepos := (nodeAt b b.freepos).next, freenum := b.freenum - 1 } : BDD).nodes.length := hlen
  have hself : nodeAt (setNodeAt { b with freepos := (nodeAt b b.freepos).next, freenum := b.freenum - 1 } b.freepos { nodeAt b b.freepos with level := lvl, low := lo, high := hi, next := (nodeAt b ((h : Nat) : Int)).hash }) b.freepos = { nodeAt b b.freepos with level := lvl, low := lo, high := hi, next := (nodeAt b ((h : Nat) : Int)).hash } :=
    nodeAt_setNodeAt_self _ _ _ hlen1
  refine ⟨rfl, ?_, ?_, ?_, ?_, ?_, ?_⟩
  · rw [hred, setNodeAt_length, setNodeAt_length]
  · rw [hred, sethash_level, hself]
  · rw [hred, sethash_low, hself]
  · rw [hred, sethash_high, hself]
  · rw [hred, sethash_refcou, hself]
  · intro m hm
    rw [hred, sethash_level, sethash_low, sethash_high, sethash_refcou,
      nodeAt_setNodeAt_ne _ _ _ _ (fun hc => hm hc.symm)]
    exact ⟨rfl, rfl, rfl, rfl⟩

/-- Reusable consequences of a garbage collection on a wellformed
error-free state: the table length is unchanged; a surviving internal slot
kept its level, low and high fields and was live before; a dead internal
slot has reference count zero and held no protected live node; and a
non-null free-list head is a dead internal slot. -/
theorem gbc_facts (b : BDD) (hb : WF b) (he : b.error = none) :
    (gbc b).nodes.length = b.nodes.length ∧
    (∀ k : Nat, 2 ≤ k → k < b.nodes.length →
      (nodeAt (gbc b) (k : Int)).low ≠ -1 →
      (nodeAt (gbc b) (k : Int)).level = (nodeAt b (k : Int)).level ∧
      (nodeAt (gbc b) (k : Int)).low = (nodeAt b (k : Int)).low ∧
      (nodeAt (gbc b) (k : Int)).high = (nodeAt b (k : Int)).high ∧
      islive b (k : Int)) ∧
    (∀ k : Nat, 2 ≤ k → k < b.nodes.length →
      (nodeAt (gbc b) (k : Int)).low = -1 →
      (nodeAt (gbc b) (k : Int)).refcou = 0 ∧
      ¬(islive b (k : Int) ∧ RootReachable b (k : Int))) ∧
    ((gbc b).freepos ≠ 0 →
      2 ≤ (gbc b).freepos ∧ (gbc b).freepos < (b.nodes.length : Int) ∧
      (nodeAt (gbc b) (gbc b).freepos).low = -1) := by
  obtain ⟨hmoc2, hchar⟩ := marking_char b hb
  obtain ⟨b2, hb2⟩ : ∃ x : BDD, x = gbc_markref (gbc_markstack b) :=
    ⟨_, rfl⟩
  rw [← hb2] at hmoc2 hchar
  have h2len : 2 ≤ b.nodes.length := by
    obtain ⟨h2, hv1, hvM, e1, e2, e3, e4, f1, f2, f3, f4, hlevbound,
      hlive2, hrc, hfree, hcanon, hchain2, hmem2, hfp, hrs⟩ := hb
    exact h2
  have hlevbound : ∀ k : Nat, k < b.nodes.length →
      (nodeAt b (k : Int)).level ≤ b.varnum := by
    obtain ⟨h2, hv1, hvM, e1, e2, e3, e4, f1, f2, f3, f4, hlb,
      hlive2, hrc, hfree, hcanon, hchain2, hmem2, hfp, hrs⟩ := hb
    exact hlb
  have hvM : b.varnum ≤ 2097151 := by
    obtain ⟨h2, hv1, hvMx, e1, e2, e3, e4, f1, f2, f3, f4, hlb,
      hlive2, hrc, hfree, hcanon, hchain2, hmem2, hfp, hrs⟩ := hb
    exact hvMx
  have hfreeWF : ∀ k : Nat, k < b.nodes.length → 2 ≤ k →
      (nodeAt b (k : Int)).low = -1 → (nodeAt b (k : Int)).refcou = 0 := by
    obtain ⟨h2, hv1, hvMx, e1, e2, e3, e4, f1, f2, f3, f4, hlb,
      hlive2, hrc, hfreex, hcanon, hchain2, hmem2, hfp, hrs⟩ := hb
    exact hfreex
  have hrcWF : ∀ k : Nat, k < b.nodes.length →
      0 ≤ (nodeAt b (k : Int)).refcou := by
    obtain ⟨h2, hv1, hvMx, e1, e2, e3, e4, f1, f2, f3, f4, hlb,
      hlive2, hrcx, hfreex, hcanon, hchain2, hmem2, hfp, hrs⟩ := hb
    exact hrcx
  have hgbc : gbc b = cachereset (gbc_sweepFrom
      { gbc_markref (gbc_markstack b) with freepos := 0, freenum := 0 }
      ((gbc_markref (gbc_markstack b)).nodes.length - 1)) := by
    unfold gbc
    rw [if_neg (by rw [he]; exact fun hc => hc rfl)]
  rw [← hb2] at hgbc
  have hidx : b2.nodes.length = b.nodes.length := hmoc2.1
  rw [hidx] at hgbc
  have hinit : SweepInv b2 b.nodes.length
      { b2 with freepos := 0, freenum := 0 } (b.nodes.length - 1) := by
    refine ⟨hmoc2.1, ?_, ?_, ?_⟩
    · intro k hklen hkle
      exact ⟨rfl, rfl, rfl, rfl⟩
    · intro k hk1 hk2
      exact absurd hk2 (by omega)
    · have hff : freedFrom b2 b.nodes.length
          ((b.nodes.length - 1) + 1) = [] := by
        rw [show (b.nodes.length - 1) + 1 = b.nodes.length by omega]
        exact freedFrom_nil b2 b.nodes.length
      rw [hff]
      intro fuel hf
      rcases fuel with _ | f
      · exact absurd hf (Nat.not_lt_zero _)
      · rw [freeChain_succ,
          if_pos (show ({ b2 with freepos := 0, freenum := 0 } :
            BDD).freepos = 0 from rfl)]
  have hsw := sweep_loop b2 b.nodes.length (b.nodes.length - 1)
    { b2 with freepos := 0, freenum := 0 } (by omega) (by omega) hinit
  set c4 := gbc_sweepFrom { b2 with freepos := 0, freenum := 0 }
    (b.nodes.length - 1) with hc4d
  obtain ⟨c4len, c4unproc, c4proc, c4chain⟩ := hsw
  have hcc : ∀ m : Int, nodeAt (cachereset c4) m = nodeAt c4 m :=
    fun m => rfl
  have hnodes : ∀ m : Int, nodeAt (gbc b) m = nodeAt c4 m := by
    intro m
    rw [hgbc, hcc m]
  have hlenfinal : (gbc b).nodes.length = b.nodes.length := by
    rw [hgbc]
    have h1 : (cachereset c4).nodes.length = c4.nodes.length := rfl
    rw [h1, c4len]
  have hfpfinal : (gbc b).freepos = c4.freepos := by
    rw [hgbc]
    rfl
  refine ⟨hlenfinal, ?_, ?_, ?_⟩
  · intro k hk2 hklen hlive4
    rw [hnodes ((k : Nat) : Int)] at hlive4 ⊢
    obtain ⟨p1, p2⟩ := c4proc k (by omega) hklen
    by_cases hkeep : ismarked b2 ((k : Nat) : Int) = true ∧
        (nodeAt b2 ((k : Nat) : Int)).low ≠ -1
    · obtain ⟨q1, q2, q3, q4⟩ := p1 hkeep
      have hlow2 : (nodeAt b2 ((k : Nat) : Int)).low =
          (nodeAt b ((k : Nat) : Int)).low :=
        (moc_node hmoc2 ((k : Nat) : Int)).2.1
      have hlev0 : (nodeAt b ((k : Nat) : Int)).level ≤ b.varnum :=
        hlevbound k hklen
      have hlev2 : (nodeAt b2 ((k : Nat) : Int)).level =
          (nodeAt b ((k : Nat) : Int)).level + 2097152 := by
        rcases (moc_node hmoc2 ((k : Nat) : Int)).1 with h | h
        · exfalso
          have hfalse : ismarked b2 ((k : Nat) : Int) = false :=
            ismarked_false_of_lt (by rw [h]; omega)
          rw [hfalse] at hkeep
          exact absurd hkeep.1 (by simp)
        · exact h
      refine ⟨?_, ?_, ?_, ?_⟩
      · rw [q1, hlev2, mark_unmask_marked _ (by omega)]
      · rw [q2, hlow2]
      · rw [q3]
        exact (moc_node hmoc2 ((k : Nat) : Int)).2.2.1
      · exact ((hchar ((k : Nat) : Int)).mp hkeep.1).1
    · exact absurd (p2 hkeep).1 hlive4
  · intro k hk2 hklen hdead4
    rw [hnodes ((k : Nat) : Int)] at hdead4 ⊢
    obtain ⟨p1, p2⟩ := c4proc k (by omega) hklen
    have hlow2 : (nodeAt b2 ((k : Nat) : Int)).low =
        (nodeAt b ((k : Nat) : Int)).low :=
      (moc_node hmoc2 ((k : Nat) : Int)).2.1
    have hkeep : ¬(ismarked b2 ((k : Nat) : Int) = true ∧
        (nodeAt b2 ((k : Nat) : Int)).low ≠ -1) := by
      intro hcon
      obtain ⟨q1, q2, q3, q4⟩ := p1 hcon
      rw [q2] at hdead4
      exact hcon.2 hdead4
    have hnotprot : ¬(islive b ((k : Nat) : Int) ∧
        RootReachable b ((k : Nat) : Int)) := by
      intro ⟨hlv, hrr⟩
      refine hkeep ⟨(hchar ((k : Nat) : Int)).mpr ⟨hlv, hrr⟩, ?_⟩
      rw [hlow2]
      exact hlv.2.2
    refine ⟨?_, hnotprot⟩
    have hrc4 : (nodeAt c4 ((k : Nat) : Int)).refcou =
        (nodeAt b ((k : Nat) : Int)).refcou := by
      rw [(p2 hkeep).2]
      exact (moc_node hmoc2 ((k : Nat) : Int)).2.2.2
    rw [hrc4]
    by_cases hlow0 : (nodeAt b ((k : Nat) : Int)).low = -1
    · exact hfreeWF k hklen (by omega) hlow0
    · have hlv : islive b ((k : Nat) : Int) := ⟨by omega, by omega, hlow0⟩
      have hrcle : (nodeAt b ((k : Nat) : Int)).refcou ≤ 0 := by
        by_contra hpos
        push_neg at hpos
        exact hnotprot ⟨hlv,
          Or.inr ⟨k, hklen, hpos, Reaches.refl ((k : Nat) : Int)⟩⟩
      have := hrcWF k hklen
      omega
  · intro hfp0
    rw [hfpfinal] at hfp0 ⊢
    have hlb : (freedFrom b2 b.nodes.length (1 + 1)).length <
        b.nodes.length + 1 := by
      have h1 := freedFrom_length_le b2 b.nodes.length (1 + 1)
      omega
    have hchaineq := c4chain (b.nodes.length + 1) hlb
    rw [freeChain_succ, if_neg hfp0] at hchaineq
    have hmemfp : c4.freepos ∈ freedFrom b2 b.nodes.length (1 + 1) := by
      rw [← hchaineq]
      exact List.mem_cons_self _ _
    obtain ⟨k0, hk01, hk02, hk0e, hk0keep⟩ :=
      (freedFrom_mem b2 b.nodes.length (1 + 1) c4.freepos).mp hmemfp
    obtain ⟨p1, p2⟩ := c4proc k0 (by omega) hk02
    refine ⟨by omega, by omega, ?_⟩
    rw [hnodes c4.freepos, hk0e]
    exact (p2 hk0keep).1

/-- Field effects of the keep case of the re-chaining loop: only next and
hash words change. -/
theorem rechainKeep_fields (b : BDD) (n : Nat) :
    (rechainKeep b n).nodes.length = b.nodes.length ∧
    (rechainKeep b n).freepos = b.freepos ∧
    (∀ m : Int,
      (nodeAt (rechainKeep b n) m).level = (nodeAt b m).level ∧
      (nodeAt (rechainKeep b n) m).low = (nodeAt b m).low ∧
      (nodeAt (rechainKeep b n) m).high = (nodeAt b m).high ∧
      (nodeAt (rechainKeep b n) m).refcou = (nodeAt b m).refcou) ∧
    (∀ m : Int, m.toNat ≠ n →
      (nodeAt (rechainKeep b n) m).next = (nodeAt b m).next) := by
  have hred : rechainKeep b n =
      setNodeAt (setNodeAt b (n : Int)
          { nodeAt b (n : Int) with
            next := (nodeAt b ((ptrhash b (n : Int) : Nat) : Int)).hash })
        ((ptrhash b (n : Int) : Nat) : Int)
        { nodeAt (setNodeAt b (n : Int)
            { nodeAt b (n : Int) with
              next := (nodeAt b
                ((ptrhash b (n : Int) : Nat) : Int)).hash })
          ((ptrhash b (n : Int) : Nat) : Int) with
          hash := (n : Int) } := rfl
  rw [hred]
  refine ⟨?_, rfl, ?_, ?_⟩
  · rw [setNodeAt_length, setNodeAt_length]
  · intro m
    rw [sethash_level, setnext_level, sethash_low, setnext_low,
      sethash_high, setnext_high, sethash_refcou, setnext_refcou]
    exact ⟨rfl, rfl, rfl, rfl⟩
  · intro m hm
    rw [sethash_next,
      nodeAt_setNodeAt_ne _ ((n : Nat) : Int) m _ (fun hc => hm hc.symm)]

/-- Field effects of the free case of the re-chaining loop. -/
theorem rechainFree_fields (b : BDD) (n : Nat) (hn : n < b.nodes.length) :
    (rechainFree b n).nodes.length = b.nodes.length ∧
    (rechainFree b n).freepos = (n : Int) ∧
    (∀ m : Int,
      (nodeAt (rechainFree b n) m).level = (nodeAt b m).level ∧
      (nodeAt (rechainFree b n) m).low = (nodeAt b m).low ∧
      (nodeAt (rechainFree b n) m).high = (nodeAt b m).high ∧
      (nodeAt (rechainFree b n) m).refcou = (nodeAt b m).refcou) ∧
    (nodeAt (rechainFree b n) (n : Int)).next = b.freepos ∧
    (∀ m : Int, m.toNat ≠ n →
      (nodeAt (rechainFree b n) m).next = (nodeAt b m).next) := by
  have hred : rechainFree b n =
      { setNodeAt b (n : Int)
          { nodeAt b (n : Int) with next := b.freepos } with
        freepos := (n : Int),
        freenum := (setNodeAt b (n : Int)
          { nodeAt b (n : Int) with next := b.freepos }).freenum + 1 } :=
    rfl
  rw [hred]
  have hself : nodeAt (setNodeAt b (n : Int)
      { nodeAt b (n : Int) with next := b.freepos }) (n : Int) =
      { nodeAt b (n : Int) with next := b.freepos } :=
    nodeAt_setNodeAt_self _ _ _ hn
  refine ⟨?_, rfl, ?_, ?_, ?_⟩
  · exact setNodeAt_length _ _ _
  · intro m
    show (nodeAt (setNodeAt b (n : Int)
        { nodeAt b (n : Int) with next := b.freepos }) m).level =
        (nodeAt b m).level ∧
      (nodeAt (setNodeAt b (n : Int)
        { nodeAt b (n : Int) with next := b.freepos }) m).low =
        (nodeAt b m).low ∧
      (nodeAt (setNodeAt b (n : Int)
        { nodeAt b (n : Int) with next := b.freepos }) m).high =
        (nodeAt b m).high ∧
      (nodeAt (setNodeAt b (n : Int)
        { nodeAt b (n : Int) with next := b.freepos }) m).refcou =
        (nodeAt b m).refcou
    rw [setnext_level, setnext_low, setnext_high, setnext_refcou]
    exact ⟨rfl, rfl, rfl, rfl⟩
  · show (nodeAt (setNodeAt b (n : Int)
      { nodeAt b (n : Int) with next := b.freepos }) (n : Int)).next =
        b.freepos
    rw [hself]
  · intro m hm
    show (nodeAt (setNodeAt b (n : Int)
      { nodeAt b (n : Int) with next := b.freepos }) m).next =
        (nodeAt b m).next
    rw [nodeAt_setNodeAt_ne _ ((n : Nat) : Int) m _ (fun hc => hm hc.symm)]

/-- The dead slots among indices of [lo, len), in ascending order: the free
list rebuilt by the re-chaining loop of noderesize. -/
def rfreedFrom (base : BDD) (len lo : Nat) : List Int :=
  (List.range' lo (len - lo)).filterMap fun (k : Nat) =>
    if (nodeAt base (k : Int)).low ≠ -1 then none
    else some (k : Int)

theorem rfreedFrom_nil (base : BDD) (len : Nat) :
    rfreedFrom base len len = [] := by
  unfold rfreedFrom
  rw [Nat.sub_self]
  rfl

theorem rfreedFrom_mem (base : BDD) (len lo : Nat) (x : Int) :
    x ∈ rfreedFrom base len lo ↔
    (∃ k : Nat, lo ≤ k ∧ k < len ∧ x = (k : Int) ∧
      ¬((nodeAt base (k : Int)).low ≠ -1)) := by
  unfold rfreedFrom
  rw [List.mem_filterMap]
  constructor
  · rintro ⟨a, ha, hfa⟩
    have hmem := List.mem_range'_1.mp ha
    by_cases hc : (nodeAt base (a : Int)).low ≠ -1
    · rw [if_pos hc] at hfa
      cases hfa
    · rw [if_neg hc] at hfa
      exact ⟨a, hmem.1, by omega, (Option.some.inj hfa).symm, hc⟩
  · rintro ⟨k, h1, h2, rfl, hc⟩
    refine ⟨k, ?_, by rw [if_neg hc]⟩
    exact List.mem_range'_1.mpr ⟨h1, by omega⟩

theorem rfreedFrom_lower (base : BDD) (len lo : Nat) (x : Int)
    (h : x ∈ rfreedFrom base len lo) : (lo : Int) ≤ x ∧ x < (len : Int) := by
  obtain ⟨k, h1, h2, rfl, -⟩ := (rfreedFrom_mem base len lo x).mp h
  omega

theorem rfreedFrom_step (base : BDD) (len lo : Nat) (hlo : lo < len) :
    rfreedFrom base len lo =
      if (nodeAt base (lo : Int)).low ≠ -1
      then rfreedFrom base len (lo + 1)
      else (lo : Int) :: rfreedFrom base len (lo + 1) := by
  unfold rfreedFrom
  have hr : List.range' lo (len - lo) =
      lo :: List.range' (lo + 1) (len - (lo + 1)) := by
    have h1 : len - lo = (len - (lo + 1)) + 1 := by omega
    rw [h1, List.range'_succ]
  rw [hr, List.filterMap_cons]
  by_cases hc : (nodeAt base (lo : Int)).low ≠ -1
  · rw [if_pos hc, if_pos hc]
  · rw [if_neg hc, if_neg hc]

theorem rfreedFrom_length_le (base : BDD) (len lo : Nat) :
    (rfreedFrom base len lo).length ≤ len - lo := by
  unfold rfreedFrom
  have h1 := List.length_filterMap_le (fun (k : Nat) =>
    if (nodeAt base (k : Int)).low ≠ -1 then none
    else some (k : Int)) (List.range' lo (len - lo))
  rwa [List.length_range'] at h1

/-- Loop invariant of the re-chaining pass of noderesize: the level, low,
high and refcou fields of every slot are untouched, and the rebuilt free
list holds exactly the processed dead slots in ascending order. -/
def RechainInv (base : BDD) (len : Nat) (c : BDD) (n : Nat) : Prop :=
  c.nodes.length = len ∧
  (∀ k : Nat, k < len →
    (nodeAt c (k : Int)).level = (nodeAt base (k : Int)).level ∧
    (nodeAt c (k : Int)).low = (nodeAt base (k : Int)).low ∧
    (nodeAt c (k : Int)).high = (nodeAt base (k : Int)).high ∧
    (nodeAt c (k : Int)).refcou = (nodeAt base (k : Int)).refcou) ∧
  chainIs c c.freepos (rfreedFrom base len (n + 1))

/-- One re-chaining iteration preserves the invariant. -/
theorem rechain_step_inv (base : BDD) (len : Nat) (c : BDD) (n : Nat)
    (h2 : 2 ≤ n) (hn : n < len) (hinv : RechainInv base len c n) :
    RechainInv base len (resize_rechainStep c n) (n - 1) := by
  obtain ⟨hlen, hfields, hchain⟩ := hinv
  have hnc : n < c.nodes.length := by omega
  have hnn := hfields n hn
  by_cases hk : (nodeAt base (n : Int)).low ≠ -1
  · have hcondc : (nodeAt c (n : Int)).low ≠ -1 := by
      rw [hnn.2.1]
      exact hk
    have hstep : resize_rechainStep c n = rechainKeep c n := by
      unfold resize_rechainStep
      rw [if_pos hcondc]
    obtain ⟨klen, kfree, kall, knext⟩ := rechainKeep_fields c n
    rw [hstep]
    refine ⟨by rw [klen, hlen], ?_, ?_⟩
    · intro k hklen
      obtain ⟨e1, e2, e3, e4⟩ := kall (k : Int)
      have hu := hfields k hklen
      exact ⟨by rw [e1, hu.1], by rw [e2, hu.2.1], by rw [e3, hu.2.2.1],
        by rw [e4, hu.2.2.2]⟩
    · have hfl : rfreedFrom base len ((n - 1) + 1) =
          rfreedFrom base len (n + 1) := by
        rw [show (n - 1) + 1 = n by omega, rfreedFrom_step base len n hn,
          if_pos hk]
      rw [hfl, kfree]
      intro fuel hf
      have h1 := hchain fuel hf
      rw [← h1]
      apply freeChain_congr
      intro q hq
      rw [h1] at hq
      have hqb := rfreedFrom_lower base len (n + 1) q hq
      exact knext q (by omega)
  · have hcondc : ¬((nodeAt c (n : Int)).low ≠ -1) := by
      rw [hnn.2.1]
      exact hk
    have hstep : resize_rechainStep c n = rechainFree c n := by
      unfold resize_rechainStep
      rw [if_neg hcondc]
    obtain ⟨flen, ffree, fall, fnext, fne⟩ := rechainFree_fields c n hnc
    rw [hstep]
    refine ⟨by rw [flen, hlen], ?_, ?_⟩
    · intro k hklen
      obtain ⟨e1, e2, e3, e4⟩ := fall (k : Int)
      have hu := hfields k hklen
      exact ⟨by rw [e1, hu.1], by rw [e2, hu.2.1], by rw [e3, hu.2.2.1],
        by rw [e4, hu.2.2.2]⟩
    · have hfl : rfreedFrom base len ((n - 1) + 1) =
          (n : Int) :: rfreedFrom base len (n + 1) := by
        rw [show (n - 1) + 1 = n by omega, rfreedFrom_step base len n hn,
          if_neg hk]
      rw [hfl, ffree]
      intro fuel hf
      rcases fuel with _ | f
      · exact absurd hf (Nat.not_lt_zero _)
      · rw [freeChain_succ, if_neg (by
          intro hc
          have hnn0 : (n : Int) = 0 := hc
          omega)]
        rw [fnext]
        congr 1
        have hlf : (rfreedFrom base len (n + 1)).length < f := by
          simp only [List.length_cons] at hf
          omega
        have h1 := hchain f hlf
        rw [← h1]
        apply freeChain_congr
        intro q hq
        rw [h1] at hq
        have hqb := rfreedFrom_lower base len (n + 1) q hq
        have hqn : q.toNat ≠ n := by omega
        rw [fne q hqn]

/-- The re-chaining loop preserves the invariant down to index 1. -/
theorem rechain_loop (base : BDD) (len : Nat) :
    ∀ (idx : Nat) (c : BDD), 1 ≤ idx → idx < len →
      RechainInv base len c idx →
      RechainInv base len (resize_rechainFrom c idx) 1 := by
  intro idx
  induction idx with
  | zero =>
    intro c h1 _ _
    omega
  | succ m ih =>
    intro c h1 hlen hinv
    rcases m with _ | m2
    · exact hinv
    · have hstep := rechain_step_inv base len c (m2 + 2) (by omega) hlen
        hinv
      have hr : resize_rechainFrom c (m2 + 2) =
          resize_rechainFrom (resize_rechainStep c (m2 + 2)) (m2 + 1) := rfl
      rw [hr]
      exact ih (resize_rechainStep c (m2 + 2)) (by omega) (by omega) hstep

theorem qs_getD_append_lt {α : Type} (l l2 : List α) (k : Nat) (d : α)
    (h : k < l.length) : (l ++ l2).getD k d = l.getD k d := by
  induction l generalizing k with
  | nil => exact absurd h (Nat.not_lt_zero _)
  | cons a t ih =>
    cases k with
    | zero => rfl
    | succ m =>
      have hm : m < t.length := by simpa using h
      simpa [List.getD] using ih m hm

theorem qs_getD_append_right {α : Type} (l l2 : List α) (k : Nat) (d : α)
    (h : l.length ≤ k) : (l ++ l2).getD k d = l2.getD (k - l.length) d := by
  induction l generalizing k with
  | nil => simp
  | cons a t ih =>
    cases k with
    | zero => exact absurd h (by simp)
    | succ m =>
      have hm : t.length ≤ m := by simpa using h
      simpa [List.getD, Nat.succ_sub_succ] using ih m hm

theorem qs_getD_map {α β : Type} (f : α → β) (l : List α) (k : Nat)
    (d : β) (d2 : α) (h : k < l.length) :
    (l.map f).getD k d = f (l.getD k d2) := by
  induction l generalizing k with
  | nil => exact absurd h (Nat.not_lt_zero _)
  | cons a t ih =>
    cases k with
    | zero => rfl
    | succ m =>
      have hm : m < t.length := by simpa using h
      simpa [List.getD] using ih m hm

/-- Consequences of a successful noderesize: the table strictly grows, old
slots keep their level, low, high and refcou fields, the appended slots are
dead with reference count zero, and a non-null rebuilt free-list head is a
dead slot with reference count zero. -/
theorem noderesize_success (c : BDD) (h2len : 2 ≤ c.nodes.length)
    (hfr : ∀ k : Nat, 2 ≤ k → k < c.nodes.length →
      (nodeAt c (k : Int)).low = -1 → (nodeAt c (k : Int)).refcou = 0)
    (b2 : BDD) (hnr : noderesize c = (b2, false)) :
    c.nodes.length < b2.nodes.length ∧
    (∀ k : Nat, k < c.nodes.length →
      (nodeAt b2 (k : Int)).level = (nodeAt c (k : Int)).level ∧
      (nodeAt b2 (k : Int)).low = (nodeAt c (k : Int)).low ∧
      (nodeAt b2 (k : Int)).high = (nodeAt c (k : Int)).high ∧
      (nodeAt b2 (k : Int)).refcou = (nodeAt c (k : Int)).refcou) ∧
    (∀ k : Nat, c.nodes.length ≤ k → k < b2.nodes.length →
      (nodeAt b2 (k : Int)).low = -1 ∧ (nodeAt b2 (k : Int)).refcou = 0) ∧
    (b2.freepos ≠ 0 →
      2 ≤ b2.freepos ∧ b2.freepos < (b2.nodes.length : Int) ∧
      (nodeAt b2 b2.freepos).low = -1 ∧
      (nodeAt b2 b2.freepos).refcou = 0) := by
  unfold noderesize at hnr
  by_cases hg1 : c.error ≠ none
  · rw [if_pos hg1] at hnr
    have hcon := congrArg Prod.snd hnr
    simp at hcon
  · rw [if_neg hg1] at hnr
    by_cases hg2 : c.nodes.length ≥ c.maxnodesize ∧ c.maxnodesize > 0
    · rw [if_pos hg2] at hnr
      have hcon := congrArg Prod.snd hnr
      simp at hcon
    · rw [if_neg hg2] at hnr
      by_cases hg3 : resize_target c ≤ (c.nodes.length : Int)
      · rw [if_pos hg3] at hnr
        have hcon := congrArg Prod.snd hnr
        simp at hcon
      · rw [if_neg hg3] at hnr
        push_neg at hg3
        have hb2 : b2 = cacheresize (resize_rechainFrom ({ c with nodes := ((c.nodes.map fun (nd : BddNode) => { nd with hash := 0 }) ++ (List.range ((resize_target c).toNat - c.nodes.length)).map fun (k : Nat) => ({ refcou := 0, level := 0, low := -1, high := 0, hash := 0, next := (c.nodes.length : Int) + k + 1 } : BddNode)), freepos := 0, freenum := 0 } : BDD)
            (({ c with nodes := ((c.nodes.map fun (nd : BddNode) => { nd with hash := 0 }) ++ (List.range ((resize_target c).toNat - c.nodes.length)).map fun (k : Nat) => ({ refcou := 0, level := 0, low := -1, high := 0, hash := 0, next := (c.nodes.length : Int) + k + 1 } : BddNode)), freepos := 0, freenum := 0 } : BDD).nodes.length - 1)) :=
          (congrArg Prod.fst hnr).symm
        have hlt : c.nodes.length < (resize_target c).toNat := by omega
        have hlengr : ((c.nodes.map fun (nd : BddNode) => { nd with hash := 0 }) ++ (List.range ((resize_target c).toNat - c.nodes.length)).map fun (k : Nat) => ({ refcou := 0, level := 0, low := -1, high := 0, hash := 0, next := (c.nodes.length : Int) + k + 1 } : BddNode)).length = (resize_target c).toNat := by
          rw [List.length_append, List.length_map, List.length_map,
            List.length_range]
          omega
        have hB1len : ({ c with nodes := ((c.nodes.map fun (nd : BddNode) => { nd with hash := 0 }) ++ (List.range ((resize_target c).toNat - c.nodes.length)).map fun (k : Nat) => ({ refcou := 0, level := 0, low := -1, high := 0, hash := 0, next := (c.nodes.length : Int) + k + 1 } : BddNode)), freepos := 0, freenum := 0 } : BDD).nodes.length =
            (resize_target c).toNat := hlengr
        rw [hB1len] at hb2
        have hold : ∀ k : Nat, k < c.nodes.length →
            nodeAt ({ c with nodes := ((c.nodes.map fun (nd : BddNode) => { nd with hash := 0 }) ++ (List.range ((resize_target c).toNat - c.nodes.length)).map fun (k : Nat) => ({ refcou := 0, level := 0, low := -1, high := 0, hash := 0, next := (c.nodes.length : Int) + k + 1 } : BddNode)), freepos := 0, freenum := 0 } : BDD) (k : Int) =
              { nodeAt c (k : Int) with hash := 0 } := by
          intro k hk
          show ((c.nodes.map fun (nd : BddNode) => { nd with hash := 0 }) ++ (List.range ((resize_target c).toNat - c.nodes.length)).map fun (k : Nat) => ({ refcou := 0, level := 0, low := -1, high := 0, hash := 0, next := (c.nodes.length : Int) + k + 1 } : BddNode)).getD k default = _
          rw [qs_getD_append_lt _ _ k default
            (by rw [List.length_map]; exact hk)]
          rw [qs_getD_map _ _ k default default hk]
          rfl
        have hnew : ∀ k : Nat, c.nodes.length ≤ k →
            k < (resize_target c).toNat →
            (nodeAt ({ c with nodes := ((c.nodes.map fun (nd : BddNode) => { nd with hash := 0 }) ++ (List.range ((resize_target c).toNat - c.nodes.length)).map fun (k : Nat) => ({ refcou := 0, level := 0, low := -1, high := 0, hash := 0, next := (c.nodes.length : Int) + k + 1 } : BddNode)), freepos := 0, freenum := 0 } : BDD) (k : Int)).low = -1 ∧
            (nodeAt ({ c with nodes := ((c.nodes.map fun (nd : BddNode) => { nd with hash := 0 }) ++ (List.range ((resize_target c).toNat - c.nodes.length)).map fun (k : Nat) => ({ refcou := 0, level := 0, low := -1, high := 0, hash := 0, next := (c.nodes.length : Int) + k + 1 } : BddNode)), freepos := 0, freenum := 0 } : BDD) (k : Int)).refcou = 0 := by
          intro k hk1 hk2
          have hmem : ((c.nodes.map fun (nd : BddNode) => { nd with hash := 0 }) ++ (List.range ((resize_target c).toNat - c.nodes.length)).map fun (k : Nat) => ({ refcou := 0, level := 0, low := -1, high := 0, hash := 0, next := (c.nodes.length : Int) + k + 1 } : BddNode)).getD k default ∈
              (List.range ((resize_target c).toNat - c.nodes.length)).map (fun (j : Nat) => ({ refcou := 0, level := 0, low := -1, high := 0, hash := 0, next := (c.nodes.length : Int) + j + 1 } : BddNode)) := by
            have hgetr : ((c.nodes.map fun (nd : BddNode) => { nd with hash := 0 }) ++ (List.range ((resize_target c).toNat - c.nodes.length)).map fun (k : Nat) => ({ refcou := 0, level := 0, low := -1, high := 0, hash := 0, next := (c.nodes.length : Int) + k + 1 } : BddNode)).getD k default =
                ((List.range ((resize_target c).toNat - c.nodes.length)).map (fun (j : Nat) => ({ refcou := 0, level := 0, low := -1, high := 0, hash := 0, next := (c.nodes.length : Int) + j + 1 } : BddNode))).getD (k - (c.nodes.map fun (nd : BddNode) => { nd with hash := 0 }).length) default :=
              qs_getD_append_right _ _ k default
                (by rw [List.length_map]; omega)
            rw [hgetr]
            apply qs_getD_mem
            simp only [List.length_map, List.length_range]
            omega
          obtain ⟨j, hj, hje⟩ := List.mem_map.mp hmem
          constructor
          · show (((c.nodes.map fun (nd : BddNode) => { nd with hash := 0 }) ++ (List.range ((resize_target c).toNat - c.nodes.length)).map fun (k : Nat) => ({ refcou := 0, level := 0, low := -1, high := 0, hash := 0, next := (c.nodes.length : Int) + k + 1 } : BddNode)).getD k default).low = -1
            rw [← hje]
          · show (((c.nodes.map fun (nd : BddNode) => { nd with hash := 0 }) ++ (List.range ((resize_target c).toNat - c.nodes.length)).map fun (k : Nat) => ({ refcou := 0, level := 0, low := -1, high := 0, hash := 0, next := (c.nodes.length : Int) + k + 1 } : BddNode)).getD k default).refcou = (0 : Int)
            rw [← hje]
        have hinit : RechainInv ({ c with nodes := ((c.nodes.map fun (nd : BddNode) => { nd with hash := 0 }) ++ (List.range ((resize_target c).toNat - c.nodes.length)).map fun (k : Nat) => ({ refcou := 0, level := 0, low := -1, high := 0, hash := 0, next := (c.nodes.length : Int) + k + 1 } : BddNode)), freepos := 0, freenum := 0 } : BDD) (resize_target c).toNat
            ({ c with nodes := ((c.nodes.map fun (nd : BddNode) => { nd with hash := 0 }) ++ (List.range ((resize_target c).toNat - c.nodes.length)).map fun (k : Nat) => ({ refcou := 0, level := 0, low := -1, high := 0, hash := 0, next := (c.nodes.length : Int) + k + 1 } : BddNode)), freepos := 0, freenum := 0 } : BDD) ((resize_target c).toNat - 1) := by
          refine ⟨hB1len, ?_, ?_⟩
          · intro k hklen
            exact ⟨rfl, rfl, rfl, rfl⟩
          · have hff : rfreedFrom ({ c with nodes := ((c.nodes.map fun (nd : BddNode) => { nd with hash := 0 }) ++ (List.range ((resize_target c).toNat - c.nodes.length)).map fun (k : Nat) => ({ refcou := 0, level := 0, low := -1, high := 0, hash := 0, next := (c.nodes.length : Int) + k + 1 } : BddNode)), freepos := 0, freenum := 0 } : BDD) (resize_target c).toNat
                (((resize_target c).toNat - 1) + 1) = [] := by
              rw [show ((resize_target c).toNat - 1) + 1 =
                (resize_target c).toNat by omega]
              exact rfreedFrom_nil _ _
            rw [hff]
            intro fuel hf
            rcases fuel with _ | f
            · exact absurd hf (Nat.not_lt_zero _)
            · rw [freeChain_succ,
                if_pos (show ({ c with nodes := ((c.nodes.map fun (nd : BddNode) => { nd with hash := 0 }) ++ (List.range ((resize_target c).toNat - c.nodes.length)).map fun (k : Nat) => ({ refcou := 0, level := 0, low := -1, high := 0, hash := 0, next := (c.nodes.length : Int) + k + 1 } : BddNode)), freepos := 0, freenum := 0 } : BDD).freepos = 0 from rfl)]
        obtain ⟨r_len, r_fields, r_chain⟩ :=
          rechain_loop ({ c with nodes := ((c.nodes.map fun (nd : BddNode) => { nd with hash := 0 }) ++ (List.range ((resize_target c).toNat - c.nodes.length)).map fun (k : Nat) => ({ refcou := 0, level := 0, low := -1, high := 0, hash := 0, next := (c.nodes.length : Int) + k + 1 } : BddNode)), freepos := 0, freenum := 0 } : BDD) (resize_target c).toNat
            ((resize_target c).toNat - 1) ({ c with nodes := ((c.nodes.map fun (nd : BddNode) => { nd with hash := 0 }) ++ (List.range ((resize_target c).toNat - c.nodes.length)).map fun (k : Nat) => ({ refcou := 0, level := 0, low := -1, high := 0, hash := 0, next := (c.nodes.length : Int) + k + 1 } : BddNode)), freepos := 0, freenum := 0 } : BDD) (by omega)
            (by omega) hinit
        set c4 := resize_rechainFrom ({ c with nodes := ((c.nodes.map fun (nd : BddNode) => { nd with hash := 0 }) ++ (List.range ((resize_target c).toNat - c.nodes.length)).map fun (k : Nat) => ({ refcou := 0, level := 0, low := -1, high := 0, hash := 0, next := (c.nodes.length : Int) + k + 1 } : BddNode)), freepos := 0, freenum := 0 } : BDD)
          ((resize_target c).toNat - 1) with hc4d
        have hnodes : ∀ m : Int, nodeAt b2 m = nodeAt c4 m := by
          intro m
          rw [hb2]
          rfl
        have hlenb2 : b2.nodes.length = (resize_target c).toNat := by
          rw [hb2]
          have h1 : (cacheresize c4).nodes.length = c4.nodes.length := rfl
          rw [h1, r_len]
        have hfpb2 : b2.freepos = c4.freepos := by
          rw [hb2]
          rfl
        refine ⟨by omega, ?_, ?_, ?_⟩
        · intro k hk
          have hf4 := r_fields k (by omega)
          have ho := hold k hk
          rw [hnodes ((k : Nat) : Int)]
          refine ⟨?_, ?_, ?_, ?_⟩
          · rw [hf4.1, ho]
          · rw [hf4.2.1, ho]
          · rw [hf4.2.2.1, ho]
          · rw [hf4.2.2.2, ho]
        · intro k hk1 hk2
          rw [hlenb2] at hk2
          have hf4 := r_fields k (by omega)
          have hn := hnew k hk1 hk2
          rw [hnodes ((k : Nat) : Int)]
          exact ⟨by rw [hf4.2.1]; exact hn.1, by rw [hf4.2.2.2]; exact hn.2⟩
        · intro hfp0
          rw [hfpb2] at hfp0 ⊢
          have hlb : (rfreedFrom ({ c with nodes := ((c.nodes.map fun (nd : BddNode) => { nd with hash := 0 }) ++ (List.range ((resize_target c).toNat - c.nodes.length)).map fun (k : Nat) => ({ refcou := 0, level := 0, low := -1, high := 0, hash := 0, next := (c.nodes.length : Int) + k + 1 } : BddNode)), freepos := 0, freenum := 0 } : BDD) (resize_target c).toNat
              (1 + 1)).length < (resize_target c).toNat + 1 := by
            have h1 := rfreedFrom_length_le ({ c with nodes := ((c.nodes.map fun (nd : BddNode) => { nd with hash := 0 }) ++ (List.range ((resize_target c).toNat - c.nodes.length)).map fun (k : Nat) => ({ refcou := 0, level := 0, low := -1, high := 0, hash := 0, next := (c.nodes.length : Int) + k + 1 } : BddNode)), freepos := 0, freenum := 0 } : BDD)
              (resize_target c).toNat (1 + 1)
            omega
          have hchaineq := r_chain ((resize_target c).toNat + 1) hlb
          rw [freeChain_succ, if_neg hfp0] at hchaineq
          have hmemfp : c4.freepos ∈ rfreedFrom ({ c with nodes := ((c.nodes.map fun (nd : BddNode) => { nd with hash := 0 }) ++ (List.range ((resize_target c).toNat - c.nodes.length)).map fun (k : Nat) => ({ refcou := 0, level := 0, low := -1, high := 0, hash := 0, next := (c.nodes.length : Int) + k + 1 } : BddNode)), freepos := 0, freenum := 0 } : BDD)
              (resize_target c).toNat (1 + 1) := by
            rw [← hchaineq]
            exact List.mem_cons_self _ _
          obtain ⟨k0, hk01, hk02, hk0e, hk0f⟩ :=
            (rfreedFrom_mem ({ c with nodes := ((c.nodes.map fun (nd : BddNode) => { nd with hash := 0 }) ++ (List.range ((resize_target c).toNat - c.nodes.length)).map fun (k : Nat) => ({ refcou := 0, level := 0, low := -1, high := 0, hash := 0, next := (c.nodes.length : Int) + k + 1 } : BddNode)), freepos := 0, freenum := 0 } : BDD) (resize_target c).toNat
              (1 + 1) c4.freepos).mp hmemfp
          rw [not_not] at hk0f
          have hf4 := r_fields k0 hk02
          refine ⟨by omega, by rw [hlenb2]; omega, ?_, ?_⟩
          · rw [hnodes c4.freepos, hk0e, hf4.2.1]
            exact hk0f
          · rw [hnodes c4.freepos, hk0e, hf4.2.2.2]
            by_cases hk0old : k0 < c.nodes.length
            · have ho := hold k0 hk0old
              have hlowc : (nodeAt c ((k0 : Nat) : Int)).low = -1 := by
                have := hk0f
                rw [ho] at this
                exact this
              have := hfr k0 (by omega) hk0old hlowc
              rw [ho]
              exact this
            · exact (hnew k0 (by omega) hk02).2

/-- An internal slot that is not a protected live node has reference count
zero, by the clean-free-slot and nonnegative-refcount clauses of WF. -/
theorem unprotected_refcou_zero (b : BDD) (hb : WF b) (k : Nat)
    (hk2 : 2 ≤ k) (hk : k < b.nodes.length)
    (hnp : ¬(islive b (k : Int) ∧ RootReachable b (k : Int))) :
    (nodeAt b (k : Int)).refcou = 0 := by
  obtain ⟨h2, hv1, hvM, e1, e2, e3, e4, f1, f2, f3, f4, hlevbound, hliveC,
    hrc, hfree, hcanon, hchainP, hchainM, hfp, hrs⟩ := hb
  by_cases hlow : (nodeAt b (k : Int)).low = -1
  · exact hfree k hk hk2 hlow
  · have hlv : islive b (k : Int) := ⟨by omega, by omega, hlow⟩
    have h0 := hrc k hk
    by_contra hne0
    have hpos : 0 < (nodeAt b (k : Int)).refcou :=
      lt_of_le_of_ne h0 (fun hc => hne0 hc.symm)
    exact hnp ⟨hlv, Or.inr ⟨k, hk, hpos, Reaches.refl ((k : Nat) : Int)⟩⟩

/-- A failed unique-index walk means no live node stores the triple, via
the chain-membership clause of WF. -/
theorem makenode_noexist (b : BDD) (hb : WF b) (lvl : Nat) (lo hi : Int)
    (hfind : findnode b lvl lo hi (b.nodes.length + 1)
      (nodeAt b ((nodehash b lvl lo hi : Nat) : Int)).hash = none) :
    ∀ m : Nat, m < b.nodes.length → islive b (m : Int) →
      tripleOf b (m : Int) ≠ (lvl, lo, hi) := by
  obtain ⟨h2, hv1, hvM, e1, e2, e3, e4, f1, f2, f3, f4, hlevbound, hliveC,
    hrc, hfree, hcanon, hchainP, hchainM, hfp, hrs⟩ := hb
  intro m hmlen hmlive hmtrip
  have ht1 : (nodeAt b (m : Int)).level = lvl := congrArg Prod.fst hmtrip
  have ht23 := congrArg Prod.snd hmtrip
  have ht2 : (nodeAt b (m : Int)).low = lo := congrArg Prod.fst ht23
  have ht3 : (nodeAt b (m : Int)).high = hi := congrArg Prod.snd ht23
  obtain ⟨hcm, hptr⟩ := hchainM m hmlen hmlive
  have hptr_eq : ptrhash b (m : Int) = nodehash b lvl lo hi := by
    unfold ptrhash nodehash
    rw [show levelN b (m : Int) = lvl from ht1,
      show lowN b (m : Int) = lo from ht2,
      show highN b (m : Int) = hi from ht3]
  rw [hptr_eq] at hcm
  exact findnode_none_not_mem b lvl lo hi (b.nodes.length + 1) _
    (m : Int) hfind hcm ⟨ht1, ht2, ht3⟩

/-- Packaged contract of the allocation tail: on a state whose free head is
a dead internal slot with reference count zero and which holds no live node
with the requested triple, makenode_alloc returns the free head, now the
unique live carrier of the triple with reference count zero. -/
theorem makenode_alloc_spec (c : BDD) (lvl : Nat) (lo hi : Int) (h : Nat)
    (hne : lo ≠ hi)
    (hfp2 : 2 ≤ c.freepos) (hfplen : c.freepos < (c.nodes.length : Int))
    (hfplow : (nodeAt c c.freepos).low = -1)
    (hfprc : (nodeAt c c.freepos).refcou = 0)
    (hnoexist : ∀ m : Nat, m < c.nodes.length → islive c (m : Int) →
      tripleOf c (m : Int) ≠ (lvl, lo, hi)) :
    (makenode_alloc c lvl lo hi h).2 = c.freepos ∧
    (makenode_alloc c lvl lo hi h).1.nodes.length = c.nodes.length ∧
    (nodeAt (makenode_alloc c lvl lo hi h).1 c.freepos).level = lvl ∧
    (nodeAt (makenode_alloc c lvl lo hi h).1 c.freepos).low = lo ∧
    (nodeAt (makenode_alloc c lvl lo hi h).1 c.freepos).high = hi ∧
    (nodeAt (makenode_alloc c lvl lo hi h).1 c.freepos).refcou = 0 ∧
    (∀ m : Nat, m < c.nodes.length →
      islive (makenode_alloc c lvl lo hi h).1 (m : Int) →
      tripleOf (makenode_alloc c lvl lo hi h).1 (m : Int) = (lvl, lo, hi) →
      (m : Int) = c.freepos) := by
  have hfpcast : ((c.freepos.toNat : Nat) : Int) = c.freepos :=
    Int.toNat_of_nonneg (by omega)
  have hfptn : c.freepos.toNat < c.nodes.length := by omega
  obtain ⟨a1, a2, a3, a4, a5, a6, a7⟩ :=
    makenode_alloc_fields c lvl lo hi h hfptn
  refine ⟨a1, a2, a3, a4, a5, by rw [a6]; exact hfprc, ?_⟩
  intro m hmlen hmlive hmtrip
  by_cases hmeq : m = c.freepos.toNat
  · rw [hmeq, hfpcast]
  · have hmne : ((m : Nat) : Int).toNat ≠ c.freepos.toNat := by omega
    obtain ⟨w1, w2, w3, w4⟩ := a7 (m : Int) hmne
    have hmliveb : islive c (m : Int) := by
      obtain ⟨z1, z2, z3⟩ := hmlive
      refine ⟨z1, ?_, ?_⟩
      · rw [a2] at z2
        exact z2
      · rw [w2] at z3
        exact z3
    have hmtripb : tripleOf c (m : Int) = (lvl, lo, hi) := by
      rw [← hmtrip]
      unfold tripleOf
      rw [w1, w2, w3]
    exact absurd hmtripb (hnoexist m hmlen hmliveb)

/-- C1: under the makenode preconditions (a level below varnum, valid
operand nodes with strictly larger levels), makenode returns low on equal
children (reducedness); on a unique-index hit it returns the existing live
node storing the triple without touching the state, and that node is the
only live node with the triple (canonicity); on a miss with a free slot
available it pops the free list and returns a fresh slot (previously dead,
refcount 0) that now stores exactly the requested triple with refcount 0,
the returned node is reduced (its two children differ), and it is the only
live node of the new state carrying the triple; and on any miss,
whenever the call succeeds (returns a nonnegative id) -- including when the
free list was empty and a garbage collection and possibly a table resize
ran first -- the returned id is a fresh internal slot that was not a
protected live node of the input state and had reference count zero there,
it now stores exactly the requested triple with reference count zero, it is
reduced, and it is the only live node of the resulting state carrying the
triple. -/
theorem makenode_spec (b : BDD) (hb : WF b) (lvl : Nat) (lo hi : Int)
    (hlvl : lvl < b.varnum)
    (hlo : lo = 0 ∨ lo = 1 ∨ islive b lo)
    (hhi : hi = 0 ∨ hi = 1 ∨ islive b hi)
    (hlol : lvl < levelN b lo) (hhil : lvl < levelN b hi) :
    (lo = hi → makenode b lvl lo hi = (b, lo)) ∧
    (lo ≠ hi → ∀ res : Int,
      findnode b lvl lo hi (b.nodes.length + 1)
        (nodeAt b ((nodehash b lvl lo hi : Nat) : Int)).hash = some res →
      makenode b lvl lo hi = (b, res) ∧
      islive b res ∧
      (nodeAt b res).level = lvl ∧ (nodeAt b res).low = lo ∧
      (nodeAt b res).high = hi ∧
      (nodeAt b res).low ≠ (nodeAt b res).high ∧
      (∀ m : Nat, m < b.nodes.length → islive b (m : Int) →
        tripleOf b (m : Int) = (lvl, lo, hi) → (m : Int) = res)) ∧
    (lo ≠ hi →
      findnode b lvl lo hi (b.nodes.length + 1)
        (nodeAt b ((nodehash b lvl lo hi : Nat) : Int)).hash = none →
      b.freepos ≠ 0 →
      (makenode b lvl lo hi).2 = b.freepos ∧
      ¬ islive b (makenode b lvl lo hi).2 ∧
      (nodeAt b (makenode b lvl lo hi).2).refcou = 0 ∧
      (makenode b lvl lo hi).1.nodes.length = b.nodes.length ∧
      (nodeAt (makenode b lvl lo hi).1 (makenode b lvl lo hi).2).level =
        lvl ∧
      (nodeAt (makenode b lvl lo hi).1 (makenode b lvl lo hi).2).low = lo ∧
      (nodeAt (makenode b lvl lo hi).1 (makenode b lvl lo hi).2).high =
        hi ∧
      (nodeAt (makenode b lvl lo hi).1 (makenode b lvl lo hi).2).refcou =
        0 ∧
      (nodeAt (makenode b lvl lo hi).1 (makenode b lvl lo hi).2).low ≠
        (nodeAt (makenode b lvl lo hi).1 (makenode b lvl lo hi).2).high ∧
      (∀ m : Nat, m < b.nodes.length →
        islive (makenode b lvl lo hi).1 (m : Int) →
        tripleOf (makenode b lvl lo hi).1 (m : Int) = (lvl, lo, hi) →
        (m : Int) = (makenode b lvl lo hi).2)) ∧
    (lo ≠ hi →
      findnode b lvl lo hi (b.nodes.length + 1)
        (nodeAt b ((nodehash b lvl lo hi : Nat) : Int)).hash = none →
      0 ≤ (makenode b lvl lo hi).2 →
      2 ≤ (makenode b lvl lo hi).2 ∧
      ¬(islive b (makenode b lvl lo hi).2 ∧
        RootReachable b (makenode b lvl lo hi).2) ∧
      (nodeAt b (makenode b lvl lo hi).2).refcou = 0 ∧
      (nodeAt (makenode b lvl lo hi).1 (makenode b lvl lo hi).2).level =
        lvl ∧
      (nodeAt (makenode b lvl lo hi).1 (makenode b lvl lo hi).2).low =
        lo ∧
      (nodeAt (makenode b lvl lo hi).1 (makenode b lvl lo hi).2).high =
        hi ∧
      (nodeAt (makenode b lvl lo hi).1 (makenode b lvl lo hi).2).refcou =
        0 ∧
      (nodeAt (makenode b lvl lo hi).1 (makenode b lvl lo hi).2).low ≠
        (nodeAt (makenode b lvl lo hi).1 (makenode b lvl lo hi).2).high ∧
      (∀ m : Nat, m < (makenode b lvl lo hi).1.nodes.length →
        islive (makenode b lvl lo hi).1 (m : Int) →
        tripleOf (makenode b lvl lo hi).1 (m : Int) = (lvl, lo, hi) →
        (m : Int) = (makenode b lvl lo hi).2)) := by
  have hbK := hb
  obtain ⟨h2, hv1, hvM, e1, e2, e3, e4, f1, f2, f3, f4, hlevbound, hliveC,
    hrc, hfree, hcanon, hchainP, hchainM, hfp, hrs⟩ := hb
  have hlo1 : lo ≠ -1 := by
    rcases hlo with rfl | rfl | hl
    · omega
    · omega
    · have := hl.1
      omega
  have hhi1 : hi ≠ -1 := by
    rcases hhi with rfl | rfl | hl
    · omega
    · omega
    · have := hl.1
      omega
  refine ⟨?_, ?_, ?_, ?_⟩
  · intro heq
    unfold makenode
    rw [if_pos heq]
  · intro hne res hfind
    have hred : makenode b lvl lo hi = (b, res) := by
      unfold makenode
      rw [if_neg hne, if_neg (by push_neg; exact ⟨hlo1, hhi1⟩), hfind]
    have hh : nodehash b lvl lo hi < b.nodes.length :=
      nodehash_lt b lvl lo hi (by omega)
    have hcp := hchainP (nodehash b lvl lo hi) hh
    have hcp' : chainProper b (b.nodes.length + 1)
        (nodeAt b ((nodehash b lvl lo hi : Nat) : Int)).hash = true := hcp
    obtain ⟨hlive, hl1, hl2, hl3⟩ :=
      findnode_sound b lvl lo hi (b.nodes.length + 1) _ res hfind hcp'
    refine ⟨hred, hlive, hl1, hl2, hl3, by rw [hl2, hl3]; exact hne, ?_⟩
    intro m hmlen hmlive hmtrip
    have hrescast : ((res.toNat : Nat) : Int) = res :=
      Int.toNat_of_nonneg (by have := hlive.1; omega)
    have hreslen : res.toNat < b.nodes.length := by
      have := hlive.2.1
      omega
    have hreslive : islive b ((res.toNat : Nat) : Int) := by
      rw [hrescast]
      exact hlive
    have htres : tripleOf b ((res.toNat : Nat) : Int) = (lvl, lo, hi) := by
      rw [hrescast]
      unfold tripleOf
      rw [hl1, hl2, hl3]
    have := hcanon m hmlen res.toNat hreslen hmlive hreslive
      (by rw [hmtrip, htres])
    rw [this, hrescast]
  · intro hne hfind hfp0
    have hred : makenode b lvl lo hi =
        makenode_alloc b lvl lo hi (nodehash b lvl lo hi) := by
      unfold makenode
      rw [if_neg hne, if_neg (by push_neg; exact ⟨hlo1, hhi1⟩), hfind]
      rw [if_neg hfp0]
    obtain ⟨hfp2, hfplen, hfplow⟩ := hfp.resolve_left hfp0
    have hfpcast : ((b.freepos.toNat : Nat) : Int) = b.freepos :=
      Int.toNat_of_nonneg (by omega)
    have hfptn : b.freepos.toNat < b.nodes.length := by omega
    have hfprefcou : (nodeAt b b.freepos).refcou = 0 := by
      have := hfree b.freepos.toNat hfptn (by omega)
        (by rw [hfpcast]; exact hfplow)
      rwa [hfpcast] at this
    obtain ⟨a1, a2, a3, a4, a5, a6, a7⟩ :=
      makenode_alloc_fields b lvl lo hi (nodehash b lvl lo hi) hfptn
    have hnotlive : ¬ islive b b.freepos := by
      intro hcon
      exact hcon.2.2 hfplow
    have noexist : ∀ m : Nat, m < b.nodes.length → islive b (m : Int) →
        tripleOf b (m : Int) ≠ (lvl, lo, hi) := by
      intro m hmlen hmlive hmtrip
      have ht1 : (nodeAt b (m : Int)).level = lvl :=
        congrArg Prod.fst hmtrip
      have ht23 := congrArg Prod.snd hmtrip
      have ht2 : (nodeAt b (m : Int)).low = lo := congrArg Prod.fst ht23
      have ht3 : (nodeAt b (m : Int)).high = hi := congrArg Prod.snd ht23
      obtain ⟨hcm, hptr⟩ := hchainM m hmlen hmlive
      have hptr_eq : ptrhash b (m : Int) = nodehash b lvl lo hi := by
        unfold ptrhash nodehash
        rw [show levelN b (m : Int) = lvl from ht1,
          show lowN b (m : Int) = lo from ht2,
          show highN b (m : Int) = hi from ht3]
      rw [hptr_eq] at hcm
      exact findnode_none_not_mem b lvl lo hi (b.nodes.length + 1) _
        (m : Int) hfind hcm ⟨ht1, ht2, ht3⟩
    rw [hred, a1]
    refine ⟨rfl, hnotlive, hfprefcou, a2, a3, a4, a5, ?_, ?_, ?_⟩
    · rw [a6]
      exact hfprefcou
    · rw [a4, a5]
      exact hne
    · intro m hmlen hmlive hmtrip
      by_cases hmeq : m = b.freepos.toNat
      · rw [hmeq, hfpcast]
      · have hmne : ((m : Nat) : Int).toNat ≠ b.freepos.toNat := by omega
        obtain ⟨w1, w2, w3, w4⟩ := a7 (m : Int) hmne
        have hmliveb : islive b (m : Int) := by
          obtain ⟨z1, z2, z3⟩ := hmlive
          refine ⟨z1, ?_, ?_⟩
          · rw [a2] at z2
            exact z2
          · rw [w2] at z3
            exact z3
        have hmtripb : tripleOf b (m : Int) = (lvl, lo, hi) := by
          rw [← hmtrip]
          unfold tripleOf
          rw [w1, w2, w3]
      
        exact absurd hmtripb (noexist m hmlen hmliveb)

  · intro hne hfind hsucc
    have noexist := makenode_noexist b hbK lvl lo hi hfind
    by_cases hfp0 : b.freepos = 0
    · by_cases he : b.error = none
      · obtain ⟨g1, g2, g3, g4⟩ := gbc_facts b hbK he
        have hg1 := g1
        have hred1 : makenode b lvl lo hi = (if (gbc b).freenum * 100 / ((gbc b).nodes.length : Int) ≤ (gbc b).minfreenodes then (match noderesize (gbc b) with | (bb, true) => (seterror bb "Unable to free memory or resize BDD", -1) | (bb, false) => if bb.freepos = 0 then (seterror bb "Unable to resize BDD", -1) else makenode_alloc bb lvl lo hi (nodehash bb lvl lo hi)) else if (gbc b).freepos = 0 then (seterror (gbc b) "Unable to resize BDD", -1) else makenode_alloc (gbc b) lvl lo hi (nodehash b lvl lo hi)) := by
          unfold makenode
          rw [if_neg hne, if_neg (by push_neg; exact ⟨hlo1, hhi1⟩), hfind,
            if_pos hfp0]
        have noexistg : ∀ m : Nat, m < (gbc b).nodes.length →
            islive (gbc b) (m : Int) →
            tripleOf (gbc b) (m : Int) ≠ (lvl, lo, hi) := by
          intro m hmlen hmlive hmtrip
          rw [g1] at hmlen
          have hm2 : 2 ≤ m := by
            have := hmlive.1
            omega
          obtain ⟨q1, q2, q3, qlive⟩ := g2 m hm2 hmlen hmlive.2.2
          have hq : tripleOf b (m : Int) = (lvl, lo, hi) := by
            rw [← hmtrip]
            unfold tripleOf
            rw [q1, q2, q3]
          exact noexist m hmlen qlive hq
        by_cases hth : (gbc b).freenum * 100 / ((gbc b).nodes.length : Int) ≤ (gbc b).minfreenodes
        · have hred2 : makenode b lvl lo hi = (match noderesize (gbc b) with | (bb, true) => (seterror bb "Unable to free memory or resize BDD", -1) | (bb, false) => if bb.freepos = 0 then (seterror bb "Unable to resize BDD", -1) else makenode_alloc bb lvl lo hi (nodehash bb lvl lo hi)) := by
            rw [hred1, if_pos hth]
          rcases hnr : noderesize (gbc b) with ⟨b2, flag⟩
          cases flag with
          | true =>
            rw [hnr] at hred2
            have hred3 : makenode b lvl lo hi =
                (seterror b2 "Unable to free memory or resize BDD", -1) := by
              rw [hred2]
            rw [hred3] at hsucc
            have hs2 : ((seterror b2 "Unable to free memory or resize BDD",
                (-1 : Int)) : BDD × Int).2 = -1 := rfl
            rw [hs2] at hsucc
            exact absurd hsucc (by decide)
          | false =>
            rw [hnr] at hred2
            have hred3 : makenode b lvl lo hi = (if b2.freepos = 0 then (seterror b2 "Unable to resize BDD", -1) else makenode_alloc b2 lvl lo hi (nodehash b2 lvl lo hi)) := by
              rw [hred2]
            by_cases hfpb2 : b2.freepos = 0
            · rw [hred3, if_pos hfpb2] at hsucc
              have hs2 : ((seterror b2 "Unable to resize BDD",
                  (-1 : Int)) : BDD × Int).2 = -1 := rfl
              rw [hs2] at hsucc
              exact absurd hsucc (by decide)
            · have hfinal : makenode b lvl lo hi =
                  makenode_alloc b2 lvl lo hi (nodehash b2 lvl lo hi) := by
                rw [hred3, if_neg hfpb2]
              have h2leng : 2 ≤ (gbc b).nodes.length := by omega
              have hfrg : ∀ k : Nat, 2 ≤ k → k < (gbc b).nodes.length →
                  (nodeAt (gbc b) (k : Int)).low = -1 →
                  (nodeAt (gbc b) (k : Int)).refcou = 0 := by
                intro k hk2 hklen hklow
                rw [g1] at hklen
                exact (g3 k hk2 hklen hklow).1
              obtain ⟨rs1, rs2, rs3, rs4⟩ :=
                noderesize_success (gbc b) h2leng hfrg b2 hnr
              obtain ⟨t2, tlen, tlow, trc⟩ := rs4 hfpb2
              have noexistb2 : ∀ m : Nat, m < b2.nodes.length →
                  islive b2 (m : Int) →
                  tripleOf b2 (m : Int) ≠ (lvl, lo, hi) := by
                intro m hmlen hmlive hmtrip
                by_cases hmold : m < (gbc b).nodes.length
                · obtain ⟨u1, u2, u3, u4⟩ := rs2 m hmold
                  have hmliveg : islive (gbc b) (m : Int) := by
                    obtain ⟨z1, z2, z3⟩ := hmlive
                    refine ⟨z1, by omega, ?_⟩
                    rw [u2] at z3
                    exact z3
                  have hq : tripleOf (gbc b) (m : Int) = (lvl, lo, hi) := by
                    rw [← hmtrip]
                    unfold tripleOf
                    rw [u1, u2, u3]
                  exact noexistg m hmold hmliveg hq
                · exact absurd (rs3 m (by omega) hmlen).1 hmlive.2.2
              obtain ⟨s1, s2, s3, s4, s5, s6, s7⟩ :=
                makenode_alloc_spec b2 lvl lo hi (nodehash b2 lvl lo hi)
                  hne t2 tlen tlow trc noexistb2
              have hrcast : ((b2.freepos.toNat : Nat) : Int) = b2.freepos :=
                Int.toNat_of_nonneg (by omega)
              have htn2 : 2 ≤ b2.freepos.toNat := by omega
              have hboth : ¬(islive b b2.freepos ∧
                  RootReachable b b2.freepos) ∧
                  (nodeAt b b2.freepos).refcou = 0 := by
                by_cases hrold : b2.freepos.toNat < (gbc b).nodes.length
                · have hu := (rs2 b2.freepos.toNat hrold).2.1
                  rw [hrcast] at hu
                  have hlowg : (nodeAt (gbc b) b2.freepos).low = -1 := by
                    rw [← hu]
                    exact tlow
                  have hg3 := g3 b2.freepos.toNat htn2 (by omega)
                    (by rw [hrcast]; exact hlowg)
                  have hnptn := hg3.2
                  constructor
                  · rw [← hrcast]
                    exact hnptn
                  · have hz := unprotected_refcou_zero b hbK
                      b2.freepos.toNat htn2 (by omega) hnptn
                    rwa [hrcast] at hz
                · constructor
                  · intro hcon
                    have hlt := hcon.1.2.1
                    omega
                  · have hout : nodeAt b b2.freepos = default := by
                      show b.nodes.getD b2.freepos.toNat default = default
                      exact qs_getD_out _ _ _ (by omega)
                    rw [hout]
                    rfl
              rw [hfinal, s1]
              refine ⟨t2, hboth.1, hboth.2, s3, s4, s5, s6, ?_, ?_⟩
              · rw [s4, s5]
                exact hne
              · intro m hmlen hmlive hmtrip
                rw [s2] at hmlen
                exact s7 m hmlen hmlive hmtrip
        · have hred2 : makenode b lvl lo hi = (if (gbc b).freepos = 0 then (seterror (gbc b) "Unable to resize BDD", -1) else makenode_alloc (gbc b) lvl lo hi (nodehash b lvl lo hi)) := by
            rw [hred1, if_neg hth]
          by_cases hfpg : (gbc b).freepos = 0
          · rw [hred2, if_pos hfpg] at hsucc
            have hs2 : ((seterror (gbc b) "Unable to resize BDD",
                (-1 : Int)) : BDD × Int).2 = -1 := rfl
            rw [hs2] at hsucc
            exact absurd hsucc (by decide)
          · have hfinal : makenode b lvl lo hi =
                makenode_alloc (gbc b) lvl lo hi (nodehash b lvl lo hi) := by
              rw [hred2, if_neg hfpg]
            obtain ⟨t2, tlen0, tlow⟩ := g4 hfpg
            have hgcast : (((gbc b).freepos.toNat : Nat) : Int) =
                (gbc b).freepos := Int.toNat_of_nonneg (by omega)
            have htn2 : 2 ≤ (gbc b).freepos.toNat := by omega
            have htnlen : (gbc b).freepos.toNat < b.nodes.length := by omega
            have hg3 := g3 (gbc b).freepos.toNat htn2 htnlen
              (by rw [hgcast]; exact tlow)
            have trc : (nodeAt (gbc b) (gbc b).freepos).refcou = 0 := by
              have hz := hg3.1
              rwa [hgcast] at hz
            have tlen : (gbc b).freepos < ((gbc b).nodes.length : Int) := by
              rw [g1]
              exact tlen0
            obtain ⟨s1, s2, s3, s4, s5, s6, s7⟩ :=
              makenode_alloc_spec (gbc b) lvl lo hi (nodehash b lvl lo hi)
                hne t2 tlen tlow trc noexistg
            have hnpb : ¬(islive b (gbc b).freepos ∧
                RootReachable b (gbc b).freepos) := by
              rw [← hgcast]
              exact hg3.2
            have hrcb : (nodeAt b (gbc b).freepos).refcou = 0 := by
              have hz := unprotected_refcou_zero b hbK (gbc b).freepos.toNat
                htn2 htnlen hg3.2
              rwa [hgcast] at hz
            rw [hfinal, s1]
            refine ⟨t2, hnpb, hrcb, s3, s4, s5, s6, ?_, ?_⟩
            · rw [s4, s5]
              exact hne
            · intro m hmlen hmlive hmtrip
              rw [s2] at hmlen
              exact s7 m hmlen hmlive hmtrip
      · have hgerr : gbc b = b := by
          unfold gbc
          rw [if_pos he]
        have hred1 : makenode b lvl lo hi = (if b.freenum * 100 / (b.nodes.length : Int) ≤ b.minfreenodes then (match noderesize b with | (bb, true) => (seterror bb "Unable to free memory or resize BDD", -1) | (bb, false) => if bb.freepos = 0 then (seterror bb "Unable to resize BDD", -1) else makenode_alloc bb lvl lo hi (nodehash bb lvl lo hi)) else if b.freepos = 0 then (seterror b "Unable to resize BDD", -1) else makenode_alloc b lvl lo hi (nodehash b lvl lo hi)) := by
          unfold makenode
          rw [if_neg hne, if_neg (by push_neg; exact ⟨hlo1, hhi1⟩), hfind,
            if_pos hfp0, hgerr]
        by_cases hth : b.freenum * 100 / (b.nodes.length : Int) ≤ b.minfreenodes
        · have hnrerr : noderesize b =
              (seterror b "Error before resizing", true) := by
            unfold noderesize
            rw [if_pos he]
          have hred3 : makenode b lvl lo hi = (seterror (seterror b "Error before resizing") "Unable to free memory or resize BDD", -1) := by
            rw [hred1, if_pos hth, hnrerr]
          rw [hred3] at hsucc
          have hs2 : ((seterror (seterror b "Error before resizing") "Unable to free memory or resize BDD", (-1 : Int)) : BDD × Int).2 = -1 := rfl
          rw [hs2] at hsucc
          exact absurd hsucc (by decide)
        · have hred3 : makenode b lvl lo hi =
              (seterror b "Unable to resize BDD", -1) := by
            rw [hred1, if_neg hth, if_pos hfp0]
          rw [hred3] at hsucc
          have hs2 : ((seterror b "Unable to resize BDD",
              (-1 : Int)) : BDD × Int).2 = -1 := rfl
          rw [hs2] at hsucc
          exact absurd hsucc (by decide)
    · have hredd : makenode b lvl lo hi =
          makenode_alloc b lvl lo hi (nodehash b lvl lo hi) := by
        unfold makenode
        rw [if_neg hne, if_neg (by push_neg; exact ⟨hlo1, hhi1⟩), hfind]
        rw [if_neg hfp0]
      obtain ⟨hfp2, hfplen, hfplow⟩ := hfp.resolve_left hfp0
      have hfpcast : ((b.freepos.toNat : Nat) : Int) = b.freepos :=
        Int.toNat_of_nonneg (by omega)
      have hfptn : b.freepos.toNat < b.nodes.length := by omega
      have hfprefcou : (nodeAt b b.freepos).refcou = 0 := by
        have := hfree b.freepos.toNat hfptn (by omega)
          (by rw [hfpcast]; exact hfplow)
        rwa [hfpcast] at this
      obtain ⟨s1, s2, s3, s4, s5, s6, s7⟩ :=
        makenode_alloc_spec b lvl lo hi (nodehash b lvl lo hi) hne hfp2
          hfplen hfplow hfprefcou noexist
      rw [hredd, s1]
      refine ⟨hfp2, ?_, hfprefcou, s3, s4, s5, s6, ?_, ?_⟩
      · intro hcon
        exact hcon.1.2.2 hfplow
      · rw [s4, s5]
        exact hne
      · intro m hmlen hmlive hmtrip
        rw [s2] at hmlen
        exact s7 m hmlen hmlive hmtrip

/-- Closed instantiation of makenode_spec at the concrete engine bW: the
triple (0, 0, 1) is the pinned literal node 2, a unique-index hit. -/
theorem makenode_spec_witness :
    ((0 : Int) = 1 → makenode bW 0 0 1 = (bW, 0)) ∧
    ((0 : Int) ≠ 1 → ∀ res : Int,
      findnode bW 0 0 1 (bW.nodes.length + 1)
        (nodeAt bW ((nodehash bW 0 0 1 : Nat) : Int)).hash = some res →
      makenode bW 0 0 1 = (bW, res) ∧
      islive bW res ∧
      (nodeAt bW res).level = 0 ∧ (nodeAt bW res).low = 0 ∧
      (nodeAt bW res).high = 1 ∧
      (nodeAt bW res).low ≠ (nodeAt bW res).high ∧
      (∀ m : Nat, m < bW.nodes.length → islive bW (m : Int) →
        tripleOf bW (m : Int) = (0, 0, 1) → (m : Int) = res)) ∧
    ((0 : Int) ≠ 1 →
      findnode bW 0 0 1 (bW.nodes.length + 1)
        (nodeAt bW ((nodehash bW 0 0 1 : Nat) : Int)).hash = none →
      bW.freepos ≠ 0 →
      (makenode bW 0 0 1).2 = bW.freepos ∧
      ¬ islive bW (makenode bW 0 0 1).2 ∧
      (nodeAt bW (makenode bW 0 0 1).2).refcou = 0 ∧
      (makenode bW 0 0 1).1.nodes.length = bW.nodes.length ∧
      (nodeAt (makenode bW 0 0 1).1 (makenode bW 0 0 1).2).level = 0 ∧
      (nodeAt (makenode bW 0 0 1).1 (makenode bW 0 0 1).2).low = 0 ∧
      (nodeAt (makenode bW 0 0 1).1 (makenode bW 0 0 1).2).high = 1 ∧
      (nodeAt (makenode bW 0 0 1).1 (makenode bW 0 0 1).2).refcou = 0 ∧
      (nodeAt (makenode bW 0 0 1).1 (makenode bW 0 0 1).2).low ≠
        (nodeAt (makenode bW 0 0 1).1 (makenode bW 0 0 1).2).high ∧
      (∀ m : Nat, m < bW.nodes.length →
        islive (makenode bW 0 0 1).1 (m : Int) →
        tripleOf (makenode bW 0 0 1).1 (m : Int) = (0, 0, 1) →
        (m : Int) = (makenode bW 0 0 1).2)) ∧
    ((0 : Int) ≠ 1 →
      findnode bW 0 0 1 (bW.nodes.length + 1)
        (nodeAt bW ((nodehash bW 0 0 1 : Nat) : Int)).hash = none →
      0 ≤ (makenode bW 0 0 1).2 →
      2 ≤ (makenode bW 0 0 1).2 ∧
      ¬(islive bW (makenode bW 0 0 1).2 ∧
        RootReachable bW (makenode bW 0 0 1).2) ∧
      (nodeAt bW (makenode bW 0 0 1).2).refcou = 0 ∧
      (nodeAt (makenode bW 0 0 1).1 (makenode bW 0 0 1).2).level = 0 ∧
      (nodeAt (makenode bW 0 0 1).1 (makenode bW 0 0 1).2).low = 0 ∧
      (nodeAt (makenode bW 0 0 1).1 (makenode bW 0 0 1).2).high = 1 ∧
      (nodeAt (makenode bW 0 0 1).1 (makenode bW 0 0 1).2).refcou = 0 ∧
      (nodeAt (makenode bW 0 0 1).1 (makenode bW 0 0 1).2).low ≠
        (nodeAt (makenode bW 0 0 1).1 (makenode bW 0 0 1).2).high ∧
      (∀ m : Nat, m < (makenode bW 0 0 1).1.nodes.length →
        islive (makenode bW 0 0 1).1 (m : Int) →
        tripleOf (makenode bW 0 0 1).1 (m : Int) = (0, 0, 1) →
        (m : Int) = (makenode bW 0 0 1).2)) :=
  makenode_spec bW (by decide) 0 0 1 (by decide) (by decide) (by decide)
    (by decide) (by decide)

/-- C5 is refuted by the code: on the engine bW and its literal node 2, a
callback that always reports an error is invoked during the enumeration (it
rejects every profile), yet Allsat returns nil instead of propagating the
error: the recursion stops on a callback error but deliberately returns nil
(errors.go, allsat). -/
theorem allsat_swallows_error :
    (∀ prof : List Int,
      (fun _ : List Int => (some "boom" : Option String)) prof =
        some "boom") ∧
    (allsat_rec bW (fun _ : List Int => (some "boom" : Option String))
      (bW.varnum + 1) 2
        (List.replicate bW.varnum (-1))).2 = none ∧
    Allsat bW (fun _ : List Int => (some "boom" : Option String)) 2 =
      none :=
  ⟨fun _ => rfl, rfl, rfl⟩

theorem seterror_ne_none (b : BDD) (msg : String) :
    (seterror b msg).error ≠ none := by
  unfold seterror
  cases b.error <;> simp

/-- C7 (amended): on a variable index outside the range, Ithvar sets the
engine error state but returns the False constant (the pinned handle
bddzero), while NIthvar sets the error state and returns the null handle; on
an index in range both leave the state unchanged and return the pinned
positive (respectively negative) literal of the variable. -/
theorem ithvar_spec (b : BDD) (hv : WFvars b) (i : Int) :
    (¬(0 ≤ i ∧ i < (b.varnum : Int)) →
      (Ithvar b i).2 = some 0 ∧ (Ithvar b i).1.error ≠ none ∧
      (NIthvar b i).2 = none ∧ (NIthvar b i).1.error ≠ none) ∧
    (0 ≤ i → i < (b.varnum : Int) →
      (Ithvar b i).1 = b ∧
      (Ithvar b i).2 = some (b.varset.getD i.toNat (0, 0)).1 ∧
      (nodeAt b (b.varset.getD i.toNat (0, 0)).1).level = i.toNat ∧
      (nodeAt b (b.varset.getD i.toNat (0, 0)).1).low = 0 ∧
      (nodeAt b (b.varset.getD i.toNat (0, 0)).1).high = 1 ∧
      (nodeAt b (b.varset.getD i.toNat (0, 0)).1).refcou = _MAXREFCOUNT ∧
      (NIthvar b i).1 = b ∧
      (NIthvar b i).2 = some (b.varset.getD i.toNat (0, 0)).2 ∧
      (nodeAt b (b.varset.getD i.toNat (0, 0)).2).level = i.toNat ∧
      (nodeAt b (b.varset.getD i.toNat (0, 0)).2).low = 1 ∧
      (nodeAt b (b.varset.getD i.toNat (0, 0)).2).high = 0 ∧
      (nodeAt b (b.varset.getD i.toNat (0, 0)).2).refcou = _MAXREFCOUNT) := by
  constructor
  · intro hrange
    have hcond : i < 0 ∨ (b.varnum : Int) ≤ i := by omega
    unfold Ithvar NIthvar
    rw [if_pos hcond, if_pos hcond]
    exact ⟨rfl, seterror_ne_none b _, rfl, seterror_ne_none b _⟩
  · intro h0 hlt
    have hcond : ¬(i < 0 ∨ (b.varnum : Int) ≤ i) := by omega
    have hiN : i.toNat < b.varnum := by omega
    obtain ⟨hlen, hall⟩ := hv
    obtain ⟨_, f1, f2, f3, f4, _, f5, f6, f7, f8⟩ := hall i.toNat hiN
    unfold Ithvar NIthvar
    rw [if_neg hcond, if_neg hcond]
    exact ⟨rfl, rfl, f1, f2, f3, f4, rfl, rfl, f5, f6, f7, f8⟩

/-- Closed instantiation of ithvar_spec at the concrete engine bW and the
in-range index 0. -/
theorem ithvar_spec_witness :
    (¬(0 ≤ (0 : Int) ∧ (0 : Int) < (bW.varnum : Int)) →
      (Ithvar bW 0).2 = some 0 ∧ (Ithvar bW 0).1.error ≠ none ∧
      (NIthvar bW 0).2 = none ∧ (NIthvar bW 0).1.error ≠ none) ∧
    ((0 : Int) ≤ 0 → (0 : Int) < (bW.varnum : Int) →
      (Ithvar bW 0).1 = bW ∧
      (Ithvar bW 0).2 = some (bW.varset.getD (0 : Int).toNat (0, 0)).1 ∧
      (nodeAt bW (bW.varset.getD (0 : Int).toNat (0, 0)).1).level =
        (0 : Int).toNat ∧
      (nodeAt bW (bW.varset.getD (0 : Int).toNat (0, 0)).1).low = 0 ∧
      (nodeAt bW (bW.varset.getD (0 : Int).toNat (0, 0)).1).high = 1 ∧
      (nodeAt bW (bW.varset.getD (0 : Int).toNat (0, 0)).1).refcou =
        _MAXREFCOUNT ∧
      (NIthvar bW 0).1 = bW ∧
      (NIthvar bW 0).2 = some (bW.varset.getD (0 : Int).toNat (0, 0)).2 ∧
      (nodeAt bW (bW.varset.getD (0 : Int).toNat (0, 0)).2).level =
        (0 : Int).toNat ∧
      (nodeAt bW (bW.varset.getD (0 : Int).toNat (0, 0)).2).low = 1 ∧
      (nodeAt bW (bW.varset.getD (0 : Int).toNat (0, 0)).2).high = 0 ∧
      (nodeAt bW (bW.varset.getD (0 : Int).toNat (0, 0)).2).refcou =
        _MAXREFCOUNT) :=
  ithvar_spec bW (by decide) 0

/-- C7 counterexample to the claim as stated: at the out-of-range index 1 of
the one-variable engine bW, Ithvar returns the False constant handle (some
0), not the null handle the claim requires (the error state is set, as
claimed). -/
theorem ithvar_oob_returns_false :
    (Ithvar bW 1).2 = some 0 ∧ (Ithvar bW 1).2 ≠ none ∧
    (Ithvar bW 1).1.error ≠ none := by
  refine ⟨rfl, by intro hcon; exact Option.noConfusion (rfl.trans hcon : some (0 : Int) = none), ?_⟩
  intro hcon
  simp [Ithvar, seterror, bW] at hcon

end Rudd
